import Mathlib

/-!
Verification of the execution planner and runtime of a visual workflow
builder (reference-graph planning, cycle detection, planned call counts,
sequential node execution with repeat/loop semantics, cancellation, and a
path-based reference resolver).

The definitions below are a shallow embedding of the TypeScript source:
JSON values become an inductive `Json`; JS `Map`/`Set`/objects become
association lists with JS insertion-order semantics; `undefined` becomes
`Option`; thrown exceptions become `Except`; the browser transport
(`fetch`), the abort signal, `JSON.parse`, and the external method
registry become oracle parameters of the run environment.
-/

/-- JSON-like values (the `unknown` values the source passes around).
Numbers are modelled as integers: no claim depends on numeric contents. -/
inductive Json where
  | null
  | bool (b : Bool)
  | num (n : Int)
  | str (s : String)
  | arr (elements : List Json)
  | obj (fields : List (String × Json))

/-- First-match association-list lookup (JS `Map.get` / object property read:
keys are unique in the maps the source builds). -/
def mapGet {α : Type} : List (String × α) → String → Option α
  | [], _ => none
  | (k, v) :: rest, key => if k = key then some v else mapGet rest key

/-- JS `Map.set` / object property write: overwrite in place if the key
exists (keeping its insertion position), else append. -/
def mapSet {α : Type} : List (String × α) → String → α → List (String × α)
  | [], key, value => [(key, value)]
  | (k, v) :: rest, key, value =>
    if k = key then (key, value) :: rest else (k, v) :: mapSet rest key value

/-- JS `Set.add` on a list kept in insertion order. -/
def setAdd (s : List String) (x : String) : List String :=
  if x ∈ s then s else s ++ [x]

/-- JS truthiness of a JSON value (`Boolean(v)`). -/
def jsTruthy : Json → Bool
  | .null => false
  | .bool b => b
  | .num n => n != 0
  | .str s => s ≠ ""
  | .arr _ => true
  | .obj _ => true

/-- JS truthiness of a possibly-`undefined` value. -/
def jsOptTruthy : Option Json → Bool
  | none => false
  | some v => jsTruthy v

/-! ## Path Resolver (src/src/lib/path.ts) -/

/-- A token of a parsed path: a `.key` segment or a `[index]` segment. -/
inductive PathTok where
  | key (k : String)
  | idx (i : Nat)
deriving DecidableEq

/-- The three characters with structural meaning in a path
(the character class `[^.[\]]` of the source's tokenizer regex). -/
def isPathSpecial (c : Char) : Bool := c = '.' || c = '[' || c = ']'

/-- Decimal value of a digit run (`Number(match[3])` on the bracket group). -/
def digitsVal (ds : List Char) : Nat :=
  ds.foldl (fun acc c => acc * 10 + (c.toNat - 48)) 0

/-- The scan loop of `tokenizePath`, on the character list of the path.
Mirrors successive matches of `([^.[\]]+)|(\[(\d+)\])`: a maximal run of
non-special characters is a key token; `[digits]` is an index token;
characters at which neither alternative can match are skipped.  Every step
consumes at least one character, so fuel equal to the character count makes
the recursion structural without cutting any run short. -/
def tokenizeAux : Nat → List Char → List PathTok
  | 0, _ => []
  | _, [] => []
  | fuel + 1, c :: rest =>
    if c = '.' ∨ c = ']' then
      -- neither alternative can start here; the scan moves on
      tokenizeAux fuel rest
    else if c = '[' then
      -- the bracket alternative needs at least one digit and a closing `]`
      if rest.takeWhile Char.isDigit ≠ [] ∧
          (rest.dropWhile Char.isDigit).head? = some ']' then
        .idx (digitsVal (rest.takeWhile Char.isDigit)) ::
          tokenizeAux fuel (rest.dropWhile Char.isDigit).tail
      else tokenizeAux fuel rest
    else
      .key (String.mk (c :: rest.takeWhile (fun d => !isPathSpecial d))) ::
        tokenizeAux fuel (rest.dropWhile (fun d => !isPathSpecial d))

/-- Tokenize a character list. -/
def tokenizeChars (cs : List Char) : List PathTok :=
  tokenizeAux cs.length cs

/-- `tokenizePath` on a string. -/
def tokenizePath (path : String) : List PathTok :=
  tokenizeChars path.data

/-- A string that JS treats as a canonical array index (`"0"`, `"15"`, …:
all digits, no leading zero except `"0"` itself). -/
def canonIndex (k : String) : Option Nat :=
  match k.data with
  | [] => none
  | c :: cs =>
    if (c :: cs).all Char.isDigit ∧ (c ≠ '0' ∨ cs = []) then
      some (digitsVal (c :: cs))
    else none

/-- The token-consuming loop of `getByPath`.  `none` models `undefined`:
descending through `null` short-circuits, an index token on a non-array
yields `undefined`, and a key token on a primitive (`typeof ≠ "object"`)
yields `undefined`.  A key token on an array mirrors JS property access
(`length` and canonical numeric indices resolve, all else is absent). -/
def getTokens : Json → List PathTok → Option Json
  | v, [] => some v
  | .null, _ :: _ => none
  | v, .idx i :: rest =>
    match v with
    | .arr xs =>
      match xs.get? i with
      | some w => getTokens w rest
      | none => none
    | _ => none
  | v, .key k :: rest =>
    match v with
    | .obj fields =>
      match mapGet fields k with
      | some w => getTokens w rest
      | none => none
    | .arr xs =>
      if k = "length" then getTokens (.num xs.length) rest
      else
        match canonIndex k with
        | some i =>
          match xs.get? i with
          | some w => getTokens w rest
          | none => none
        | none => none
    | _ => none

/-- `getByPath(obj, path)`: the empty path returns the value itself, any
other path is tokenized and followed. -/
def getByPath (obj : Json) (path : String) : Option Json :=
  if path = "" then some obj else getTokens obj (tokenizePath path)

/-- Decimal digit characters of a natural number (the JS `${index}`
rendering).  Each step divides by 10, so fuel equal to the number itself
more than covers the recursion depth. -/
def natDigitsAux : Nat → Nat → List Char
  | 0, n => [Nat.digitChar (n % 10)]
  | fuel + 1, n =>
    if n < 10 then [Nat.digitChar n]
    else natDigitsAux fuel (n / 10) ++ [Nat.digitChar (n % 10)]

/-- Decimal rendering of a natural number. -/
def natToString (n : Nat) : String :=
  ⟨natDigitsAux n n⟩

/-- Rendering of the next path for an array element (`${basePath}[${index}]`). -/
def renderIdxPath (basePath : String) (i : Nat) : String :=
  basePath ++ "[" ++ natToString i ++ "]"

/-- Rendering of the next path for an object entry
(`basePath ? basePath + "." + key : key`). -/
def renderKeyPath (basePath : String) (k : String) : String :=
  if basePath = "" then k else basePath ++ "." ++ k

mutual
/-- `collectPaths`: pre-order enumeration of every reachable path,
depth-bounded. -/
def collectPaths (v : Json) (basePath : String) (depth maxDepth : Nat) :
    List String :=
  if depth > maxDepth then []
  else
    match v with
    | .arr xs => collectPathsArr xs 0 basePath depth maxDepth
    | .obj fields => collectPathsObj fields basePath depth maxDepth
    | _ => []

/-- The array loop of `collectPaths` (index-carrying). -/
def collectPathsArr (xs : List Json) (i : Nat) (basePath : String)
    (depth maxDepth : Nat) : List String :=
  match xs with
  | [] => []
  | x :: rest =>
    renderIdxPath basePath i ::
      (collectPaths x (renderIdxPath basePath i) (depth + 1) maxDepth ++
        collectPathsArr rest (i + 1) basePath depth maxDepth)

/-- The object loop of `collectPaths` (over `Object.entries`). -/
def collectPathsObj (fields : List (String × Json)) (basePath : String)
    (depth maxDepth : Nat) : List String :=
  match fields with
  | [] => []
  | (k, child) :: rest =>
    renderKeyPath basePath k ::
      (collectPaths child (renderKeyPath basePath k) (depth + 1) maxDepth ++
        collectPathsObj rest basePath depth maxDepth)
end

/-- `enumeratePaths(obj, maxDepth = 8)`. -/
def enumeratePaths (obj : Json) (maxDepth : Nat := 8) : List String :=
  collectPaths obj "" 0 maxDepth

mutual
/-- Ghost instrumentation of `collectPaths`: the same traversal, also
recording the value sitting at each emitted path (each `paths.push(nextPath)`
happens exactly when the traversal is looking at that child value). -/
def collectEntries (v : Json) (basePath : String) (depth maxDepth : Nat) :
    List (String × Json) :=
  if depth > maxDepth then []
  else
    match v with
    | .arr xs => collectEntriesArr xs 0 basePath depth maxDepth
    | .obj fields => collectEntriesObj fields basePath depth maxDepth
    | _ => []

/-- Array loop of `collectEntries`. -/
def collectEntriesArr (xs : List Json) (i : Nat) (basePath : String)
    (depth maxDepth : Nat) : List (String × Json) :=
  match xs with
  | [] => []
  | x :: rest =>
    (renderIdxPath basePath i, x) ::
      (collectEntries x (renderIdxPath basePath i) (depth + 1) maxDepth ++
        collectEntriesArr rest (i + 1) basePath depth maxDepth)

/-- Object loop of `collectEntries`. -/
def collectEntriesObj (fields : List (String × Json)) (basePath : String)
    (depth maxDepth : Nat) : List (String × Json) :=
  match fields with
  | [] => []
  | (k, child) :: rest =>
    (renderKeyPath basePath k, child) ::
      (collectEntries child (renderKeyPath basePath k) (depth + 1) maxDepth ++
        collectEntriesObj rest basePath depth maxDepth)
end

/-! ## Workflow data model (store WorkflowNode and friends) -/

/-- `RepeatUnit`. -/
inductive RepeatUnit where
  | milliseconds
  | seconds
  | minutes
deriving DecidableEq

/-- `NodeRepeat` (schema-validated integers: `count ≥ 1`, `interval ≥ 0`,
`loopCount ≥ 0`; `Math.floor` on these fields is the identity, so they are
carried as integers). -/
structure NodeRepeat where
  enabled : Bool
  count : Int
  interval : Int
  unit : RepeatUnit
  loopCount : Int
deriving DecidableEq

/-- `ParamValue`: a literal JSON value or a reference to another node's
output at a path. -/
inductive ParamValue where
  | literal (value : Json)
  | ref (nodeId : String) (path : String)

/-- `ParamBinding`. -/
structure ParamBinding where
  name : String
  value : ParamValue

/-- `NodeStatus`. -/
inductive NodeStatus where
  | idle
  | running
  | success
  | error
deriving DecidableEq

/-- `schemaMode`. -/
inductive SchemaMode where
  | known
  | unknown
deriving DecidableEq

/-- `WorkflowNode` of the runtime store.  The float-valued `position`
field is layout-only and irrelevant to execution, so it is not carried.
The `repeat` field is named `repeatCfg` (`repeat` is a Lean keyword). -/
structure WorkflowNode where
  id : String
  name : String
  method : String
  schemaMode : SchemaMode
  params : List ParamBinding
  rawParamsJson : String
  repeatCfg : NodeRepeat
  output : Option Json
  error : Option String
  status : NodeStatus
  outputOpen : Bool

/-- The store's `nodes: Record<string, WorkflowNode>`, as an association
list (the engine only ever looks nodes up by id, never iterates the
record). -/
def NodeMap : Type := List (String × WorkflowNode)

/-- `nodes[nodeId]`. -/
def nodeGet (nodes : NodeMap) (nodeId : String) : Option WorkflowNode :=
  mapGet nodes nodeId

/-! ## Reference Graph Builder and Cycle Detector / Topological Planner -/

/-- One edge insertion of `buildReferenceAdjacency`
(`adjacency.get(src) ?? new Set(); targets.add(node.id); adjacency.set`). -/
def adjInsert : List (String × List String) → String → String →
    List (String × List String)
  | [], src, tgt => [(src, [tgt])]
  | (k, ts) :: rest, src, tgt =>
    if k = src then (k, setAdd ts tgt) :: rest
    else (k, ts) :: adjInsert rest src tgt

/-- `buildReferenceAdjacency(nodeIds, nodes)`: adjacency
`sourceId → dependents`, induced by `ref` bindings whose source is also in
`nodeIds`. -/
def buildReferenceAdjacency (nodeIds : List String) (nodes : NodeMap) :
    List (String × List String) :=
  nodeIds.foldl
    (fun adj nodeId =>
      match nodeGet nodes nodeId with
      | none => adj
      | some node =>
        node.params.foldl
          (fun adj param =>
            match param.value with
            | .literal _ => adj
            | .ref sourceNodeId _ =>
              if sourceNodeId ∈ nodeIds then adjInsert adj sourceNodeId node.id
              else adj)
          adj)
    []

/-- `adjacency.get(id)` with the absent case read as no targets. -/
def adjGet (adj : List (String × List String)) (id : String) : List String :=
  (mapGet adj id).getD []

/-- The index map of `buildDependencyExecutionOrder`
(`nodeId → index`, later entries overwriting, absent read as 0). -/
def indexOfNode (orderedNodeIds : List String) (id : String) : Nat :=
  ((orderedNodeIds.enum.filter (fun p => p.2 = id)).getLast?.map Prod.fst).getD 0

/-- Insertion into a queue kept sorted ascending by display index
(the repeated `queue.sort((a, b) => idx(a) - idx(b))`; queue elements have
pairwise distinct indices in the planner, so comparator ties are moot). -/
def insertByIdx (idxOf : String → Nat) (x : String) : List String → List String
  | [] => [x]
  | y :: ys => if idxOf x < idxOf y then x :: y :: ys else y :: insertByIdx idxOf x ys

/-- Sort a queue ascending by display index. -/
def sortByIdx (idxOf : String → Nat) (l : List String) : List String :=
  l.foldr (insertByIdx idxOf) []

/-- The per-popped-node inner loop of the planner: decrement every target's
indegree and collect those that just reached zero, in target order. -/
def kahnRelax (targets : List String) (indeg : String → Int) (pushed : List String) :
    (String → Int) × List String :=
  targets.foldl
    (fun acc t =>
      let d := acc.1 t - 1
      (fun x => if x = t then d else acc.1 x,
       if d = 0 then acc.2 ++ [t] else acc.2))
    (indeg, pushed)

/-- The `while (queue.length > 0)` loop of `buildDependencyExecutionOrder`.
Each iteration pops the queue head (the smallest-index ready node), skips a
falsy id (`if (!nodeId) continue`), appends the node to the result, relaxes
its outgoing edges and re-sorts the queue.  `fuel` bounds the iterations;
`2 * |orderedNodeIds| + 1` covers every possible run (each node enters the
queue at most once by the initial seeding and at most once by a
zero-crossing decrement, since indegrees only ever decrease). -/
def kahnLoop (adj : List (String × List String)) (idxOf : String → Nat) :
    Nat → List String → (String → Int) → List String → List String
  | 0, _, _, result => result
  | _ + 1, [], _, result => result
  | fuel + 1, nodeId :: rest, indeg, result =>
    if nodeId = "" then kahnLoop adj idxOf fuel rest indeg result
    else
      let relaxed := kahnRelax (adjGet adj nodeId) indeg []
      kahnLoop adj idxOf fuel (sortByIdx idxOf (rest ++ relaxed.2)) relaxed.1
        (result ++ [nodeId])

/-- The initial indegree map: 0 for every ordered node, then one increment
per adjacency target occurrence. -/
def initialIndegree (adj : List (String × List String)) (id : String) : Int :=
  adj.foldl (fun acc entry => acc + (entry.2.count id : Int)) 0

/-- The result of the planner. -/
structure DependencyPlan where
  orderedNodeIds : List String
  hasCycle : Bool

/-- `buildDependencyExecutionOrder(order, nodes)`: Kahn's indegree
topological sort seeded and tie-broken by display order; on a cycle the
returned order degrades to the (existing-node-filtered) display order. -/
def buildDependencyExecutionOrder (order : List String) (nodes : NodeMap) :
    DependencyPlan :=
  let orderedNodeIds := order.filter (fun nodeId => (nodeGet nodes nodeId).isSome)
  let idxOf := indexOfNode orderedNodeIds
  let adj := buildReferenceAdjacency orderedNodeIds nodes
  let indeg := initialIndegree adj
  let queue := sortByIdx idxOf
    (orderedNodeIds.filter (fun nodeId => indeg nodeId = 0))
  let result := kahnLoop adj idxOf (2 * orderedNodeIds.length + 1) queue indeg []
  { orderedNodeIds := if result.length = orderedNodeIds.length then result
      else orderedNodeIds
    hasCycle := result.length ≠ orderedNodeIds.length }

/-- `referencesAnyNode(node, nodeIds)`. -/
def referencesAnyNode (node : WorkflowNode) (nodeIds : List String) : Bool :=
  node.params.any (fun param =>
    match param.value with
    | .ref sourceNodeId _ => sourceNodeId ∈ nodeIds
    | .literal _ => false)

/-- The scan loop of `getReferencedDownstreamNodeIds`. -/
def downstreamScan (nodes : NodeMap) (includedNodeIds : List String)
    (sourceNodeId : String) :
    List String → List String → List String → List String
  | [], _, referenced => referenced
  | nodeId :: rest, sourceIds, referenced =>
    if nodeId ∈ includedNodeIds ∧ nodeId ≠ sourceNodeId then
      match nodeGet nodes nodeId with
      | some node =>
        if referencesAnyNode node sourceIds then
          downstreamScan nodes includedNodeIds sourceNodeId rest
            (setAdd sourceIds nodeId) (referenced ++ [nodeId])
        else downstreamScan nodes includedNodeIds sourceNodeId rest sourceIds referenced
      | none => downstreamScan nodes includedNodeIds sourceNodeId rest sourceIds referenced
    else downstreamScan nodes includedNodeIds sourceNodeId rest sourceIds referenced

/-- `getReferencedDownstreamNodeIds(executionOrder, nodes, sourceNodeId,
includedNodeIds)`: transitive reference-dependents of `sourceNodeId`,
collected in execution order. -/
def getReferencedDownstreamNodeIds (executionOrder : List String) (nodes : NodeMap)
    (sourceNodeId : String) (includedNodeIds : List String) : List String :=
  downstreamScan nodes includedNodeIds sourceNodeId executionOrder [sourceNodeId] []

/-! ## Planned-Call-Count Calculator -/

/-- `PlannedCallCount = number | null` (`none` is the null/infinite
sentinel). -/
def PlannedCallCount : Type := Option Int

/-- `addPlannedCallCount`: a `null` entry is never overwritten; an absent
entry is set; a finite entry accumulates. -/
def addPlannedCallCount (callCountsByNodeId : List (String × PlannedCallCount))
    (nodeId : String) (count : Int) : List (String × PlannedCallCount) :=
  match mapGet callCountsByNodeId nodeId with
  | some none => callCountsByNodeId
  | none => mapSet callCountsByNodeId nodeId (some count)
  | some (some existing) => mapSet callCountsByNodeId nodeId (some (existing + count))

/-- `setPlannedCallCountInfinite`. -/
def setPlannedCallCountInfinite (callCountsByNodeId : List (String × PlannedCallCount))
    (nodeId : String) : List (String × PlannedCallCount) :=
  mapSet callCountsByNodeId nodeId none

/-- The loop of `calculatePlannedCallCounts`, with its skipped set; the
`loopCount == 0` branch `break`s out of the whole loop. -/
def plannedCallCountsLoop (nodes : NodeMap) (includedNodeIds : List String)
    (executionOrder : List String) :
    List String → List (String × PlannedCallCount) → List String →
    List (String × PlannedCallCount)
  | [], counts, _ => counts
  | nodeId :: rest, counts, skipped =>
    if nodeId ∈ includedNodeIds ∧ nodeId ∉ skipped then
      match nodeGet nodes nodeId with
      | none => plannedCallCountsLoop nodes includedNodeIds executionOrder rest counts skipped
      | some node =>
        if node.repeatCfg.enabled = false then
          plannedCallCountsLoop nodes includedNodeIds executionOrder rest
            (addPlannedCallCount counts nodeId 1) skipped
        else
          let downstreamNodeIds :=
            getReferencedDownstreamNodeIds executionOrder nodes nodeId includedNodeIds
          let repeatCount := max 1 node.repeatCfg.count
          let loopCount := max 0 node.repeatCfg.loopCount
          if loopCount = 0 then
            -- infinite: mark the node and all downstream dependents, then break
            downstreamNodeIds.foldl setPlannedCallCountInfinite
              (setPlannedCallCountInfinite counts nodeId)
          else
            let totalCalls := repeatCount * loopCount
            let counts := downstreamNodeIds.foldl
              (fun c d => addPlannedCallCount c d totalCalls)
              (addPlannedCallCount counts nodeId totalCalls)
            plannedCallCountsLoop nodes includedNodeIds executionOrder rest counts
              (downstreamNodeIds.foldl setAdd skipped)
    else plannedCallCountsLoop nodes includedNodeIds executionOrder rest counts skipped

/-- `calculatePlannedCallCounts(executionOrder, nodes, includedNodeIds)`. -/
def calculatePlannedCallCounts (executionOrder : List String) (nodes : NodeMap)
    (includedNodeIds : List String) : List (String × PlannedCallCount) :=
  plannedCallCountsLoop nodes includedNodeIds executionOrder executionOrder [] []

/-! ## Node Executor and Run Orchestrator model

The browser-side effects are made explicit: the method registry, the abort
signal, `fetch` and `JSON.parse` are oracles in a `RunEnv`; the store
mutations (`setNodeStatus`, `setNodeOutput`, call counters) and the run's
`outputsByNodeId` map live in a `RunState`; every abort-signal sample and
every transport call consumes one `tick` so the oracles can vary over the
run.  A trace records each node invocation (with the ids that have an
output in `outputsByNodeId` at that instant) and each interval wait. -/

/-- Transport kinds of the method registry. -/
inductive TransportKind where
  | jsonrpc
  | http
  | custom
deriving DecidableEq

/-- The HTTP part of a registry entry: whether `http.method === "POST"` and
the `{token}` placeholders of the path template (pre-extracted; the URL
string assembly itself is platform code with no engine-visible effect
beyond the missing-token error). -/
structure HttpConfig where
  isPost : Bool
  pathTokens : List String

/-- One declared parameter field of a table-style registry schema. -/
structure MethodField where
  name : String
  required : Bool

/-- An external method-registry entry, reduced to the fields the executor
reads: `transport` (absent read as `jsonrpc`), the table-style param fields
(absent when `params.kind !== "table"`), the `jsonrpcParamsStyle ===
"object"` flag, and the HTTP config. -/
structure MethodEntry where
  transport : Option TransportKind
  paramsFields : Option (List MethodField)
  jsonrpcParamsStyleObject : Bool
  http : Option HttpConfig

/-- Outcome of one `fetch` (response already text-decoded and passed
through `parseRpcResponse`, which is platform JSON parsing): a response
with its `ok` flag, status and parsed body; an `AbortError` rejection; or
another thrown error. -/
inductive FetchResult where
  | response (ok : Bool) (status : Nat) (body : Json)
  | abortError
  | jsError (message : String)

/-- The run environment: the external registry, the abort signal sampled
per tick, the transport oracle (per node id and tick), and platform
`JSON.parse` for raw params. -/
structure RunEnv where
  registry : String → Option MethodEntry
  signal : Nat → Bool
  fetchResult : String → Nat → FetchResult
  jsonParse : String → Except String Json

/-- `RunRangeResult`. -/
structure RunRangeResult where
  success : Bool
  canceled : Bool := false
  failedNodeId : Option String := none
  failedNodeName : Option String := none
  errorMessage : Option String := none
deriving DecidableEq

/-- One observable event of a run: a node invocation (recording which node
ids had an output in `outputsByNodeId` at that instant) or an interval
wait. -/
inductive TraceEvent where
  | invoke (nodeId : String) (outputsKnown : List String)
  | sleep (delayMs : Int)

/-- The mutable state a run reads and writes: per-node store fields
(status, error, output), live call counters and published targets, the
run's `outputsByNodeId` map, the status message, the oracle tick, and the
ghost trace. -/
structure RunState where
  statuses : String → NodeStatus
  errors : String → Option String
  storeOutputs : String → Option Json
  callCounts : String → Nat
  callTargets : List (String × PlannedCallCount)
  outputsByNodeId : List (String × Json)
  statusMessage : String
  tick : Nat
  trace : List TraceEvent

/-- `setNodeStatus(nodeId, status, error?)` (the store sets `error` to the
passed value, clearing it when omitted). -/
def setStatus (st : RunState) (id : String) (status : NodeStatus)
    (err : Option String) : RunState :=
  { st with
    statuses := fun x => if x = id then status else st.statuses x
    errors := fun x => if x = id then err else st.errors x }

/-- `setNodeOutput(nodeId, output)`. -/
def setStoreOutput (st : RunState) (id : String) (v : Json) : RunState :=
  { st with storeOutputs := fun x => if x = id then some v else st.storeOutputs x }

/-- `resolveParamValue(paramValue, outputsByNodeId)`: literals pass
through; a `ref` whose source has no recorded output, or whose path
resolves to nothing, throws. -/
def resolveParamValue (paramValue : ParamValue) (outputsByNodeId : List (String × Json)) :
    Except String Json :=
  match paramValue with
  | .literal value => .ok value
  | .ref nodeId path =>
    match mapGet outputsByNodeId nodeId with
    | none => .error ("Reference node " ++ nodeId ++ " has no output")
    | some sourceOutput =>
      match getByPath sourceOutput path with
      | none => .error ("Reference path not found: " ++ path)
      | some value => .ok value

mutual
/-- `pruneNullish`: drop `null` (and, in the JS original, `undefined`)
recursively from arrays and objects. -/
def pruneNullish : Json → Option Json
  | .null => none
  | .arr xs => some (.arr (pruneNullishArr xs))
  | .obj fields => some (.obj (pruneNullishObj fields))
  | .bool b => some (.bool b)
  | .num n => some (.num n)
  | .str s => some (.str s)

/-- Array part of `pruneNullish`. -/
def pruneNullishArr : List Json → List Json
  | [] => []
  | x :: rest =>
    match pruneNullish x with
    | none => pruneNullishArr rest
    | some y => y :: pruneNullishArr rest

/-- Object part of `pruneNullish`. -/
def pruneNullishObj : List (String × Json) → List (String × Json)
  | [] => []
  | (k, v) :: rest =>
    match pruneNullish v with
    | none => pruneNullishObj rest
    | some y => (k, y) :: pruneNullishObj rest
end

/-- The cursor walk of `setByDotPath`, over the split path parts: empty
parts are skipped, the last part assigns, intermediate parts descend into
an existing plain object or create a fresh one. -/
def setByDotPathGo : List (String × Json) → List String → Json → List (String × Json)
  | obj, [], _ => obj
  | obj, [k], value => if k = "" then obj else mapSet obj k value
  | obj, k :: rest, value =>
    if k = "" then setByDotPathGo obj rest value
    else
      match mapGet obj k with
      | some (.obj inner) => mapSet obj k (.obj (setByDotPathGo inner rest value))
      | _ => mapSet obj k (.obj (setByDotPathGo [] rest value))

/-- `setByDotPath(target, path, value)`. -/
def setByDotPath (target : List (String × Json)) (path : String) (value : Json) :
    List (String × Json) :=
  setByDotPathGo target (path.splitOn ".") value

mutual
/-- JS `String(v)` on a JSON value. -/
def jsString : Json → String
  | .null => "null"
  | .bool true => "true"
  | .bool false => "false"
  | .num n => toString n
  | .str s => s
  | .arr xs => jsStringArr xs
  | .obj _ => "[object Object]"

/-- Array `toString` (comma join, `null` rendering as empty). -/
def jsStringArr : List Json → String
  | [] => ""
  | [x] => jsStringElem x
  | x :: y :: rest => jsStringElem x ++ "," ++ jsStringArr (y :: rest)

/-- One array element under `Array.prototype.join`. -/
def jsStringElem : Json → String
  | .null => ""
  | v => jsString v
end

/-- Minimal JSON string escaping (quote and backslash; no claim depends on
the escaping of other characters). -/
def jsonEscape (s : String) : String :=
  s.data.foldl
    (fun acc c =>
      if c = '"' then acc ++ "\\\""
      else if c = '\\' then acc ++ "\\\\"
      else acc.push c)
    ""

mutual
/-- JS `JSON.stringify(v)` on a JSON value. -/
def jsonStringify : Json → String
  | .null => "null"
  | .bool true => "true"
  | .bool false => "false"
  | .num n => toString n
  | .str s => "\"" ++ jsonEscape s ++ "\""
  | .arr xs => "[" ++ jsonStringifyArr xs ++ "]"
  | .obj fields => "\x7b" ++ jsonStringifyObj fields ++ "\x7d"

/-- Array part of `jsonStringify`. -/
def jsonStringifyArr : List Json → String
  | [] => ""
  | [x] => jsonStringify x
  | x :: y :: rest => jsonStringify x ++ "," ++ jsonStringifyArr (y :: rest)

/-- Object part of `jsonStringify`. -/
def jsonStringifyObj : List (String × Json) → String
  | [] => ""
  | [(k, v)] => "\"" ++ jsonEscape k ++ "\":" ++ jsonStringify v
  | (k, v) :: e :: rest =>
    "\"" ++ jsonEscape k ++ "\":" ++ jsonStringify v ++ "," ++ jsonStringifyObj (e :: rest)
end

/-- `"error" in parsed` guarded by `typeof parsed === "object" && parsed
!== null`, returning the field's value when present (only plain objects
can carry it; arrays have no `error` property). -/
def errorField : Json → Option Json
  | .obj fields => mapGet fields "error"
  | _ => none

/-- `getCustomNodeOutput(node, outputsByNodeId)`. -/
def getCustomNodeOutput (node : WorkflowNode) (outputsByNodeId : List (String × Json)) :
    Except String Json :=
  match node.params.find? (fun param => param.name = "value") with
  | none => .ok .null
  | some valueParam => resolveParamValue valueParam.value outputsByNodeId

/-- Accumulator of the positional-args branch of `getNodeParams`. -/
structure PositionalAcc where
  args : List Json
  options : List (String × Json)
  tokenAccountFilter : List (String × Json)

/-- The three methods whose `mint`/`programId` fields are folded into a
token-accounts filter argument. -/
def isTokenAccountsFilterMethod (method : String) : Bool :=
  method = "getTokenAccountsByOwner" || method = "getTokenAccountsByOwnerV2" ||
    method = "getTokenAccountsByDelegate"

/-- The field loop of the positional-args branch of `getNodeParams`. -/
def buildParamsPositional (node : WorkflowNode) (fields : List MethodField)
    (outputsByNodeId : List (String × Json)) : Except String PositionalAcc :=
  fields.enum.foldlM
    (fun acc p =>
      match node.params.find? (fun param => param.name = p.2.name) with
      | none => .ok acc
      | some binding => do
        let resolved ← resolveParamValue binding.value outputsByNodeId
        match pruneNullish resolved with
        | none => .ok acc
        | some value =>
          if p.1 = 0 ∧ p.2.required then .ok { acc with args := acc.args ++ [value] }
          else if isTokenAccountsFilterMethod node.method ∧
              (p.2.name = "mint" ∨ p.2.name = "programId") then
            .ok { acc with
              tokenAccountFilter := mapSet acc.tokenAccountFilter p.2.name value }
          else .ok { acc with options := setByDotPath acc.options p.2.name value })
    ⟨[], [], []⟩

/-- The field loop of the object-style branch of `getNodeParams`. -/
def buildParamsObjectStyle (node : WorkflowNode) (fields : List MethodField)
    (outputsByNodeId : List (String × Json)) :
    Except String (List (String × Json)) :=
  fields.foldlM
    (fun paramsObject field =>
      match node.params.find? (fun param => param.name = field.name) with
      | none => .ok paramsObject
      | some binding => do
        let resolved ← resolveParamValue binding.value outputsByNodeId
        match pruneNullish resolved with
        | none => .ok paramsObject
        | some value => .ok (setByDotPath paramsObject field.name value))
    []

/-- `getNodeParams(node, outputsByNodeId)` for the JSON-RPC transport. -/
def getNodeParams (env : RunEnv) (node : WorkflowNode)
    (outputsByNodeId : List (String × Json)) : Except String Json :=
  match env.registry node.method with
  | some entry =>
    match entry.paramsFields with
    | some fields =>
      if entry.jsonrpcParamsStyleObject then do
        let paramsObject ← buildParamsObjectStyle node fields outputsByNodeId
        .ok (.obj paramsObject)
      else do
        let acc ← buildParamsPositional node fields outputsByNodeId
        let args :=
          if isTokenAccountsFilterMethod node.method && !acc.tokenAccountFilter.isEmpty then
            acc.args ++ [.obj acc.tokenAccountFilter]
          else acc.args
        let args :=
          match pruneNullish (.obj acc.options) with
          | some (.obj cleanedOptions) =>
            if !cleanedOptions.isEmpty then args ++ [.obj cleanedOptions] else args
          | _ => args
        .ok (.arr args)
    | none => do
      let raw ← env.jsonParse node.rawParamsJson
      match pruneNullish raw with
      | none => .ok (.arr [])
      | some cleaned => .ok cleaned
  | none => do
    let raw ← env.jsonParse node.rawParamsJson
    match pruneNullish raw with
    | none => .ok (.arr [])
    | some cleaned => .ok cleaned

/-- `getNodeHttpParams(node, outputsByNodeId)`. -/
def getNodeHttpParams (env : RunEnv) (node : WorkflowNode)
    (outputsByNodeId : List (String × Json)) :
    Except String (List (String × Json)) :=
  match (env.registry node.method).bind (fun e => e.paramsFields) with
  | none => .error "HTTP methods require table-style params schema in the registry."
  | some fields =>
    fields.foldlM
      (fun params field =>
        (match node.params.find? (fun param => param.name = field.name) with
        | none => .ok params
        | some binding => do
          let resolved ← resolveParamValue binding.value outputsByNodeId
          match pruneNullish resolved with
          | none => .ok params
          | some value =>
            .ok (mapSet params field.name value) :
          Except String (List (String × Json))))
      []

/-- Delete a key (JS `delete remainingParams[token]`). -/
def mapDelete {α : Type} : List (String × α) → String → List (String × α)
  | [], _ => []
  | (k, v) :: rest, key => if k = key then rest else (k, v) :: mapDelete rest key

/-- The path-template substitution of `buildHeliusHttpUrl`: each `{token}`
must be present and non-null among the params (consumed as it is used),
else `Missing required path param` is thrown.  The remaining URL assembly
is platform code with no engine-visible effect. -/
def checkHttpPathParams (pathTokens : List String) (params : List (String × Json)) :
    Except String Unit :=
  (pathTokens.foldlM
    (fun remaining token =>
      (match mapGet remaining token with
      | none => .error ("Missing required path param: " ++ token)
      | some Json.null => .error ("Missing required path param: " ++ token)
      | some _ =>
        .ok (mapDelete remaining token) :
      Except String (List (String × Json))))
    params).map (fun _ => ())

/-- A plain success result. -/
def okResult : RunRangeResult := { success := true }

/-- The failure result carrying the failing node's identity and message. -/
def mkNodeFailure (node : WorkflowNode) (message : String) : RunRangeResult :=
  { success := false
    failedNodeId := some node.id
    failedNodeName := some node.name
    errorMessage := some message }

/-- The canceled result of an aborted invocation. -/
def mkNodeCanceled (node : WorkflowNode) : RunRangeResult :=
  { success := false
    canceled := true
    failedNodeId := some node.id
    failedNodeName := some node.name
    errorMessage := some "Execution stopped by user." }

/-- Response handling of `executeSingleNode` after a `fetch` resolved: the
parsed body is recorded as the node output in every case; a non-ok status
or an embedded `error` field classifies as error, else success also
publishes the body in `outputsByNodeId`. -/
def classifyResponse (node : WorkflowNode) (ok : Bool) (status : Nat) (body : Json)
    (st : RunState) : RunRangeResult × RunState :=
  let st := setStoreOutput st node.id body
  if ok = false then
    let message :=
      match errorField body with
      | some e => jsString e
      | none => "Request failed with status " ++ toString status
    (mkNodeFailure node message, setStatus st node.id .error (some message))
  else
    match errorField body with
    | some rpcError =>
      let message :=
        match rpcError with
        | .str s => s
        | e => jsonStringify e
      (mkNodeFailure node message, setStatus st node.id .error (some message))
    | none =>
      let st := { st with outputsByNodeId := mapSet st.outputsByNodeId node.id body }
      (okResult, setStatus st node.id .success none)

/-- The fetch step shared by the HTTP and JSON-RPC branches: consult the
transport oracle; an `AbortError` resets the node to `idle` and reports a
canceled result, another thrown error reports an error result. -/
def dispatchFetch (env : RunEnv) (node : WorkflowNode) (st : RunState) :
    RunRangeResult × RunState :=
  let outcome := env.fetchResult node.id st.tick
  let st := { st with tick := st.tick + 1 }
  match outcome with
  | .abortError => (mkNodeCanceled node, setStatus st node.id .idle none)
  | .jsError message => (mkNodeFailure node message, setStatus st node.id .error (some message))
  | .response ok status body => classifyResponse node ok status body st

/-- `executeSingleNode(nodeId, outputsByNodeId, signal)`. -/
def executeSingleNode (env : RunEnv) (nodes : NodeMap) (nodeId : String)
    (st : RunState) : RunRangeResult × RunState :=
  match nodeGet nodes nodeId with
  | none => (okResult, st)
  | some node =>
    if env.signal st.tick then
      (mkNodeCanceled node, { st with tick := st.tick + 1 })
    else
      let st := { st with tick := st.tick + 1 }
      let st := { st with
        callCounts := fun x =>
          if x = node.id then st.callCounts node.id + 1 else st.callCounts x }
      let st := setStatus st node.id .running none
      let st := { st with
        trace := st.trace ++ [.invoke node.id (st.outputsByNodeId.map Prod.fst)] }
      let methodEntry := env.registry node.method
      match (methodEntry.bind (fun e => e.transport)).getD .jsonrpc with
      | .custom =>
        match getCustomNodeOutput node st.outputsByNodeId with
        | .error message =>
          (mkNodeFailure node message, setStatus st node.id .error (some message))
        | .ok output =>
          let st := setStoreOutput st node.id output
          let st := { st with outputsByNodeId := mapSet st.outputsByNodeId node.id output }
          (okResult, setStatus st node.id .success none)
      | .http =>
        match methodEntry.bind (fun e => e.http) with
        | none =>
          let message := "Method " ++ node.method ++ " is marked as HTTP but has no HTTP config."
          (mkNodeFailure node message, setStatus st node.id .error (some message))
        | some httpConfig =>
          match getNodeHttpParams env node st.outputsByNodeId with
          | .error message =>
            (mkNodeFailure node message, setStatus st node.id .error (some message))
          | .ok httpParams =>
            match checkHttpPathParams httpConfig.pathTokens httpParams with
            | .error message =>
              (mkNodeFailure node message, setStatus st node.id .error (some message))
            | .ok _ => dispatchFetch env node st
      | .jsonrpc =>
        match getNodeParams env node st.outputsByNodeId with
        | .error message =>
          (mkNodeFailure node message, setStatus st node.id .error (some message))
        | .ok _ => dispatchFetch env node st

/-- `repeatIntervalToMs(interval, unit)`. -/
def repeatIntervalToMs (interval : Int) (unit : RepeatUnit) : Int :=
  match unit with
  | .minutes => interval * 60000
  | .seconds => interval * 1000
  | .milliseconds => interval

/-- `sleepWithSignal(durationMs, signal)`: completes the delay unless the
signal is aborted (at entry or while waiting), in which case it rejects
with an `AbortError` (`none`) instead of completing. -/
def sleepWithSignal (env : RunEnv) (durationMs : Int) (st : RunState) :
    Option RunState :=
  if env.signal st.tick then none
  else some { st with tick := st.tick + 1, trace := st.trace ++ [.sleep durationMs] }

/-- Continuation of one orchestrator step: keep going, return early with a
result, or propagate a thrown `AbortError` to the run's catch. -/
inductive LoopOut where
  | continued (st : RunState)
  | halted (result : RunRangeResult) (st : RunState)
  | thrown (st : RunState)

/-- The status message published when a node result halts the run. -/
def failStatusMessage (r : RunRangeResult) : String :=
  if r.canceled then "Execution stopped."
  else
    "Execution stopped at " ++ r.failedNodeName.getD "node" ++ ": " ++
      r.errorMessage.getD "unknown error"

/-- Execute one node and turn a failure into an early return (with the
status message the orchestrator publishes). -/
def execStep (env : RunEnv) (nodes : NodeMap) (nodeId : String) (st : RunState) :
    LoopOut :=
  match executeSingleNode env nodes nodeId st with
  | (r, st') =>
    if r.success then .continued st'
    else .halted r { st' with statusMessage := failStatusMessage r }

/-- Execute every downstream dependent in turn (each can fail the run). -/
def runDownstream (env : RunEnv) (nodes : NodeMap) :
    List String → RunState → LoopOut
  | [], st => .continued st
  | d :: rest, st =>
    match execStep env nodes d st with
    | .continued st' => runDownstream env nodes rest st'
    | out => out

/-- One repeat iteration: wait the interval (skipped before the very first
global iteration and when the delay is zero; an abort during the wait
throws), execute the node, then its downstream dependents. -/
def runRepeatIteration (env : RunEnv) (nodes : NodeMap) (nodeId : String)
    (downstream : List String) (delayMs : Int) (globalIteration : Nat)
    (st : RunState) : LoopOut :=
  let afterSleep : Option RunState :=
    if globalIteration > 0 ∧ delayMs > 0 then sleepWithSignal env delayMs st
    else some st
  match afterSleep with
  | none => .thrown st
  | some st =>
    match execStep env nodes nodeId st with
    | .continued st' => runDownstream env nodes downstream st'
    | out => out

/-- The inner `iteration` loop of a repeat cycle, threading the global
iteration counter. -/
def runRepeatIters (env : RunEnv) (nodes : NodeMap) (nodeId : String)
    (downstream : List String) (delayMs : Int) :
    Nat → Nat → RunState → Nat × LoopOut
  | 0, globalIteration, st => (globalIteration, .continued st)
  | k + 1, globalIteration, st =>
    match runRepeatIteration env nodes nodeId downstream delayMs globalIteration st with
    | .continued st' =>
      runRepeatIters env nodes nodeId downstream delayMs k (globalIteration + 1) st'
    | out => (globalIteration, out)

/-- The outer `cycle` loop of a repeat block, run for a given number of
cycles. -/
def runRepeatCycles (env : RunEnv) (nodes : NodeMap) (nodeId : String)
    (downstream : List String) (delayMs : Int) (repeatCount : Nat) :
    Nat → Nat → RunState → LoopOut
  | 0, _, st => .continued st
  | c + 1, globalIteration, st =>
    match runRepeatIters env nodes nodeId downstream delayMs repeatCount
        globalIteration st with
    | (g', .continued st') =>
      runRepeatCycles env nodes nodeId downstream delayMs repeatCount c g' st'
    | (_, out) => out

/-- Result of the top-level `for (const nodeId of executionOrder)` loop.
`diverged` marks a `loopCount == 0` (infinite) repeat block still looping
when the model's fuel runs out — the real loop simply has not returned. -/
inductive RunOut where
  | done (st : RunState)
  | halted (result : RunRangeResult) (st : RunState)
  | thrown (st : RunState)
  | diverged (st : RunState)

/-- The repeat-node branch of the main loop.  Returns the downstream list
alongside the outcome so a normal completion can mark the dependents as
skipped.  A `loopCount` of 0 loops forever: the model runs `fuel` cycles
and reports divergence if the block is still going. -/
def runRepeatBlock (env : RunEnv) (nodes : NodeMap) (executionOrder : List String)
    (includedNodeIds : List String) (nodeId : String) (node : WorkflowNode)
    (fuel : Nat) (st : RunState) : RunOut × List String :=
  let downstream := getReferencedDownstreamNodeIds executionOrder nodes nodeId includedNodeIds
  let repeatCount := (max 1 node.repeatCfg.count).toNat
  let loopCount := (max 0 node.repeatCfg.loopCount).toNat
  let delayMs := repeatIntervalToMs (max 0 node.repeatCfg.interval) node.repeatCfg.unit
  if loopCount = 0 then
    match runRepeatCycles env nodes nodeId downstream delayMs repeatCount fuel 0 st with
    | .continued st' => (.diverged st', downstream)
    | .halted r st' => (.halted r st', downstream)
    | .thrown st' => (.thrown st', downstream)
  else
    match runRepeatCycles env nodes nodeId downstream delayMs repeatCount loopCount 0 st with
    | .continued st' => (.done st', downstream)
    | .halted r st' => (.halted r st', downstream)
    | .thrown st' => (.thrown st', downstream)

/-- The `for (const nodeId of executionOrder)` loop of `runRange`: an
abort observed at the top returns a canceled result; skipped and absent
nodes are passed over; a non-repeating node executes once; a repeating
node runs its repeat block and then marks its downstream dependents as
permanently skipped. -/
def runMainLoop (env : RunEnv) (nodes : NodeMap) (includedNodeIds : List String)
    (executionOrder : List String) (fuel : Nat) :
    List String → List String → RunState → RunOut
  | [], _, st => .done st
  | nodeId :: rest, skipped, st =>
    if env.signal st.tick then
      .halted
        { success := false, canceled := true,
          errorMessage := some "Execution stopped by user." }
        { st with tick := st.tick + 1 }
    else
      let st := { st with tick := st.tick + 1 }
      if nodeId ∈ skipped then
        runMainLoop env nodes includedNodeIds executionOrder fuel rest skipped st
      else
        match nodeGet nodes nodeId with
        | none => runMainLoop env nodes includedNodeIds executionOrder fuel rest skipped st
        | some node =>
          if node.repeatCfg.enabled = false then
            match execStep env nodes nodeId st with
            | .continued st' =>
              runMainLoop env nodes includedNodeIds executionOrder fuel rest skipped st'
            | .halted r st' => .halted r st'
            | .thrown st' => .thrown st'
          else
            match runRepeatBlock env nodes executionOrder includedNodeIds nodeId node
                fuel st with
            | (.done st', downstream) =>
              runMainLoop env nodes includedNodeIds executionOrder fuel rest
                (downstream.foldl setAdd skipped) st'
            | (.halted r st', _) => .halted r st'
            | (.thrown st', _) => .thrown st'
            | (.diverged st', _) => .diverged st'

/-- The outcome of a `runRange` call: `result = none` marks an infinite
repeat block still looping when the model's fuel ran out (the real
function has not returned at that point). -/
structure RunOutcome where
  result : Option RunRangeResult
  state : RunState

/-- The store state a run starts from (per-node fields as currently
stored, counters at rest, no outputs map yet). -/
def initialRunState (nodes : NodeMap) : RunState :=
  { statuses := fun id => ((nodeGet nodes id).map (fun n => n.status)).getD .idle
    errors := fun id => (nodeGet nodes id).bind (fun n => n.error)
    storeOutputs := fun id => (nodeGet nodes id).bind (fun n => n.output)
    callCounts := fun _ => 0
    callTargets := []
    outputsByNodeId := []
    statusMessage := ""
    tick := 0
    trace := [] }

/-- `runRange(startIndex, endIndexExclusive)`: bound the end, reject an
invalid start, refuse to run on a cycle, restrict the planned order to the
requested range, publish planned call targets and zeroed counters, seed
`outputsByNodeId` from stored outputs, then drive the main loop.  A thrown
`AbortError` is caught into a canceled result. -/
def runRange (env : RunEnv) (nodes : NodeMap) (order : List String)
    (startIndex endIndexExclusive : Int) (fuel : Nat) : RunOutcome :=
  let orderSnapshot := order
  let boundedEnd := min endIndexExclusive (orderSnapshot.length : Int)
  let st0 := initialRunState nodes
  if startIndex < 0 ∨ startIndex > boundedEnd then
    { result := some
        { success := false, errorMessage := some "Invalid start index for execution." }
      state := st0 }
  else
    let dependencyPlan := buildDependencyExecutionOrder orderSnapshot nodes
    if dependencyPlan.hasCycle then
      { result := some
          { success := false,
            errorMessage :=
              some "Circular reference detected. Remove cyclic references before running." }
        state := { st0 with
          statusMessage := "Circular reference detected. Remove cyclic references before running." } }
    else
      let includedNodeIds :=
        (orderSnapshot.drop startIndex.toNat).take (boundedEnd - startIndex).toNat
      let executionOrder :=
        dependencyPlan.orderedNodeIds.filter (fun nodeId => nodeId ∈ includedNodeIds)
      let plannedCallCounts := calculatePlannedCallCounts executionOrder nodes includedNodeIds
      let st := { st0 with
        callTargets := orderSnapshot.map
          (fun nodeId => (nodeId, (mapGet plannedCallCounts nodeId).getD (some 0)))
        callCounts := fun _ => 0
        outputsByNodeId := orderSnapshot.foldl
          (fun m nodeId =>
            match (nodeGet nodes nodeId).bind (fun n => n.output) with
            | some output => mapSet m nodeId output
            | none => m)
          []
        statusMessage := "" }
      match runMainLoop env nodes includedNodeIds executionOrder fuel executionOrder [] st with
      | .done st' => { result := some okResult, state := st' }
      | .halted r st' => { result := some r, state := st' }
      | .thrown st' =>
        { result := some
            { success := false, canceled := true,
              errorMessage := some "Execution stopped by user." }
          state := st' }
      | .diverged st' => { result := none, state := st' }

/-! ## Workflow import (src/src/store/workflowStore.ts)

The claim about `importWorkflow` targets the store variant whose
`WorkflowNode` carries no repeat/position fields; its import loop copies
each document node, forces `status` to `idle`, clears `error`, and derives
`outputOpen` from `Boolean(node.output)`. -/

/-- The store-variant `WorkflowNode` built by `importWorkflow`. -/
structure StoreWorkflowNode where
  id : String
  name : String
  method : String
  schemaMode : SchemaMode
  params : List ParamBinding
  rawParamsJson : String
  output : Option Json
  error : Option String
  status : NodeStatus
  outputOpen : Bool

/-- One node of an accepted workflow document (plus optional fields the
store type does not retain, which the spread copies into anonymous extra
properties with no store-visible effect). -/
structure WorkflowNodeExport where
  id : String
  name : String
  method : String
  schemaMode : SchemaMode
  params : List ParamBinding
  rawParamsJson : String
  output : Option Json

/-- An accepted workflow document (fields read by `importWorkflow`). -/
structure WorkflowExport where
  order : List String
  nodes : List WorkflowNodeExport
  selectedNodeId : Option String

/-- The store state `importWorkflow` replaces. -/
structure ImportedState where
  order : List String
  nodes : List (String × StoreWorkflowNode)
  selectedNodeId : Option String

/-- The per-node copy of the import loop
(`{...node, status: "idle", error: undefined, outputOpen: Boolean(node.output)}`). -/
def importNode (node : WorkflowNodeExport) : StoreWorkflowNode :=
  { id := node.id
    name := node.name
    method := node.method
    schemaMode := node.schemaMode
    params := node.params
    rawParamsJson := node.rawParamsJson
    output := node.output
    error := none
    status := .idle
    outputOpen := jsOptTruthy node.output }

/-- `importWorkflow(workflow)`. -/
def importWorkflow (workflow : WorkflowExport) : ImportedState :=
  { order := workflow.order
    nodes := workflow.nodes.foldl (fun m node => mapSet m node.id (importNode node)) []
    selectedNodeId := workflow.selectedNodeId }

/-- The in-subset reference sources of a node (the ids its `ref` bindings
point at). -/
def refSources (node : WorkflowNode) : List String :=
  node.params.filterMap (fun param =>
    match param.value with
    | .ref sourceNodeId _ => some sourceNodeId
    | .literal _ => none)

/-! ## Concrete instances used by counterexamples and witnesses -/

/-- A document node carrying a falsy (`false`) output. -/
def exportNodeFalsy : WorkflowNodeExport :=
  ⟨"a", "node a", "getSlot", .known, [], "[]", some (.bool false)⟩

/-- A document whose single node has a present but falsy output. -/
def docFalsy : WorkflowExport := ⟨["a"], [exportNodeFalsy], none⟩

/-- A document node carrying a truthy output. -/
def exportNodeOut : WorkflowNodeExport :=
  ⟨"a", "node a", "getSlot", .known, [], "[]", some (.num 5)⟩

/-- A document whose single node has a truthy output. -/
def docOut : WorkflowExport := ⟨["a"], [exportNodeOut], none⟩

/-- A non-repeating repeat config. -/
def repeatOff : NodeRepeat := ⟨false, 2, 1, .seconds, 1⟩

/-- A repeat config with `count = 3`, `loopCount = 2`. -/
def repeat32 : NodeRepeat := ⟨true, 3, 1, .seconds, 2⟩

/-- A repeat config with `loopCount = 0` (infinite). -/
def repeatInf : NodeRepeat := ⟨true, 2, 1, .seconds, 0⟩

/-- A plain node with no references. -/
def nodeP : WorkflowNode :=
  ⟨"P", "node P", "m", .unknown, [], "[]", repeatOff, none, none, .idle, false⟩

/-- A repeating node (`count = 3`, `loopCount = 2`). -/
def nodeM : WorkflowNode :=
  ⟨"M", "node M", "m", .unknown, [], "[]", repeat32, none, none, .idle, false⟩

/-- An infinitely repeating node (`loopCount = 0`). -/
def nodeMInf : WorkflowNode :=
  ⟨"M", "node M", "m", .unknown, [], "[]", repeatInf, none, none, .idle, false⟩

/-- A node referencing `M`'s output. -/
def nodeQ : WorkflowNode :=
  ⟨"Q", "node Q", "m", .unknown, [⟨"x", .ref "M" "result"⟩], "[]", repeatOff,
    none, none, .idle, false⟩

/-- Node map for the call-count scenarios. -/
def nmPMQ : NodeMap := [("P", nodeP), ("M", nodeM), ("Q", nodeQ)]

/-- Node map for the infinite call-count scenario. -/
def nmPMQInf : NodeMap := [("P", nodeP), ("M", nodeMInf), ("Q", nodeQ)]

/-- Repeat config of the interleaving scenario: `count = 2`,
`loopCount = 1`, `interval = 5` milliseconds. -/
def rptOn : NodeRepeat := ⟨true, 2, 5, .milliseconds, 1⟩

/-- The repeating node `R` of the interleaving scenario. -/
def nodeR : WorkflowNode :=
  ⟨"R", "node R", "m", .unknown, [], "[]", rptOn, none, none, .idle, false⟩

/-- The downstream node `S`, referencing `R`'s output. -/
def nodeS : WorkflowNode :=
  ⟨"S", "node S", "m", .unknown, [⟨"x", .ref "R" "result"⟩], "[]", repeatOff,
    none, none, .idle, false⟩

/-- Node map of the interleaving scenario. -/
def nmRS : NodeMap := [("R", nodeR), ("S", nodeS)]

/-- The run state `runRange` seeds for the interleaving scenario
(planned call targets published, counters zeroed, no stored outputs). -/
def seedRS : RunState :=
  { initialRunState nmRS with
    callTargets := ["R", "S"].map
      (fun nodeId =>
        (nodeId,
          (mapGet (calculatePlannedCallCounts ["R", "S"] nmRS ["R", "S"])
            nodeId).getD (some 0)))
    callCounts := fun _ => 0
    outputsByNodeId := []
    statusMessage := "" }

/-- A benign environment: no registry entries, signal never aborted, every
transport call answers 200 with a plain result object, raw params parse to
`[]`. -/
def envOk : RunEnv :=
  ⟨fun _ => none, fun _ => false,
   fun _ _ => .response true 200 (.obj [("result", .num 1)]),
   fun _ => .ok (.arr [])⟩

/-- A registry entry with the custom transport and no schema. -/
def entryCustom : MethodEntry := ⟨some .custom, none, false, none⟩

/-- A node whose custom-transport value references a node that has no
output, so its invocation fails. -/
def nodeF : WorkflowNode :=
  ⟨"F", "node F", "mF", .unknown, [⟨"value", .ref "Z" "r"⟩], "[]", repeatOff,
    none, none, .idle, false⟩

/-- Node map of the failing-node scenario. -/
def nmF : NodeMap := [("F", nodeF)]

/-- Environment of the failing-node scenario: `mF` resolves to the custom
transport. -/
def envF : RunEnv :=
  ⟨fun m => if m = "mF" then some entryCustom else none, fun _ => false,
   fun _ _ => .response true 200 .null, fun _ => .ok (.arr [])⟩

/-- An environment whose abort signal fires from tick 5 on: in the
interleaving scenario this is exactly the check at the start of the delay
before the second repeat iteration. -/
def envAbort5 : RunEnv :=
  ⟨fun _ => none, fun t => decide (5 ≤ t),
   fun _ _ => .response true 200 (.obj [("result", .num 1)]),
   fun _ => .ok (.arr [])⟩

/-- An environment whose transport rejects with `AbortError` (the signal
fired while the fetch was in flight). -/
def envFetchAbort : RunEnv :=
  ⟨fun _ => none, fun _ => false, fun _ _ => .abortError, fun _ => .ok (.arr [])⟩

/-- A run state at tick 5 (where `envAbort5` is aborted). -/
def st5c : RunState := { initialRunState nmRS with tick := 5 }

/-- A self-referencing node (length-1 reference cycle). -/
def nodeCy : WorkflowNode :=
  ⟨"C", "node C", "m", .unknown, [⟨"x", .ref "C" "r"⟩], "[]", repeatOff,
    none, none, .idle, false⟩

/-- Node map with a single self-referencing node. -/
def nmCy : NodeMap := [("C", nodeCy)]

/-- Ghost: the state transform of one successful plain JSON-RPC node
invocation (registry miss, raw params parsed to `[]`, fetch ok with no
embedded error): tick advances once at the abort check and once at the
fetch, the call counter increments, the node runs then succeeds, the body
is stored and published, and the trace records the invocation. -/
def execOkState (st : RunState) (node : WorkflowNode) (body : Json) : RunState :=
  let stA := { st with tick := st.tick + 1 }
  let stB := { stA with
    callCounts := fun x =>
      if x = node.id then stA.callCounts node.id + 1 else stA.callCounts x }
  let stC := setStatus stB node.id .running none
  let stD := { stC with
    trace := stC.trace ++ [TraceEvent.invoke node.id (stC.outputsByNodeId.map Prod.fst)] }
  let stE := { stD with tick := stD.tick + 1 }
  let stF := setStoreOutput stE node.id body
  let stG := { stF with outputsByNodeId := mapSet stF.outputsByNodeId node.id body }
  setStatus stG node.id .success none

/-- Ghost: the observable shape of a run halted by a failing node
invocation `fid`: the failing node's name and message are reported, the
trace ends at the failing invocation (no later node is invoked), and the
run's recorded outputs are exactly those known at that invocation
(nothing rolled back). -/
def failShapeAt (fid : String) (r : RunRangeResult) (st : RunState) : Prop :=
  r.failedNodeName.isSome = true ∧ r.errorMessage.isSome = true ∧
    ∃ pre ks, st.trace = pre ++ [TraceEvent.invoke fid ks] ∧
      st.outputsByNodeId.map Prod.fst = ks

/-- The id domain of the run's `outputsByNodeId` map. -/
def domOf (st : RunState) : List String :=
  st.outputsByNodeId.map Prod.fst

/-- `s` is an upstream reference source of node `t`, restricted to the
included set: `t`'s params carry a `ref` binding to `s` and `s` is in the
run's included ids. -/
def isSource (nodes : NodeMap) (inc : List String) (t s : String) : Prop :=
  ∃ node, nodeGet nodes t = some node ∧
    (∃ pb ∈ node.params, ∃ path, pb.value = ParamValue.ref s path) ∧ s ∈ inc

/-- All of `t`'s in-subset sources already have an output recorded. -/
def sourcesReady (nodes : NodeMap) (inc : List String) (t : String)
    (st : RunState) : Prop :=
  ∀ s, isSource nodes inc t s → s ∈ domOf st

/-- The C8 trace property: every node invocation of the trace happened
with all of the node's in-subset sources present in the outputs map. -/
def traceOK (nodes : NodeMap) (inc : List String) (tr : List TraceEvent) : Prop :=
  ∀ t ks, TraceEvent.invoke t ks ∈ tr → ∀ s, isSource nodes inc t s → s ∈ ks

/-- The run state carried by a loop-step outcome. -/
def loopOutState : LoopOut → RunState
  | .continued st => st
  | .halted _ st => st
  | .thrown st => st

/-- The run state carried by a main-loop outcome. -/
def runOutState : RunOut → RunState
  | .done st => st
  | .halted _ st => st
  | .thrown st => st
  | .diverged st => st

/-- The included-id slice a `runRange` call works on. -/
def runIncluded (order : List String) (startIndex endIndexExclusive : Int) :
    List String :=
  (order.drop startIndex.toNat).take
    ((min endIndexExclusive (order.length : Int)) - startIndex).toNat

/-- The planned order restricted to the requested range, as `runRange`
computes it. -/
def runExecOrder (order : List String) (nodes : NodeMap)
    (startIndex endIndexExclusive : Int) : List String :=
  (buildDependencyExecutionOrder order nodes).orderedNodeIds.filter
    (fun nodeId => nodeId ∈ runIncluded order startIndex endIndexExclusive)

/-- A well-formed object key for path purposes: nonempty and free of the
structural characters `.`, `[`, `]`. -/
def wfKey (k : String) : Bool :=
  !(k = "") && k.data.all (fun c => !isPathSpecial c)

/-- Duplicate-freedom of an object's keys (JS objects cannot carry
duplicate keys; the Lean `Json` type can, so it is a well-formedness
condition). -/
def nodupKeys : List (String × Json) → Bool
  | [] => true
  | (k, _) :: rest => !(rest.any (fun p => p.1 = k)) && nodupKeys rest

mutual
/-- Well-formed JSON value: object keys are well-formed path keys and
duplicate-free, recursively. -/
def wfJson : Json → Bool
  | .arr xs => wfJsonArr xs
  | .obj fields => nodupKeys fields && wfJsonObj fields
  | _ => true

/-- Array part of `wfJson`. -/
def wfJsonArr : List Json → Bool
  | [] => true
  | x :: rest => wfJson x && wfJsonArr rest

/-- Object part of `wfJson`. -/
def wfJsonObj : List (String × Json) → Bool
  | [] => true
  | (k, v) :: rest => wfKey k && wfJson v && wfJsonObj rest
end

/-- One token step of `getByPath`'s loop (the body of one iteration),
split out for stating lemmas about the loop. -/
def stepTok (v : Json) (tok : PathTok) : Option Json :=
  match v, tok with
  | .null, _ => none
  | .arr xs, .idx i => xs.get? i
  | _, .idx _ => none
  | .obj fields, .key k => mapGet fields k
  | .arr xs, .key k =>
    if k = "length" then some (.num xs.length)
    else
      match canonIndex k with
      | some i => xs.get? i
      | none => none
  | _, .key _ => none

/-- A concrete well-formed JSON value for exercising the path roundtrip. -/
def sampleV : Json :=
  .obj [("a", .arr [.num 1, .obj [("b", .str "x")]]), ("c", .null)]

/-- A JSON object whose single key contains a dot: the enumerated path
`"a.b"` re-tokenizes as two segments and no longer resolves. -/
def cexKeyObj : Json := .obj [("a.b", .num 1)]

/-- Ghost: indegree of `x` counting only reference edges whose source has
not been processed yet (the planner's live indegree map stays equal to
this throughout its loop). -/
def unprocIndeg (adj : List (String × List String)) (processed : List String)
    (x : String) : Int :=
  ((adj.filter (fun e => !(processed.contains e.1))).map
    (fun e => (e.2.count x : Int))).sum

/-- The edge relation of a built reference adjacency: an edge from the
source node to its dependent. -/
def adjEdge (adj : List (String × List String)) (s t : String) : Prop :=
  t ∈ adjGet adj s

/-- `a` occurs strictly before an occurrence of `b` in `l`. -/
def listBefore (l : List String) (a b : String) : Prop :=
  ∃ l1 l2, l = l1 ++ b :: l2 ∧ a ∈ l1

/-- The planner's `orderedNodeIds` (display order restricted to existing
nodes). -/
def plannerIds (order : List String) (nodes : NodeMap) : List String :=
  order.filter (fun nodeId => (nodeGet nodes nodeId).isSome)

/-- The raw result list of the planner's Kahn loop. -/
def plannerResult (order : List String) (nodes : NodeMap) : List String :=
  let orderedNodeIds := plannerIds order nodes
  let idxOf := indexOfNode orderedNodeIds
  let adj := buildReferenceAdjacency orderedNodeIds nodes
  let indeg := initialIndegree adj
  let queue := sortByIdx idxOf
    (orderedNodeIds.filter (fun nodeId => indeg nodeId = 0))
  kahnLoop adj idxOf (2 * orderedNodeIds.length + 1) queue indeg []

/-- Repeat config for the C8 counterexample: enabled, one call per
iteration, one global iteration, no interval. -/
def rptOnce : NodeRepeat := ⟨true, 1, 0, .milliseconds, 1⟩

/-- A repeating node `R` with no params. -/
def nodeR2 : WorkflowNode :=
  ⟨"R", "node R", "m", .unknown, [], "[]", rptOnce, none, none, .idle, false⟩

/-- An independent node `X` (no params), placed between `R` and `D` in
display order. -/
def nodeX : WorkflowNode :=
  ⟨"X", "node X", "m", .unknown, [], "[]", repeatOff, none, none, .idle, false⟩

/-- A diamond sink `D` referencing both `X` and `R`. -/
def nodeD : WorkflowNode :=
  ⟨"D", "node D", "mD", .unknown,
    [⟨"x", .ref "X" "result"⟩, ⟨"r", .ref "R" "result"⟩], "[]", repeatOff,
    none, none, .idle, false⟩

/-- Node map of the C8 counterexample. -/
def nmRXD : NodeMap := [("R", nodeR2), ("X", nodeX), ("D", nodeD)]

/-- Registry entry for `D`'s method, so that `D`'s params are resolved
through `resolveParamValue` (two reference fields). -/
def entryD : MethodEntry := ⟨none, some [⟨"x", false⟩, ⟨"r", false⟩], true, none⟩

/-- Environment of the C8 counterexample: the registry knows `mD`, the
signal never fires, transport always succeeds. -/
def envD : RunEnv :=
  ⟨fun m => if m = "mD" then some entryD else none, fun _ => false,
   fun _ _ => .response true 200 (.obj [("result", .num 1)]), fun _ => .ok (.arr [])⟩

/-! ## Theorems -/

theorem mapGet_mapSet {α : Type} (m : List (String × α)) (k x : String) (v : α) :
    mapGet (mapSet m k v) x = if x = k then some v else mapGet m x := by
  induction m with
  | nil =>
    simp only [mapSet, mapGet]
    by_cases h : k = x
    · subst h
      simp
    · rw [if_neg h, if_neg (fun hx : x = k => h hx.symm)]
  | cons p rest ih =>
    obtain ⟨k1, v1⟩ := p
    simp only [mapSet]
    by_cases h1 : k1 = k
    · subst h1
      simp only [if_pos rfl, mapGet]
      by_cases h2 : k1 = x
      · subst h2
        simp
      · rw [if_neg h2, if_neg (fun hx : x = k1 => h2 hx.symm)]
        simp only [mapGet, if_neg h2]
    · rw [if_neg h1]
      simp only [mapGet, ih]
      by_cases h2 : k1 = x
      · subst h2
        rw [if_pos rfl, if_neg (fun hx : k1 = k => h1 hx), if_pos rfl]
      · rw [if_neg h2]
        by_cases h3 : x = k
        · simp [h3]
        · simp [h3, mapGet, h2]

theorem mapGet_eq_some_mem {α : Type} (m : List (String × α)) (k : String) (v : α)
    (h : mapGet m k = some v) : (k, v) ∈ m := by
  induction m with
  | nil => simp [mapGet] at h
  | cons p rest ih =>
    obtain ⟨k1, v1⟩ := p
    by_cases h1 : k1 = k
    · subst h1
      simp [mapGet] at h
      simp [h]
    · simp [mapGet, h1] at h
      exact List.mem_cons_of_mem _ (ih h)

theorem mem_setAdd (s : List String) (x y : String) :
    y ∈ setAdd s x ↔ y ∈ s ∨ y = x := by
  by_cases h : x ∈ s
  · simp [setAdd, h]
    intro hy
    subst hy
    exact h
  · simp [setAdd, h]

theorem mem_foldl_setAdd (l : List String) (s : List String) (y : String) :
    y ∈ l.foldl setAdd s ↔ y ∈ s ∨ y ∈ l := by
  induction l generalizing s with
  | nil => simp
  | cons a rest ih =>
    simp only [List.foldl_cons, ih, mem_setAdd, List.mem_cons]
    tauto

/-! ### C10: import normalization -/

theorem importWorkflow_foldl_lookup (l : List WorkflowNodeExport)
    (init : List (String × StoreWorkflowNode)) (id : String) (wn : StoreWorkflowNode)
    (h : mapGet (l.foldl (fun m node => mapSet m node.id (importNode node)) init) id
        = some wn) :
    mapGet init id = some wn ∨ ∃ dn ∈ l, dn.id = id ∧ wn = importNode dn := by
  induction l generalizing init with
  | nil => exact Or.inl h
  | cons dn rest ih =>
    simp only [List.foldl_cons] at h
    rcases ih _ h with h1 | ⟨dn', hmem, hid, hwn⟩
    · rw [mapGet_mapSet] at h1
      by_cases hid : id = dn.id
      · simp [hid] at h1
        exact Or.inr ⟨dn, by simp, hid.symm, h1.symm⟩
      · simp [hid] at h1
        exact Or.inl h1
    · exact Or.inr ⟨dn', by simp [hmem], hid, hwn⟩

/-- Claim C10 (amended): for every workflow document accepted by
`importWorkflow`, every imported node's `status` is `idle` and its `error`
is cleared, regardless of any status or error information in the document;
its `output` is kept only as carried in the document, and its expanded
flag is set to the JS truthiness of that output (`Boolean(node.output)`),
which is false for an absent output and also for a present falsy output. -/
theorem claimC10_import_normalizes (workflow : WorkflowExport) (id : String)
    (wn : StoreWorkflowNode)
    (h : mapGet (importWorkflow workflow).nodes id = some wn) :
    wn.status = .idle ∧ wn.error = none ∧
      ∃ dn ∈ workflow.nodes, dn.id = id ∧ wn.output = dn.output ∧
        wn.outputOpen = jsOptTruthy dn.output := by
  have h2 := importWorkflow_foldl_lookup workflow.nodes [] id wn h
  rcases h2 with h2 | ⟨dn, hmem, hid, hwn⟩
  · simp [mapGet] at h2
  · subst hwn
    exact ⟨rfl, rfl, dn, hmem, hid, rfl, rfl⟩

/-- Claim C10, as stated, is false: the expanded flag is not derived from
whether an output is present.  A document node with the present output
`false` imports with `outputOpen = false`. -/
theorem claimC10_counterexample :
    mapGet (importWorkflow docFalsy).nodes "a" = some (importNode exportNodeFalsy) ∧
      exportNodeFalsy.output.isSome = true ∧
      (importNode exportNodeFalsy).outputOpen = false :=
  ⟨rfl, rfl, rfl⟩

/-- Witness for `claimC10_import_normalizes` at a concrete document. -/
theorem claimC10_import_normalizes_witness :
    (importNode exportNodeOut).status = .idle ∧
      (importNode exportNodeOut).error = none ∧
      ∃ dn ∈ docOut.nodes, dn.id = "a" ∧
        (importNode exportNodeOut).output = dn.output ∧
        (importNode exportNodeOut).outputOpen = jsOptTruthy dn.output :=
  claimC10_import_normalizes docOut "a" (importNode exportNodeOut) rfl

/-! ### C5 / C6: planned call counts -/

theorem addPlanned_get_other (c : List (String × PlannedCallCount)) (id x : String)
    (k : Int) (hx : x ≠ id) :
    mapGet (addPlannedCallCount c id k) x = mapGet c x := by
  cases h : mapGet c id with
  | none => simp [addPlannedCallCount, h, mapGet_mapSet, hx]
  | some e =>
    cases e with
    | none => simp [addPlannedCallCount, h]
    | some e' => simp [addPlannedCallCount, h, mapGet_mapSet, hx]

theorem addPlanned_get_none (c : List (String × PlannedCallCount)) (id : String)
    (k : Int) (h : mapGet c id = none) :
    mapGet (addPlannedCallCount c id k) id = some (some k) := by
  simp [addPlannedCallCount, h, mapGet_mapSet]

theorem addPlanned_infinite (c : List (String × PlannedCallCount)) (id : String)
    (k : Int) (h : mapGet c id = some none) :
    addPlannedCallCount c id k = c := by
  simp [addPlannedCallCount, h]

theorem setInf_get (c : List (String × PlannedCallCount)) (id x : String) :
    mapGet (setPlannedCallCountInfinite c id) x =
      if x = id then some none else mapGet c x := by
  simp [setPlannedCallCountInfinite, mapGet_mapSet]

theorem foldAdd_get_not_mem (L : List String) (k : Int)
    (c : List (String × PlannedCallCount)) (x : String) (hx : x ∉ L) :
    mapGet (L.foldl (fun c d => addPlannedCallCount c d k) c) x = mapGet c x := by
  induction L generalizing c with
  | nil => rfl
  | cons a rest ih =>
    simp only [List.mem_cons, not_or] at hx
    simp only [List.foldl_cons]
    rw [ih _ hx.2, addPlanned_get_other _ _ _ _ hx.1]

theorem foldAdd_get_mem (L : List String) (k : Int)
    (c : List (String × PlannedCallCount)) (x : String) (hnd : L.Nodup) (hx : x ∈ L)
    (hc : mapGet c x = none) :
    mapGet (L.foldl (fun c d => addPlannedCallCount c d k) c) x = some (some k) := by
  induction L generalizing c with
  | nil => cases hx
  | cons a rest ih =>
    simp only [List.foldl_cons]
    rcases List.mem_cons.mp hx with h | h
    · subst h
      rw [foldAdd_get_not_mem rest k _ x (List.nodup_cons.mp hnd).1,
        addPlanned_get_none _ _ _ hc]
    · have hne : x ≠ a := by
        rintro rfl
        exact (List.nodup_cons.mp hnd).1 h
      exact ih _ (List.nodup_cons.mp hnd).2 h
        (by rw [addPlanned_get_other _ _ _ _ hne]; exact hc)

theorem foldSetInf_get_not_mem (L : List String)
    (c : List (String × PlannedCallCount)) (x : String) (hx : x ∉ L) :
    mapGet (L.foldl setPlannedCallCountInfinite c) x = mapGet c x := by
  induction L generalizing c with
  | nil => rfl
  | cons a rest ih =>
    simp only [List.mem_cons, not_or] at hx
    simp only [List.foldl_cons]
    rw [ih _ hx.2, setInf_get, if_neg hx.1]

theorem foldSetInf_get_mem (L : List String)
    (c : List (String × PlannedCallCount)) (x : String) (hx : x ∈ L) :
    mapGet (L.foldl setPlannedCallCountInfinite c) x = some none := by
  induction L generalizing c with
  | nil => cases hx
  | cons a rest ih =>
    simp only [List.foldl_cons]
    by_cases h : x ∈ rest
    · exact ih _ h
    · have hxa : x = a := by
        rcases List.mem_cons.mp hx with h' | h'
        · exact h'
        · exact absurd h' h
      subst hxa
      rw [foldSetInf_get_not_mem rest _ x h, setInf_get, if_pos rfl]

theorem downstreamScan_spec (nodes : NodeMap) (inc : List String) (src : String) :
    ∀ (l srcIds ref : List String),
      ∃ Δ, downstreamScan nodes inc src l srcIds ref = ref ++ Δ ∧ Δ.Sublist l ∧
        ∀ x ∈ Δ, x ≠ src ∧ x ∈ inc := by
  intro l
  induction l with
  | nil => intro srcIds ref; exact ⟨[], by simp [downstreamScan], by simp, by simp⟩
  | cons a rest ih =>
    intro srcIds ref
    by_cases h1 : a ∈ inc ∧ a ≠ src
    · cases hn : nodeGet nodes a with
      | none =>
        obtain ⟨Δ, heq, hsub, hprop⟩ := ih srcIds ref
        refine ⟨Δ, ?_, hsub.cons a, hprop⟩
        rw [downstreamScan, if_pos h1, hn]
        exact heq
      | some node =>
        by_cases h2 : referencesAnyNode node srcIds
        · obtain ⟨Δ, heq, hsub, hprop⟩ := ih (setAdd srcIds a) (ref ++ [a])
          refine ⟨a :: Δ, ?_, hsub.cons₂ a, ?_⟩
          · rw [downstreamScan, if_pos h1, hn]
            dsimp only
            rw [if_pos h2, heq]
            simp
          · intro x hx
            rcases List.mem_cons.mp hx with h' | h'
            · subst h'
              exact ⟨h1.2, h1.1⟩
            · exact hprop x h'
        · obtain ⟨Δ, heq, hsub, hprop⟩ := ih srcIds ref
          refine ⟨Δ, ?_, hsub.cons a, hprop⟩
          rw [downstreamScan, if_pos h1, hn]
          dsimp only
          rw [if_neg h2]
          exact heq
    · obtain ⟨Δ, heq, hsub, hprop⟩ := ih srcIds ref
      refine ⟨Δ, ?_, hsub.cons a, hprop⟩
      rw [downstreamScan, if_neg h1]
      exact heq

theorem closure_sublist (eo : List String) (nodes : NodeMap) (src : String)
    (inc : List String) :
    (getReferencedDownstreamNodeIds eo nodes src inc).Sublist eo ∧
      ∀ x ∈ getReferencedDownstreamNodeIds eo nodes src inc, x ≠ src ∧ x ∈ inc := by
  obtain ⟨Δ, heq, hsub, hprop⟩ := downstreamScan_spec nodes inc src eo [src] []
  rw [getReferencedDownstreamNodeIds, heq]
  exact ⟨hsub, hprop⟩

theorem countsLoop_nonrepeat_prefix (nodes : NodeMap) (inc : List String)
    (eo : List String) :
    ∀ (A rest : List String) (counts : List (String × PlannedCallCount))
      (skipped : List String),
      (∀ a ∈ A, a ∈ inc ∧ a ∉ skipped ∧
        ∃ na, nodeGet nodes a = some na ∧ na.repeatCfg.enabled = false) →
      plannedCallCountsLoop nodes inc eo (A ++ rest) counts skipped =
        plannedCallCountsLoop nodes inc eo rest
          (A.foldl (fun c a => addPlannedCallCount c a 1) counts) skipped := by
  intro A
  induction A with
  | nil => intro rest counts skipped _; rfl
  | cons a A' ih =>
    intro rest counts skipped hA
    obtain ⟨hainc, hans, na, hna, hnaen⟩ := hA a (by simp)
    simp only [List.cons_append]
    rw [plannedCallCountsLoop, if_pos ⟨hainc, hans⟩, hna]
    dsimp only
    rw [if_pos hnaen]
    exact ih rest _ skipped (fun x hx => hA x (by simp [hx]))

theorem countsLoop_nonrepeat_tail (nodes : NodeMap) (inc : List String)
    (eo : List String) :
    ∀ (B : List String) (counts : List (String × PlannedCallCount))
      (skipped : List String),
      (∀ b ∈ B, b ∈ inc ∧
        ∃ nb, nodeGet nodes b = some nb ∧ nb.repeatCfg.enabled = false) →
      plannedCallCountsLoop nodes inc eo B counts skipped =
        B.foldl (fun c b => if b ∈ skipped then c else addPlannedCallCount c b 1)
          counts := by
  intro B
  induction B with
  | nil => intro counts skipped _; rfl
  | cons b B' ih =>
    intro counts skipped hB
    obtain ⟨hbinc, nb, hnb, hnben⟩ := hB b (by simp)
    simp only [List.foldl_cons]
    by_cases hbs : b ∈ skipped
    · rw [plannedCallCountsLoop, if_neg (by simp [hbs]), if_pos hbs]
      exact ih _ skipped (fun x hx => hB x (by simp [hx]))
    · rw [plannedCallCountsLoop, if_pos ⟨hbinc, hbs⟩, hnb]
      dsimp only
      rw [if_pos hnben, if_neg hbs]
      exact ih _ skipped (fun x hx => hB x (by simp [hx]))

theorem condFold_get_not_mem (B s : List String)
    (c : List (String × PlannedCallCount)) (x : String) (hx : x ∉ B) :
    mapGet (B.foldl (fun c b => if b ∈ s then c else addPlannedCallCount c b 1) c) x
      = mapGet c x := by
  induction B generalizing c with
  | nil => rfl
  | cons b B' ih =>
    simp only [List.mem_cons, not_or] at hx
    simp only [List.foldl_cons]
    by_cases hbs : b ∈ s
    · rw [if_pos hbs, ih _ hx.2]
    · rw [if_neg hbs, ih _ hx.2, addPlanned_get_other _ _ _ _ hx.1]

theorem condFold_get_skipped (B s : List String)
    (c : List (String × PlannedCallCount)) (x : String) (hx : x ∈ s) :
    mapGet (B.foldl (fun c b => if b ∈ s then c else addPlannedCallCount c b 1) c) x
      = mapGet c x := by
  induction B generalizing c with
  | nil => rfl
  | cons b B' ih =>
    simp only [List.foldl_cons]
    by_cases hbs : b ∈ s
    · rw [if_pos hbs, ih _]
    · have hne : x ≠ b := by
        rintro rfl
        exact hbs hx
      rw [if_neg hbs, ih _, addPlanned_get_other _ _ _ _ hne]

theorem condFold_get_mem (B s : List String)
    (c : List (String × PlannedCallCount)) (x : String) (hnd : B.Nodup) (hx : x ∈ B)
    (hxs : x ∉ s) (hc : mapGet c x = none) :
    mapGet (B.foldl (fun c b => if b ∈ s then c else addPlannedCallCount c b 1) c) x
      = some (some 1) := by
  induction B generalizing c with
  | nil => cases hx
  | cons b B' ih =>
    simp only [List.foldl_cons]
    rcases List.mem_cons.mp hx with h | h
    · subst h
      rw [if_neg hxs, condFold_get_not_mem _ _ _ _ (List.nodup_cons.mp hnd).1,
        addPlanned_get_none _ _ _ hc]
    · have hne : x ≠ b := by
        rintro rfl
        exact (List.nodup_cons.mp hnd).1 h
      by_cases hbs : b ∈ s
      · rw [if_pos hbs]
        exact ih _ (List.nodup_cons.mp hnd).2 h hc
      · rw [if_neg hbs]
        exact ih _ (List.nodup_cons.mp hnd).2 h
          (by rw [addPlanned_get_other _ _ _ _ hne]; exact hc)

theorem countsLoop_repeat_step (nodes : NodeMap) (inc eo : List String) (m : String)
    (rest : List String) (counts : List (String × PlannedCallCount))
    (skipped : List String) (mnode : WorkflowNode)
    (hm : m ∈ inc) (hms : m ∉ skipped) (hmn : nodeGet nodes m = some mnode)
    (hen : mnode.repeatCfg.enabled = true)
    (hlc : ¬ max 0 mnode.repeatCfg.loopCount = 0) :
    plannedCallCountsLoop nodes inc eo (m :: rest) counts skipped =
      plannedCallCountsLoop nodes inc eo rest
        ((getReferencedDownstreamNodeIds eo nodes m inc).foldl
          (fun c d => addPlannedCallCount c d
            (max 1 mnode.repeatCfg.count * max 0 mnode.repeatCfg.loopCount))
          (addPlannedCallCount counts m
            (max 1 mnode.repeatCfg.count * max 0 mnode.repeatCfg.loopCount)))
        ((getReferencedDownstreamNodeIds eo nodes m inc).foldl setAdd skipped) := by
  rw [plannedCallCountsLoop, if_pos ⟨hm, hms⟩, hmn]
  dsimp only
  rw [if_neg (by simp [hen]), if_neg hlc]

theorem countsLoop_repeat_inf_step (nodes : NodeMap) (inc eo : List String)
    (m : String) (rest : List String) (counts : List (String × PlannedCallCount))
    (skipped : List String) (mnode : WorkflowNode)
    (hm : m ∈ inc) (hms : m ∉ skipped) (hmn : nodeGet nodes m = some mnode)
    (hen : mnode.repeatCfg.enabled = true)
    (hlc : max 0 mnode.repeatCfg.loopCount = 0) :
    plannedCallCountsLoop nodes inc eo (m :: rest) counts skipped =
      (getReferencedDownstreamNodeIds eo nodes m inc).foldl
        setPlannedCallCountInfinite (setPlannedCallCountInfinite counts m) := by
  rw [plannedCallCountsLoop, if_pos ⟨hm, hms⟩, hmn]
  dsimp only
  rw [if_neg (by simp [hen]), if_pos hlc]

/-- Claim C5: the planned-call-count calculator assigns a node with
`repeat.enabled = false` a planned count of exactly 1, and a node `m` with
`repeat.enabled = true, count = 3, loopCount = 2` a planned count of
`6 = max(1, ⌊count⌋) * max(0, ⌊loopCount⌋)`, with every node transitively
downstream of `m` by reference in the same run also receiving 6 (stated
over an execution order `A ++ m :: B` whose other members do not repeat,
with `m`'s downstream dependents among the later nodes `B`, as the
topological order guarantees). -/
theorem claimC5_planned_call_counts (nodes : NodeMap) (inc A B : List String)
    (m : String) (mnode : WorkflowNode) (i : Int) (u : RepeatUnit)
    (hnd : (A ++ m :: B).Nodup)
    (hA : ∀ a ∈ A, a ∈ inc ∧
      ∃ na, nodeGet nodes a = some na ∧ na.repeatCfg.enabled = false)
    (hB : ∀ b ∈ B, b ∈ inc ∧
      ∃ nb, nodeGet nodes b = some nb ∧ nb.repeatCfg.enabled = false)
    (hm : m ∈ inc) (hmn : nodeGet nodes m = some mnode)
    (hrep : mnode.repeatCfg = ⟨true, 3, i, u, 2⟩)
    (hC : ∀ d ∈ getReferencedDownstreamNodeIds (A ++ m :: B) nodes m inc, d ∈ B) :
    mapGet (calculatePlannedCallCounts (A ++ m :: B) nodes inc) m = some (some 6) ∧
      (∀ d ∈ getReferencedDownstreamNodeIds (A ++ m :: B) nodes m inc,
        mapGet (calculatePlannedCallCounts (A ++ m :: B) nodes inc) d
          = some (some 6)) ∧
      (∀ p ∈ A ++ B, p ∉ getReferencedDownstreamNodeIds (A ++ m :: B) nodes m inc →
        mapGet (calculatePlannedCallCounts (A ++ m :: B) nodes inc) p
          = some (some 1)) := by
  have hsplit := List.nodup_append.mp hnd
  have hndA : A.Nodup := hsplit.1
  have hmBnd := List.nodup_cons.mp hsplit.2.1
  have hmB : m ∉ B := hmBnd.1
  have hndB : B.Nodup := hmBnd.2
  have hdisj : ∀ a ∈ A, a ∉ m :: B := fun a ha => hsplit.2.2 ha
  have hmA : m ∉ A := fun hmem => hdisj m hmem (by simp)
  have hclosure := closure_sublist (A ++ m :: B) nodes m inc
  have hCnd : (getReferencedDownstreamNodeIds (A ++ m :: B) nodes m inc).Nodup :=
    hclosure.1.nodup hnd
  have hCm : m ∉ getReferencedDownstreamNodeIds (A ++ m :: B) nodes m inc :=
    fun hmem => (hclosure.2 m hmem).1 rfl
  have hCA : ∀ d ∈ getReferencedDownstreamNodeIds (A ++ m :: B) nodes m inc,
      d ∉ A := by
    intro d hd hdA
    exact hdisj d hdA (by simp [hC d hd])
  have h6 : max 1 mnode.repeatCfg.count * max 0 mnode.repeatCfg.loopCount
      = (6 : Int) := by
    rw [hrep]
    dsimp only
    decide
  have step1 : calculatePlannedCallCounts (A ++ m :: B) nodes inc
      = plannedCallCountsLoop nodes inc (A ++ m :: B) (m :: B)
        (A.foldl (fun c a => addPlannedCallCount c a 1) []) [] := by
    rw [calculatePlannedCallCounts]
    exact countsLoop_nonrepeat_prefix nodes inc (A ++ m :: B) A (m :: B) [] []
      (fun a ha => ⟨(hA a ha).1, by simp, (hA a ha).2⟩)
  have step2 := countsLoop_repeat_step nodes inc (A ++ m :: B) m B
    (A.foldl (fun c a => addPlannedCallCount c a 1) []) [] mnode hm (by simp) hmn
    (by rw [hrep]) (by rw [hrep]; dsimp only; decide)
  rw [h6] at step2
  have step3 := countsLoop_nonrepeat_tail nodes inc (A ++ m :: B) B
    ((getReferencedDownstreamNodeIds (A ++ m :: B) nodes m inc).foldl
      (fun c d => addPlannedCallCount c d 6)
      (addPlannedCallCount (A.foldl (fun c a => addPlannedCallCount c a 1) []) m 6))
    ((getReferencedDownstreamNodeIds (A ++ m :: B) nodes m inc).foldl setAdd [])
    hB
  have hall : calculatePlannedCallCounts (A ++ m :: B) nodes inc
      = B.foldl (fun c b =>
          if b ∈ (getReferencedDownstreamNodeIds (A ++ m :: B) nodes m inc).foldl
              setAdd [] then c
          else addPlannedCallCount c b 1)
        ((getReferencedDownstreamNodeIds (A ++ m :: B) nodes m inc).foldl
          (fun c d => addPlannedCallCount c d 6)
          (addPlannedCallCount (A.foldl (fun c a => addPlannedCallCount c a 1) []) m 6)) := by
    rw [step1, step2, step3]
  have hskipmem : ∀ x, x ∈ (getReferencedDownstreamNodeIds (A ++ m :: B) nodes m inc).foldl
      setAdd [] ↔ x ∈ getReferencedDownstreamNodeIds (A ++ m :: B) nodes m inc := by
    intro x
    rw [mem_foldl_setAdd]
    simp
  -- the value of the accumulated map before the tail fold
  have hbase : ∀ x, mapGet
      ((getReferencedDownstreamNodeIds (A ++ m :: B) nodes m inc).foldl
        (fun c d => addPlannedCallCount c d 6)
        (addPlannedCallCount (A.foldl (fun c a => addPlannedCallCount c a 1) []) m 6)) x
      = (if x ∈ getReferencedDownstreamNodeIds (A ++ m :: B) nodes m inc then some (some 6)
        else if x = m then some (some 6)
        else if x ∈ A then some (some 1) else none) := by
    intro x
    by_cases hx1 : x ∈ getReferencedDownstreamNodeIds (A ++ m :: B) nodes m inc
    · rw [if_pos hx1]
      refine foldAdd_get_mem _ _ _ _ hCnd hx1 ?_
      have hxm : x ≠ m := (hclosure.2 x hx1).1
      rw [addPlanned_get_other _ _ _ _ hxm, foldAdd_get_not_mem _ _ _ _ (hCA x hx1)]
      rfl
    · rw [if_neg hx1, foldAdd_get_not_mem _ _ _ _ hx1]
      by_cases hx2 : x = m
      · subst hx2
        rw [if_pos rfl]
        refine addPlanned_get_none _ _ _ ?_
        rw [foldAdd_get_not_mem _ _ _ _ hmA]
        rfl
      · rw [if_neg hx2, addPlanned_get_other _ _ _ _ hx2]
        by_cases hx3 : x ∈ A
        · rw [if_pos hx3]
          exact foldAdd_get_mem _ _ _ _ hndA hx3 rfl
        · rw [if_neg hx3]
          rw [foldAdd_get_not_mem _ _ _ _ hx3]
          rfl
  refine ⟨?_, ?_, ?_⟩
  · rw [hall, condFold_get_not_mem _ _ _ _ hmB, hbase m, if_neg hCm, if_pos rfl]
  · intro d hd
    rw [hall, condFold_get_skipped _ _ _ _ ((hskipmem d).mpr hd), hbase d, if_pos hd]
  · intro p hp hpC
    rcases List.mem_append.mp hp with hpA | hpB
    · have hpB' : p ∉ B := fun hmem => hdisj p hpA (by simp [hmem])
      have hpm : p ≠ m := fun hpm => hdisj p hpA (by simp [hpm])
      rw [hall, condFold_get_not_mem _ _ _ _ hpB', hbase p, if_neg hpC, if_neg hpm,
        if_pos hpA]
    · have hpm : p ≠ m := fun hpm => hmB (hpm ▸ hpB)
      have hpA' : p ∉ A := fun hmem => hdisj p hmem (by simp [hpB])
      rw [hall]
      rw [condFold_get_mem B _ _ p hndB hpB (fun hmem => hpC ((hskipmem p).mp hmem)) ?_]
      rw [hbase p, if_neg hpC, if_neg hpm, if_neg hpA']

/-- Claim C6: a repeating node with `loopCount = 0` makes the calculator
assign the null/infinite sentinel to the node itself and to every node
transitively downstream of it by reference, and a planned count that is
the infinite sentinel is never overwritten back to a finite number by a
later finite contribution (`addPlannedCallCount` leaves a `null` entry
unchanged). -/
theorem claimC6_infinite_sentinel (nodes : NodeMap) (inc A B : List String)
    (m : String) (mnode : WorkflowNode) (cnt i : Int) (u : RepeatUnit)
    (hA : ∀ a ∈ A, a ∈ inc ∧
      ∃ na, nodeGet nodes a = some na ∧ na.repeatCfg.enabled = false)
    (hm : m ∈ inc) (hmn : nodeGet nodes m = some mnode)
    (hrep : mnode.repeatCfg = ⟨true, cnt, i, u, 0⟩) :
    mapGet (calculatePlannedCallCounts (A ++ m :: B) nodes inc) m = some none ∧
      (∀ d ∈ getReferencedDownstreamNodeIds (A ++ m :: B) nodes m inc,
        mapGet (calculatePlannedCallCounts (A ++ m :: B) nodes inc) d = some none) ∧
      (∀ (c : List (String × PlannedCallCount)) (id : String) (k : Int),
        mapGet c id = some none →
          mapGet (addPlannedCallCount c id k) id = some none) := by
  have hclosure := closure_sublist (A ++ m :: B) nodes m inc
  have hCm : m ∉ getReferencedDownstreamNodeIds (A ++ m :: B) nodes m inc :=
    fun hmem => (hclosure.2 m hmem).1 rfl
  have step1 : calculatePlannedCallCounts (A ++ m :: B) nodes inc
      = plannedCallCountsLoop nodes inc (A ++ m :: B) (m :: B)
        (A.foldl (fun c a => addPlannedCallCount c a 1) []) [] := by
    rw [calculatePlannedCallCounts]
    exact countsLoop_nonrepeat_prefix nodes inc (A ++ m :: B) A (m :: B) [] []
      (fun a ha => ⟨(hA a ha).1, by simp, (hA a ha).2⟩)
  have step2 := countsLoop_repeat_inf_step nodes inc (A ++ m :: B) m B
    (A.foldl (fun c a => addPlannedCallCount c a 1) []) [] mnode hm (by simp) hmn
    (by rw [hrep]) (by rw [hrep]; dsimp only; decide)
  have hall : calculatePlannedCallCounts (A ++ m :: B) nodes inc
      = (getReferencedDownstreamNodeIds (A ++ m :: B) nodes m inc).foldl
          setPlannedCallCountInfinite
          (setPlannedCallCountInfinite
            (A.foldl (fun c a => addPlannedCallCount c a 1) []) m) := by
    rw [step1, step2]
  refine ⟨?_, ?_, ?_⟩
  · rw [hall, foldSetInf_get_not_mem _ _ _ hCm, setInf_get, if_pos rfl]
  · intro d hd
    rw [hall, foldSetInf_get_mem _ _ _ hd]
  · intro c id k h
    rw [addPlanned_infinite c id k h]
    exact h

/-- Witness for `claimC5_planned_call_counts` on a concrete three-node run. -/
theorem claimC5_planned_call_counts_witness :
    mapGet (calculatePlannedCallCounts (["P"] ++ "M" :: ["Q"]) nmPMQ ["P", "M", "Q"])
        "M" = some (some 6) ∧
      (∀ d ∈ getReferencedDownstreamNodeIds (["P"] ++ "M" :: ["Q"]) nmPMQ "M"
          ["P", "M", "Q"],
        mapGet (calculatePlannedCallCounts (["P"] ++ "M" :: ["Q"]) nmPMQ
          ["P", "M", "Q"]) d = some (some 6)) ∧
      (∀ p ∈ ["P"] ++ ["Q"],
        p ∉ getReferencedDownstreamNodeIds (["P"] ++ "M" :: ["Q"]) nmPMQ "M"
          ["P", "M", "Q"] →
        mapGet (calculatePlannedCallCounts (["P"] ++ "M" :: ["Q"]) nmPMQ
          ["P", "M", "Q"]) p = some (some 1)) :=
  claimC5_planned_call_counts nmPMQ ["P", "M", "Q"] ["P"] ["Q"] "M" nodeM 1 .seconds
    (by decide)
    (by
      intro a ha
      have ha' : a = "P" := by simpa using ha
      subst ha'
      exact ⟨by decide, nodeP, rfl, rfl⟩)
    (by
      intro b hb
      have hb' : b = "Q" := by simpa using hb
      subst hb'
      exact ⟨by decide, nodeQ, rfl, rfl⟩)
    (by decide) rfl rfl
    (by
      intro d hd
      have hcl : getReferencedDownstreamNodeIds (["P"] ++ "M" :: ["Q"]) nmPMQ "M"
          ["P", "M", "Q"] = ["Q"] := rfl
      rw [hcl] at hd
      simpa using hd)

/-- Witness for `claimC6_infinite_sentinel` on a concrete three-node run. -/
theorem claimC6_infinite_sentinel_witness :
    mapGet (calculatePlannedCallCounts (["P"] ++ "M" :: ["Q"]) nmPMQInf
        ["P", "M", "Q"]) "M" = some none ∧
      (∀ d ∈ getReferencedDownstreamNodeIds (["P"] ++ "M" :: ["Q"]) nmPMQInf "M"
          ["P", "M", "Q"],
        mapGet (calculatePlannedCallCounts (["P"] ++ "M" :: ["Q"]) nmPMQInf
          ["P", "M", "Q"]) d = some none) ∧
      (∀ (c : List (String × PlannedCallCount)) (id : String) (k : Int),
        mapGet c id = some none →
          mapGet (addPlannedCallCount c id k) id = some none) :=
  claimC6_infinite_sentinel nmPMQInf ["P", "M", "Q"] ["P"] ["Q"] "M" nodeMInf 2 1
    .seconds
    (by
      intro a ha
      have ha' : a = "P" := by simpa using ha
      subst ha'
      exact ⟨by decide, nodeP, rfl, rfl⟩)
    (by decide) rfl rfl

/-! ### C9: path resolver round-trip -/

theorem tokenizeAux_irrel (f1 : Nat) :
    ∀ (f2 : Nat) (cs : List Char), cs.length ≤ f1 → cs.length ≤ f2 →
      tokenizeAux f1 cs = tokenizeAux f2 cs := by
  induction f1 with
  | zero =>
    intro f2 cs h1 _
    have hnil : cs = [] := List.length_eq_zero.mp (Nat.le_zero.mp h1)
    subst hnil
    cases f2 <;> rfl
  | succ f1' ih =>
    intro f2 cs h1 h2
    cases cs with
    | nil => cases f2 <;> rfl
    | cons c rest =>
      cases f2 with
      | zero => simp at h2
      | succ f2' =>
        simp only [List.length_cons, Nat.succ_le_succ_iff] at h1 h2
        simp only [tokenizeAux]
        have htail : (List.dropWhile Char.isDigit rest).tail.length ≤ rest.length := by
          have hd := (List.dropWhile_sublist (p := Char.isDigit) (l := rest)).length_le
          have ht := List.length_tail (List.dropWhile Char.isDigit rest)
          omega
        have hdw : (rest.dropWhile (fun d => !isPathSpecial d)).length ≤ rest.length :=
          (List.dropWhile_sublist _).length_le
        by_cases hc1 : c = '.' ∨ c = ']'
        · rw [if_pos hc1, if_pos hc1]
          exact ih f2' rest h1 h2
        · rw [if_neg hc1, if_neg hc1]
          by_cases hc2 : c = '['
          · rw [if_pos hc2, if_pos hc2]
            by_cases hb : rest.takeWhile Char.isDigit ≠ [] ∧
                (rest.dropWhile Char.isDigit).head? = some ']'
            · rw [if_pos hb, if_pos hb, ih f2' _ (le_trans htail h1) (le_trans htail h2)]
            · rw [if_neg hb, if_neg hb]
              exact ih f2' rest h1 h2
          · rw [if_neg hc2, if_neg hc2,
              ih f2' _ (le_trans hdw h1) (le_trans hdw h2)]

theorem tokenizeChars_nil : tokenizeChars [] = [] := rfl

theorem tokenizeChars_cons (c : Char) (l : List Char) :
    tokenizeChars (c :: l) =
      if c = '.' ∨ c = ']' then tokenizeChars l
      else if c = '[' then
        if l.takeWhile Char.isDigit ≠ [] ∧
            (l.dropWhile Char.isDigit).head? = some ']' then
          .idx (digitsVal (l.takeWhile Char.isDigit)) ::
            tokenizeChars (l.dropWhile Char.isDigit).tail
        else tokenizeChars l
      else
        .key (String.mk (c :: l.takeWhile (fun d => !isPathSpecial d))) ::
          tokenizeChars (l.dropWhile (fun d => !isPathSpecial d)) := by
  have htail : (List.dropWhile Char.isDigit l).tail.length ≤ l.length := by
    have hd := (List.dropWhile_sublist (p := Char.isDigit) (l := l)).length_le
    have ht := List.length_tail (List.dropWhile Char.isDigit l)
    omega
  have hdw : (l.dropWhile (fun d => !isPathSpecial d)).length ≤ l.length :=
    (List.dropWhile_sublist _).length_le
  show tokenizeAux (l.length + 1) (c :: l) = _
  simp only [tokenizeAux]
  by_cases hc1 : c = '.' ∨ c = ']'
  · rw [if_pos hc1, if_pos hc1]
    rfl
  · rw [if_neg hc1, if_neg hc1]
    by_cases hc2 : c = '['
    · rw [if_pos hc2, if_pos hc2]
      by_cases hb : l.takeWhile Char.isDigit ≠ [] ∧
          (l.dropWhile Char.isDigit).head? = some ']'
      · rw [if_pos hb, if_pos hb,
          tokenizeAux_irrel l.length _ _ htail le_rfl]
        rfl
      · rw [if_neg hb, if_neg hb]
        rfl
    · rw [if_neg hc2, if_neg hc2,
        tokenizeAux_irrel l.length _ _ hdw le_rfl]
      rfl

theorem digitChar_facts (d : Nat) (hd : d < 10) :
    (Nat.digitChar d).isDigit = true ∧ (Nat.digitChar d).toNat - 48 = d := by
  interval_cases d <;> exact ⟨by decide, by decide⟩

theorem digitsVal_append_single (xs : List Char) (c : Char) :
    digitsVal (xs ++ [c]) = digitsVal xs * 10 + (c.toNat - 48) := by
  simp [digitsVal, List.foldl_append]

theorem natDigitsAux_spec (fuel : Nat) :
    ∀ n, n ≤ fuel →
      natDigitsAux fuel n ≠ [] ∧ (natDigitsAux fuel n).all Char.isDigit = true ∧
        digitsVal (natDigitsAux fuel n) = n := by
  induction fuel with
  | zero =>
    intro n hn
    have : n = 0 := Nat.le_zero.mp hn
    subst this
    exact ⟨by decide, by decide, by decide⟩
  | succ fuel' ih =>
    intro n hn
    by_cases h10 : n < 10
    · have hfacts := digitChar_facts n h10
      refine ⟨by simp [natDigitsAux, h10], ?_, ?_⟩
      · simp [natDigitsAux, h10, hfacts.1]
      · simp [natDigitsAux, h10, digitsVal, hfacts.2]
    · have hdiv : n / 10 ≤ fuel' := by
        have := Nat.div_lt_self (by omega : 0 < n) (by omega : 1 < 10)
        omega
      obtain ⟨hne, hall, hval⟩ := ih (n / 10) hdiv
      have hmod := digitChar_facts (n % 10) (Nat.mod_lt n (by omega))
      refine ⟨by simp [natDigitsAux, h10], ?_, ?_⟩
      · simp only [natDigitsAux, if_neg h10, List.all_append, hall, Bool.true_and,
          List.all_cons, List.all_nil, Bool.and_true]
        exact hmod.1
      · simp only [natDigitsAux, if_neg h10, digitsVal_append_single, hval, hmod.2]
        omega

theorem natToString_spec (n : Nat) :
    (natToString n).data ≠ [] ∧ (natToString n).data.all Char.isDigit = true ∧
      digitsVal (natToString n).data = n :=
  natDigitsAux_spec n n le_rfl

theorem tokenizeChars_dot (k : List Char) :
    tokenizeChars ('.' :: k) = tokenizeChars k := by
  rw [tokenizeChars_cons, if_pos (Or.inl rfl)]

theorem tokenizeChars_key (k : String) (hk : wfKey k = true) :
    tokenizeChars k.data = [.key k] := by
  simp only [wfKey, Bool.and_eq_true, Bool.not_eq_true', decide_eq_false_iff_not,
    List.all_eq_true] at hk
  obtain ⟨hne, hall⟩ := hk
  cases hd : k.data with
  | nil =>
    exfalso
    apply hne
    cases k
    simp at hd
    simp [hd]
  | cons c restk =>
    have hcs : isPathSpecial c = false := by
      have := hall c (by rw [hd]; simp)
      simpa using this
    have hcns : ¬(c = '.' ∨ c = ']') := by
      intro h
      rcases h with h | h <;> simp [isPathSpecial, h] at hcs
    have hcnb : ¬ c = '[' := by
      intro h
      simp [isPathSpecial, h] at hcs
    have hrest : ∀ x ∈ restk, (!isPathSpecial x) = true := by
      intro x hx
      have := hall x (by rw [hd]; simp [hx])
      simpa using this
    rw [tokenizeChars_cons, if_neg hcns, if_neg hcnb,
      List.takeWhile_eq_self_iff.mpr hrest,
      List.dropWhile_eq_nil_iff.mpr hrest, tokenizeChars_nil]
    have : String.mk (c :: restk) = k := by
      cases k
      simp at hd
      simp [hd]
    rw [this]

theorem tokenizeChars_idx (n : Nat) :
    tokenizeChars ('[' :: ((natToString n).data ++ [']'])) = [.idx n] := by
  obtain ⟨hne, hall, hval⟩ := natToString_spec n
  have halltrue : ∀ x ∈ (natToString n).data, Char.isDigit x = true := by
    intro x hx
    exact List.all_eq_true.mp hall x hx
  have htw : List.takeWhile Char.isDigit ((natToString n).data ++ [']'])
      = (natToString n).data := by
    rw [List.takeWhile_append, if_pos (by rw [List.takeWhile_eq_self_iff.mpr halltrue])]
    simp [List.takeWhile_cons]
  have hdw : List.dropWhile Char.isDigit ((natToString n).data ++ [']'])
      = [']'] := by
    rw [List.dropWhile_append,
      if_pos (by rw [List.dropWhile_eq_nil_iff.mpr halltrue]; rfl)]
    simp [List.dropWhile_cons]
  rw [tokenizeChars_cons, if_neg (by decide), if_pos rfl,
    if_pos ⟨by rw [htw]; exact hne, by rw [hdw]; rfl⟩, htw, hdw, hval]
  rfl

theorem tokenizeChars_append_special (s : List Char)
    (hs : ∀ c, s.head? = some c → c = '.' ∨ c = '[') :
    ∀ (n : Nat) (cs : List Char), cs.length ≤ n →
      tokenizeChars (cs ++ s) = tokenizeChars cs ++ tokenizeChars s := by
  have hsdigit : List.dropWhile Char.isDigit s = s := by
    cases s with
    | nil => rfl
    | cons c0 s' =>
      rcases hs c0 rfl with h | h <;> simp [List.dropWhile_cons, h]
  have hsspecial : List.dropWhile (fun d => !isPathSpecial d) s = s := by
    cases s with
    | nil => rfl
    | cons c0 s' =>
      rcases hs c0 rfl with h | h <;> simp [List.dropWhile_cons, h, isPathSpecial]
  have hstw : List.takeWhile Char.isDigit s = [] := by
    cases s with
    | nil => rfl
    | cons c0 s' =>
      rcases hs c0 rfl with h | h <;> simp [List.takeWhile_cons, h]
  have hstwsp : List.takeWhile (fun d => !isPathSpecial d) s = [] := by
    cases s with
    | nil => rfl
    | cons c0 s' =>
      rcases hs c0 rfl with h | h <;> simp [List.takeWhile_cons, h, isPathSpecial]
  have hshead : ¬ s.head? = some ']' := by
    intro h
    rcases hs ']' h with h' | h' <;> simp at h'
  intro n
  induction n with
  | zero =>
    intro cs h
    have hnil : cs = [] := List.length_eq_zero.mp (Nat.le_zero.mp h)
    subst hnil
    simp [tokenizeChars_nil]
  | succ n' ih =>
    intro cs hlen
    cases cs with
    | nil => simp [tokenizeChars_nil]
    | cons c rest =>
      simp only [List.length_cons, Nat.succ_le_succ_iff] at hlen
      rw [List.cons_append, tokenizeChars_cons, tokenizeChars_cons]
      by_cases hc1 : c = '.' ∨ c = ']'
      · rw [if_pos hc1, if_pos hc1, ih rest hlen]
      · rw [if_neg hc1, if_neg hc1]
        by_cases hc2 : c = '['
        · rw [if_pos hc2, if_pos hc2]
          by_cases hrd : List.dropWhile Char.isDigit rest = []
          · have hdcomb : List.dropWhile Char.isDigit (rest ++ s) = s := by
              rw [List.dropWhile_append, if_pos (by simp [hrd]), hsdigit]
            have hcondc : ¬(List.takeWhile Char.isDigit (rest ++ s) ≠ [] ∧
                (List.dropWhile Char.isDigit (rest ++ s)).head? = some ']') := by
              rw [hdcomb]
              rintro ⟨-, h2⟩
              exact hshead h2
            have hcond : ¬(List.takeWhile Char.isDigit rest ≠ [] ∧
                (List.dropWhile Char.isDigit rest).head? = some ']') := by
              rw [hrd]
              rintro ⟨-, h2⟩
              simp at h2
            rw [if_neg hcondc, if_neg hcond, ih rest hlen]
          · obtain ⟨d, rest2, hrd2⟩ :
                ∃ d rest2, List.dropWhile Char.isDigit rest = d :: rest2 := by
              cases hh : List.dropWhile Char.isDigit rest with
              | nil => exact absurd hh hrd
              | cons d r => exact ⟨d, r, rfl⟩
            have hdcomb : List.dropWhile Char.isDigit (rest ++ s)
                = List.dropWhile Char.isDigit rest ++ s := by
              rw [List.dropWhile_append, if_neg (by simp [List.isEmpty_iff, hrd])]
            have htcomb : List.takeWhile Char.isDigit (rest ++ s)
                = List.takeWhile Char.isDigit rest := by
              rw [List.takeWhile_append, if_neg ?_]
              intro hfull
              have := List.takeWhile_append_dropWhile (p := Char.isDigit) (l := rest)
              have hlen2 : (List.takeWhile Char.isDigit rest).length
                  + (List.dropWhile Char.isDigit rest).length = rest.length := by
                rw [← List.length_append, this]
              rw [hrd2] at hlen2
              simp at hlen2
              omega
            rw [hdcomb, htcomb, hrd2]
            have hrest2 : rest2.length ≤ n' := by
              have hsl := (List.dropWhile_sublist (p := Char.isDigit) (l := rest)).length_le
              rw [hrd2] at hsl
              simp at hsl
              omega
            by_cases hb : List.takeWhile Char.isDigit rest ≠ [] ∧ d = ']'
            · rw [if_pos (by simp [List.head?_cons, hb.1, hb.2]),
                if_pos (by simp [List.head?_cons, hb.1, hb.2])]
              simp only [List.cons_append, List.tail_cons]
              rw [ih rest2 hrest2]
            · have hb1 : ¬(List.takeWhile Char.isDigit rest ≠ [] ∧
                  ((d :: rest2) ++ s).head? = some ']') := by
                rintro ⟨h1, h2⟩
                simp only [List.cons_append, List.head?_cons, Option.some.injEq] at h2
                exact hb ⟨h1, h2⟩
              have hb2 : ¬(List.takeWhile Char.isDigit rest ≠ [] ∧
                  (d :: rest2).head? = some ']') := by
                rintro ⟨h1, h2⟩
                simp only [List.head?_cons, Option.some.injEq] at h2
                exact hb ⟨h1, h2⟩
              rw [if_neg hb1, if_neg hb2, ih rest hlen]
        · rw [if_neg hc2, if_neg hc2]
          have htcomb : List.takeWhile (fun d => !isPathSpecial d) (rest ++ s)
              = List.takeWhile (fun d => !isPathSpecial d) rest := by
            rw [List.takeWhile_append]
            split_ifs with h
            · rw [hstwsp, List.append_nil]
              exact ((List.takeWhile_sublist _).eq_of_length h).symm ▸ rfl
            · rfl
          rw [htcomb]
          by_cases hrd : List.dropWhile (fun d => !isPathSpecial d) rest = []
          · have hdcomb : List.dropWhile (fun d => !isPathSpecial d) (rest ++ s)
                = s := by
              rw [List.dropWhile_append, if_pos (by simp [hrd]), hsspecial]
            rw [hdcomb, hrd, tokenizeChars_nil]
            simp
          · have hdcomb : List.dropWhile (fun d => !isPathSpecial d) (rest ++ s)
                = List.dropWhile (fun d => !isPathSpecial d) rest ++ s := by
              rw [List.dropWhile_append, if_neg (by simp [List.isEmpty_iff, hrd])]
            have hlen2 : (List.dropWhile (fun d => !isPathSpecial d) rest).length ≤ n' :=
              le_trans (List.dropWhile_sublist _).length_le hlen
            rw [hdcomb, ih _ hlen2]
            simp

theorem renderIdxPath_data (basePath : String) (i : Nat) :
    (renderIdxPath basePath i).data
      = basePath.data ++ '[' :: ((natToString i).data ++ [']']) := by
  simp [renderIdxPath, String.data_append]

theorem renderKeyPath_data_pos (basePath : String) (k : String) (h : basePath ≠ "") :
    (renderKeyPath basePath k).data = basePath.data ++ '.' :: k.data := by
  simp [renderKeyPath, h, String.data_append]

theorem tokenizePath_renderIdx (basePath : String) (i : Nat) :
    tokenizeChars (renderIdxPath basePath i).data
      = tokenizeChars basePath.data ++ [.idx i] := by
  rw [renderIdxPath_data,
    tokenizeChars_append_special ('[' :: ((natToString i).data ++ [']']))
      (by
        intro c hc
        rw [List.head?_cons, Option.some.injEq] at hc
        exact Or.inr hc.symm)
      basePath.data.length basePath.data le_rfl,
    tokenizeChars_idx]

theorem tokenizePath_renderKey (basePath : String) (k : String) (hk : wfKey k = true) :
    tokenizeChars (renderKeyPath basePath k).data
      = tokenizeChars basePath.data ++ [.key k] := by
  by_cases hb : basePath = ""
  · subst hb
    have hdata : ("" : String).data = [] := rfl
    rw [renderKeyPath, if_pos rfl, hdata, tokenizeChars_nil, tokenizeChars_key k hk]
    rfl
  · rw [renderKeyPath_data_pos _ _ hb,
      tokenizeChars_append_special ('.' :: k.data)
        (by
          intro c hc
          rw [List.head?_cons, Option.some.injEq] at hc
          exact Or.inl hc.symm)
        basePath.data.length basePath.data le_rfl,
      tokenizeChars_dot, tokenizeChars_key k hk]

theorem getTokens_nil (v : Json) : getTokens v [] = some v := by
  cases v <;> rfl

theorem getTokens_cons (v : Json) (t : PathTok) (rest : List PathTok) :
    getTokens v (t :: rest) = (stepTok v t).bind (fun u => getTokens u rest) := by
  cases v with
  | null => cases t <;> rfl
  | bool b => cases t <;> rfl
  | num n => cases t <;> rfl
  | str s => cases t <;> rfl
  | arr xs =>
    cases t with
    | idx i =>
      show (match xs.get? i with
        | some w => getTokens w rest
        | none => none) = (xs.get? i).bind (fun u => getTokens u rest)
      cases xs.get? i <;> rfl
    | key k =>
      show (if k = "length" then getTokens (.num xs.length) rest
        else match canonIndex k with
          | some i =>
            match xs.get? i with
            | some w => getTokens w rest
            | none => none
          | none => none) =
        (if k = "length" then some (Json.num xs.length)
          else match canonIndex k with
            | some i => xs.get? i
            | none => none).bind (fun u => getTokens u rest)
      by_cases hk : k = "length"
      · rw [if_pos hk, if_pos hk]
        rfl
      · rw [if_neg hk, if_neg hk]
        cases canonIndex k with
        | some i =>
          show (match xs.get? i with
            | some w => getTokens w rest
            | none => none) = (xs.get? i).bind (fun u => getTokens u rest)
          cases xs.get? i <;> rfl
        | none => rfl
  | obj fields =>
    cases t with
    | idx i => rfl
    | key k =>
      show (match mapGet fields k with
        | some w => getTokens w rest
        | none => none) = (mapGet fields k).bind (fun u => getTokens u rest)
      cases mapGet fields k <;> rfl

theorem getTokens_append (t1 : List PathTok) :
    ∀ (v : Json) (t2 : List PathTok),
      getTokens v (t1 ++ t2) = (getTokens v t1).bind (fun u => getTokens u t2) := by
  induction t1 with
  | nil =>
    intro v t2
    cases v <;> rfl
  | cons t t1' ih =>
    intro v t2
    rw [List.cons_append, getTokens_cons, getTokens_cons]
    cases stepTok v t with
    | none => rfl
    | some u =>
      simp only [Option.some_bind]
      exact ih u t2

theorem nodupKeys_mapGet (fields : List (String × Json)) (k : String) (v : Json)
    (hnd : nodupKeys fields = true) (hmem : (k, v) ∈ fields) :
    mapGet fields k = some v := by
  induction fields with
  | nil => cases hmem
  | cons p rest ih =>
    obtain ⟨k1, v1⟩ := p
    simp only [nodupKeys, Bool.and_eq_true, Bool.not_eq_true', List.any_eq_false,
      decide_eq_false_iff_not] at hnd
    rcases List.mem_cons.mp hmem with h | h
    · injection h with hk hv
      subst hk
      subst hv
      simp [mapGet]
    · have hne : k1 ≠ k := fun he => hnd.1 (k, v) h (by simpa using he.symm)
      simp only [mapGet]
      rw [if_neg hne]
      exact ih hnd.2 h

theorem renderIdxPath_ne_empty (basePath : String) (i : Nat) :
    renderIdxPath basePath i ≠ "" := by
  intro h
  have hdata : (renderIdxPath basePath i).data = [] := by rw [h]
  rw [renderIdxPath_data] at hdata
  simp at hdata

theorem wfKey_ne_empty (k : String) (hk : wfKey k = true) : k ≠ "" := by
  simp only [wfKey, Bool.and_eq_true, Bool.not_eq_true', decide_eq_false_iff_not] at hk
  exact hk.1

theorem renderKeyPath_ne_empty (basePath k : String) (hk : wfKey k = true) :
    renderKeyPath basePath k ≠ "" := by
  by_cases hb : basePath = ""
  · rw [renderKeyPath, if_pos hb]
    exact wfKey_ne_empty k hk
  · intro h
    have hdata : (renderKeyPath basePath k).data = [] := by rw [h]
    rw [renderKeyPath_data_pos _ _ hb] at hdata
    simp at hdata

theorem wfJsonObj_key (fields : List (String × Json)) (k : String) (child : Json)
    (hwf : wfJsonObj fields = true) (hmem : (k, child) ∈ fields) :
    wfKey k = true := by
  induction fields with
  | nil => cases hmem
  | cons f rest ih =>
    obtain ⟨k1, v1⟩ := f
    simp only [wfJsonObj, Bool.and_eq_true] at hwf
    rcases List.mem_cons.mp hmem with h | h
    · injection h with hk _
      subst hk
      exact hwf.1.1
    · exact ih hwf.2 h

mutual
theorem collectEntries_sound (v : Json) (basePath : String) (depth maxDepth : Nat)
    (root : Json) (hwf : wfJson v = true)
    (hbase : getTokens root (tokenizeChars basePath.data) = some v) :
    ∀ p w, (p, w) ∈ collectEntries v basePath depth maxDepth →
      p ≠ "" ∧ getTokens root (tokenizeChars p.data) = some w := by
  intro p w hmem
  cases v with
  | null =>
    rw [collectEntries.eq_def] at hmem
    by_cases hd : depth > maxDepth
    · rw [if_pos hd] at hmem
      exact absurd hmem (List.not_mem_nil _)
    · rw [if_neg hd] at hmem
      exact absurd hmem (List.not_mem_nil _)
  | bool b =>
    rw [collectEntries.eq_def] at hmem
    by_cases hd : depth > maxDepth
    · rw [if_pos hd] at hmem
      exact absurd hmem (List.not_mem_nil _)
    · rw [if_neg hd] at hmem
      exact absurd hmem (List.not_mem_nil _)
  | num n =>
    rw [collectEntries.eq_def] at hmem
    by_cases hd : depth > maxDepth
    · rw [if_pos hd] at hmem
      exact absurd hmem (List.not_mem_nil _)
    · rw [if_neg hd] at hmem
      exact absurd hmem (List.not_mem_nil _)
  | str s =>
    rw [collectEntries.eq_def] at hmem
    by_cases hd : depth > maxDepth
    · rw [if_pos hd] at hmem
      exact absurd hmem (List.not_mem_nil _)
    · rw [if_neg hd] at hmem
      exact absurd hmem (List.not_mem_nil _)
  | arr xs =>
    rw [collectEntries.eq_def] at hmem
    by_cases hd : depth > maxDepth
    · rw [if_pos hd] at hmem
      exact absurd hmem (List.not_mem_nil _)
    · rw [if_neg hd] at hmem
      refine collectEntriesArr_sound xs 0 basePath depth maxDepth root hwf ?_ p w hmem
      intro j hj
      rw [tokenizePath_renderIdx, getTokens_append, hbase]
      simp only [Option.some_bind]
      have hstep : getTokens (Json.arr xs) [PathTok.idx (0 + j)] = xs.get? (0 + j) := by
        rw [getTokens_cons]
        show (xs.get? (0 + j)).bind (fun u => getTokens u []) = xs.get? (0 + j)
        cases xs.get? (0 + j) with
        | none => rfl
        | some u => simp only [Option.some_bind, getTokens_nil]
      rw [hstep, Nat.zero_add]
      exact List.get?_eq_get hj
  | obj fields =>
    rw [collectEntries.eq_def] at hmem
    by_cases hd : depth > maxDepth
    · rw [if_pos hd] at hmem
      exact absurd hmem (List.not_mem_nil _)
    · rw [if_neg hd] at hmem
      simp only [wfJson, Bool.and_eq_true] at hwf
      refine collectEntriesObj_sound fields basePath depth maxDepth root hwf.2 ?_ p w hmem
      intro k child hkc
      have hwfk : wfKey k = true := wfJsonObj_key fields k child hwf.2 hkc
      rw [tokenizePath_renderKey _ _ hwfk, getTokens_append, hbase]
      simp only [Option.some_bind]
      have hstep : getTokens (Json.obj fields) [PathTok.key k] = mapGet fields k := by
        rw [getTokens_cons]
        show (mapGet fields k).bind (fun u => getTokens u []) = mapGet fields k
        cases mapGet fields k with
        | none => rfl
        | some u => simp only [Option.some_bind, getTokens_nil]
      rw [hstep]
      exact nodupKeys_mapGet fields k child hwf.1 hkc
termination_by sizeOf v
decreasing_by
  all_goals subst_vars
  all_goals (simp; try omega)

theorem collectEntriesArr_sound (xs : List Json) (i : Nat) (basePath : String)
    (depth maxDepth : Nat) (root : Json) (hwf : wfJsonArr xs = true)
    (hidx : ∀ j (hj : j < xs.length),
      getTokens root (tokenizeChars (renderIdxPath basePath (i + j)).data)
        = some (xs.get ⟨j, hj⟩)) :
    ∀ p w, (p, w) ∈ collectEntriesArr xs i basePath depth maxDepth →
      p ≠ "" ∧ getTokens root (tokenizeChars p.data) = some w := by
  intro p w hmem
  cases xs with
  | nil => exact absurd hmem (List.not_mem_nil _)
  | cons x rest =>
    simp only [wfJsonArr, Bool.and_eq_true] at hwf
    rw [collectEntriesArr] at hmem
    have hx : getTokens root (tokenizeChars (renderIdxPath basePath i).data)
        = some x := by
      have h0 := hidx 0 (by simp)
      simpa using h0
    rcases List.mem_cons.mp hmem with h | h
    · injection h with hp hw
      subst hp
      subst hw
      exact ⟨renderIdxPath_ne_empty basePath i, hx⟩
    · rcases List.mem_append.mp h with h | h
      · exact collectEntries_sound x (renderIdxPath basePath i) (depth + 1) maxDepth
          root hwf.1 hx p w h
      · refine collectEntriesArr_sound rest (i + 1) basePath depth maxDepth root
          hwf.2 ?_ p w h
        intro j hj
        have hj2 : j + 1 < (x :: rest).length := by
          simp only [List.length_cons]
          omega
        have h1 := hidx (j + 1) hj2
        have harith : i + (j + 1) = i + 1 + j := by omega
        rw [harith] at h1
        simpa using h1
termination_by sizeOf xs
decreasing_by
  all_goals subst_vars
  all_goals (simp; try omega)

theorem collectEntriesObj_sound (fields : List (String × Json)) (basePath : String)
    (depth maxDepth : Nat) (root : Json) (hwf : wfJsonObj fields = true)
    (hfield : ∀ k child, (k, child) ∈ fields →
      getTokens root (tokenizeChars (renderKeyPath basePath k).data) = some child) :
    ∀ p w, (p, w) ∈ collectEntriesObj fields basePath depth maxDepth →
      p ≠ "" ∧ getTokens root (tokenizeChars p.data) = some w := by
  intro p w hmem
  cases fields with
  | nil => exact absurd hmem (List.not_mem_nil _)
  | cons f rest =>
    cases f with
    | mk k child =>
    simp only [wfJsonObj, Bool.and_eq_true] at hwf
    rw [collectEntriesObj] at hmem
    rcases List.mem_cons.mp hmem with h | h
    · injection h with hp hw
      refine ⟨?_, ?_⟩
      · rw [hp]
        exact renderKeyPath_ne_empty basePath k hwf.1.1
      · rw [hp, hw]
        exact hfield k child (List.mem_cons_self _ _)
    · rcases List.mem_append.mp h with h | h
      · exact collectEntries_sound child (renderKeyPath basePath k) (depth + 1)
          maxDepth root hwf.1.2 (hfield k child (List.mem_cons_self _ _)) p w h
      · exact collectEntriesObj_sound rest basePath depth maxDepth root hwf.2
          (fun k2 c2 hmem2 => hfield k2 c2 (List.mem_cons_of_mem _ hmem2)) p w h
termination_by sizeOf fields
decreasing_by
  all_goals subst_vars
  all_goals (simp; try omega)
end
mutual
theorem collectEntries_fst (v : Json) (basePath : String) (depth maxDepth : Nat) :
    (collectEntries v basePath depth maxDepth).map Prod.fst
      = collectPaths v basePath depth maxDepth := by
  cases v with
  | null =>
    rw [collectEntries.eq_def, collectPaths.eq_def]
    by_cases hd : depth > maxDepth
    · rw [if_pos hd, if_pos hd]
      rfl
    · rw [if_neg hd, if_neg hd]
      rfl
  | bool b =>
    rw [collectEntries.eq_def, collectPaths.eq_def]
    by_cases hd : depth > maxDepth
    · rw [if_pos hd, if_pos hd]
      rfl
    · rw [if_neg hd, if_neg hd]
      rfl
  | num n =>
    rw [collectEntries.eq_def, collectPaths.eq_def]
    by_cases hd : depth > maxDepth
    · rw [if_pos hd, if_pos hd]
      rfl
    · rw [if_neg hd, if_neg hd]
      rfl
  | str s =>
    rw [collectEntries.eq_def, collectPaths.eq_def]
    by_cases hd : depth > maxDepth
    · rw [if_pos hd, if_pos hd]
      rfl
    · rw [if_neg hd, if_neg hd]
      rfl
  | arr xs =>
    rw [collectEntries.eq_def, collectPaths.eq_def]
    by_cases hd : depth > maxDepth
    · rw [if_pos hd, if_pos hd]
      rfl
    · rw [if_neg hd, if_neg hd]
      exact collectEntriesArr_fst xs 0 basePath depth maxDepth
  | obj fields =>
    rw [collectEntries.eq_def, collectPaths.eq_def]
    by_cases hd : depth > maxDepth
    · rw [if_pos hd, if_pos hd]
      rfl
    · rw [if_neg hd, if_neg hd]
      exact collectEntriesObj_fst fields basePath depth maxDepth
termination_by sizeOf v
decreasing_by
  all_goals subst_vars
  all_goals (simp; try omega)

theorem collectEntriesArr_fst (xs : List Json) (i : Nat) (basePath : String)
    (depth maxDepth : Nat) :
    (collectEntriesArr xs i basePath depth maxDepth).map Prod.fst
      = collectPathsArr xs i basePath depth maxDepth := by
  cases xs with
  | nil => rfl
  | cons x rest =>
    rw [collectEntriesArr, collectPathsArr]
    simp only [List.map_cons, List.map_append]
    rw [collectEntries_fst x (renderIdxPath basePath i) (depth + 1) maxDepth]
    rw [collectEntriesArr_fst rest (i + 1) basePath depth maxDepth]
termination_by sizeOf xs
decreasing_by
  all_goals subst_vars
  all_goals (simp; try omega)

theorem collectEntriesObj_fst (fields : List (String × Json)) (basePath : String)
    (depth maxDepth : Nat) :
    (collectEntriesObj fields basePath depth maxDepth).map Prod.fst
      = collectPathsObj fields basePath depth maxDepth := by
  cases fields with
  | nil => rfl
  | cons f rest =>
    cases f with
    | mk k child =>
    rw [collectEntriesObj, collectPathsObj]
    simp only [List.map_cons, List.map_append]
    rw [collectEntries_fst child (renderKeyPath basePath k) (depth + 1) maxDepth]
    rw [collectEntriesObj_fst rest basePath depth maxDepth]
termination_by sizeOf fields
decreasing_by
  all_goals subst_vars
  all_goals (simp; try omega)
end

/-- C9, counterexample to the claim as stated: for the object
`{"a.b": 1}` the enumeration emits the path `"a.b"` (keys are pushed
verbatim), but `getByPath` re-tokenizes that path into the two segments
`a` and `b`, so resolution fails even though a value sits at that path. -/
theorem claimC9_counterexample :
    enumeratePaths cexKeyObj = ["a.b"] ∧ getByPath cexKeyObj "a.b" = none := by
  constructor
  · rfl
  · rfl

/-- C9 (corrected: the roundtrip needs well-formed object keys — nonempty,
free of `.`/`[`/`]`, duplicate-free; a key containing a dot breaks it).
For every well-formed JSON value, every path emitted by `enumeratePaths`
is nonempty and resolves through `getByPath` to exactly the value the
enumeration was visiting when it pushed that path; and the resolver is
total by construction, short-circuits to `undefined` through `null`,
yields `undefined` when indexing a non-array, and yields `undefined` when
keying a primitive. -/
theorem claimC9_path_roundtrip (v : Json) (maxDepth : Nat)
    (hwf : wfJson v = true) :
    (∀ p, p ∈ enumeratePaths v maxDepth →
      p ≠ "" ∧ ∃ w, (p, w) ∈ collectEntries v "" 0 maxDepth ∧
        getByPath v p = some w) ∧
    (∀ t ts, getTokens Json.null (t :: ts) = none) ∧
    (∀ u i ts, (∀ xs, u ≠ Json.arr xs) →
      getTokens u (PathTok.idx i :: ts) = none) ∧
    (∀ u k ts, (∀ xs, u ≠ Json.arr xs) → (∀ fs, u ≠ Json.obj fs) →
      getTokens u (PathTok.key k :: ts) = none) := by
  refine ⟨?_, ?_, ?_, ?_⟩
  · intro p hp
    have hproj := collectEntries_fst v "" 0 maxDepth
    rw [enumeratePaths, ← hproj] at hp
    rcases List.mem_map.mp hp with ⟨⟨p2, w⟩, hmem, hpw⟩
    cases hpw
    have hbase : getTokens v (tokenizeChars ("" : String).data) = some v :=
      getTokens_nil v
    have h := collectEntries_sound v "" 0 maxDepth v hwf hbase p2 w hmem
    refine ⟨h.1, w, hmem, ?_⟩
    rw [getByPath, if_neg h.1]
    exact h.2
  · intro t ts
    cases t with
    | key k => rfl
    | idx i => rfl
  · intro u i ts h
    cases u with
    | null => rfl
    | bool b => rfl
    | num n => rfl
    | str s => rfl
    | arr xs => exact absurd rfl (h xs)
    | obj fs => rfl
  · intro u k ts harr hobj
    cases u with
    | null => rfl
    | bool b => rfl
    | num n => rfl
    | str s => rfl
    | arr xs => exact absurd rfl (harr xs)
    | obj fs => exact absurd rfl (hobj fs)

/-- Witness for C9: the corrected roundtrip instantiated on a concrete
well-formed value. -/
theorem claimC9_path_roundtrip_witness :
    wfJson sampleV = true ∧
    ((∀ p, p ∈ enumeratePaths sampleV 8 →
      p ≠ "" ∧ ∃ w, (p, w) ∈ collectEntries sampleV "" 0 8 ∧
        getByPath sampleV p = some w) ∧
    (∀ t ts, getTokens Json.null (t :: ts) = none) ∧
    (∀ u i ts, (∀ xs, u ≠ Json.arr xs) →
      getTokens u (PathTok.idx i :: ts) = none) ∧
    (∀ u k ts, (∀ xs, u ≠ Json.arr xs) → (∀ fs, u ≠ Json.obj fs) →
      getTokens u (PathTok.key k :: ts) = none)) :=
  ⟨by decide, claimC9_path_roundtrip sampleV 8 (by decide)⟩

/-! ### Planner: adjacency construction -/

theorem setAdd_nodup (s : List String) (x : String) (h : s.Nodup) :
    (setAdd s x).Nodup := by
  rw [setAdd]
  by_cases hx : x ∈ s
  · rw [if_pos hx]
    exact h
  · rw [if_neg hx]
    exact List.nodup_append.mpr ⟨h, List.nodup_singleton x, by simpa using hx⟩

theorem adjInsert_get_self (adj : List (String × List String)) (s t : String) :
    mapGet (adjInsert adj s t) s = some (setAdd (adjGet adj s) t) := by
  induction adj with
  | nil => simp [adjInsert, mapGet, adjGet, setAdd]
  | cons e rest ih =>
    obtain ⟨k, ts⟩ := e
    by_cases hk : k = s
    · subst hk
      simp [adjInsert, mapGet, adjGet]
    · simp only [adjInsert, if_neg hk, mapGet, ih]
      have hsame : adjGet ((k, ts) :: rest) s = adjGet rest s := by
        rw [adjGet, adjGet]
        simp only [mapGet, if_neg hk]
      rw [hsame]

theorem adjInsert_get_other (adj : List (String × List String)) (s t x : String)
    (hx : x ≠ s) : mapGet (adjInsert adj s t) x = mapGet adj x := by
  induction adj with
  | nil =>
    simp only [adjInsert, mapGet]
    rw [if_neg (fun h : s = x => hx h.symm)]
  | cons e rest ih =>
    obtain ⟨k, ts⟩ := e
    by_cases hk : k = s
    · subst hk
      simp only [adjInsert, if_pos rfl, mapGet]
      rw [if_neg (fun h : k = x => hx h.symm), if_neg (fun h : k = x => hx h.symm)]
    · simp only [adjInsert, if_neg hk, mapGet, ih]

theorem adjGet_adjInsert (adj : List (String × List String)) (s t x : String) :
    adjGet (adjInsert adj s t) x
      = if x = s then setAdd (adjGet adj s) t else adjGet adj x := by
  by_cases hx : x = s
  · subst hx
    rw [if_pos rfl, adjGet, adjInsert_get_self]
    rfl
  · rw [if_neg hx, adjGet, adjInsert_get_other adj s t x hx]
    rfl

theorem adjEdge_adjInsert (adj : List (String × List String)) (s t a b : String) :
    adjEdge (adjInsert adj s t) a b ↔ adjEdge adj a b ∨ (a = s ∧ b = t) := by
  rw [adjEdge, adjEdge, adjGet_adjInsert]
  by_cases ha : a = s
  · subst ha
    rw [if_pos rfl, mem_setAdd]
    constructor
    · rintro (h | h)
      · exact Or.inl h
      · exact Or.inr ⟨rfl, h⟩
    · rintro (h | ⟨-, h⟩)
      · exact Or.inl h
      · exact Or.inr h
  · rw [if_neg ha]
    constructor
    · exact Or.inl
    · rintro (h | ⟨h, -⟩)
      · exact h
      · exact absurd h ha

theorem adjInsert_keys (adj : List (String × List String)) (s t : String) :
    (adjInsert adj s t).map Prod.fst
      = if s ∈ adj.map Prod.fst then adj.map Prod.fst
        else adj.map Prod.fst ++ [s] := by
  induction adj with
  | nil => simp [adjInsert]
  | cons e rest ih =>
    obtain ⟨k, ts⟩ := e
    by_cases hk : k = s
    · subst hk
      simp [adjInsert]
    · simp only [adjInsert, if_neg hk, List.map_cons, ih, List.mem_cons]
      by_cases hs : s ∈ rest.map Prod.fst
      · rw [if_pos hs, if_pos (Or.inr hs)]
      · rw [if_neg hs, if_neg ?_]
        · rfl
        · rintro (h | h)
          · exact hk h.symm
          · exact hs h

theorem adjInsert_keys_nodup (adj : List (String × List String)) (s t : String)
    (h : (adj.map Prod.fst).Nodup) : ((adjInsert adj s t).map Prod.fst).Nodup := by
  rw [adjInsert_keys]
  by_cases hs : s ∈ adj.map Prod.fst
  · rw [if_pos hs]
    exact h
  · rw [if_neg hs]
    exact List.nodup_append.mpr ⟨h, List.nodup_singleton s, by simpa using hs⟩

theorem adjInsert_targets_nodup (adj : List (String × List String)) (s t : String) :
    (∀ e ∈ adj, e.2.Nodup) → ∀ e ∈ adjInsert adj s t, e.2.Nodup := by
  induction adj with
  | nil =>
    intro _ e he
    simp only [adjInsert, List.mem_singleton] at he
    subst he
    exact List.nodup_singleton t
  | cons e0 rest ih =>
    obtain ⟨k, ts⟩ := e0
    intro h e he
    by_cases hk : k = s
    · subst hk
      simp only [adjInsert, if_pos rfl] at he
      cases he with
      | head => exact setAdd_nodup ts t (h (k, ts) (List.mem_cons_self _ _))
      | tail _ he => exact h e (List.mem_cons_of_mem _ he)
    · simp only [adjInsert, if_neg hk] at he
      cases he with
      | head => exact h (k, ts) (List.mem_cons_self _ _)
      | tail _ he => exact ih (fun e2 he2 => h e2 (List.mem_cons_of_mem _ he2)) e he

theorem innerFold_edge (nodeIds : List String) (node : WorkflowNode) :
    ∀ (params : List ParamBinding) (acc : List (String × List String)) (a b : String),
      adjEdge (params.foldl
        (fun adj param =>
          match param.value with
          | .literal _ => adj
          | .ref sourceNodeId _ =>
            if sourceNodeId ∈ nodeIds then adjInsert adj sourceNodeId node.id
            else adj) acc) a b
      ↔ adjEdge acc a b ∨ ((∃ pb ∈ params, ∃ path, pb.value = .ref a path) ∧
          a ∈ nodeIds ∧ b = node.id) := by
  intro params
  induction params with
  | nil =>
    intro acc a b
    simp
  | cons pb rest ih =>
    intro acc a b
    rw [List.foldl_cons, ih]
    cases hpv : pb.value with
    | literal v =>
      simp only [hpv]
      constructor
      · rintro (h | h)
        · exact Or.inl h
        · refine Or.inr ⟨?_, h.2⟩
          obtain ⟨pb2, hpb2, hp⟩ := h.1
          exact ⟨pb2, List.mem_cons_of_mem _ hpb2, hp⟩
      · rintro (h | ⟨⟨pb2, hpb2, path, hp⟩, hrest⟩)
        · exact Or.inl h
        · cases List.mem_cons.mp hpb2 with
          | inl heq =>
            subst heq
            rw [hpv] at hp
            exact absurd hp (by simp)
          | inr hmem => exact Or.inr ⟨⟨pb2, hmem, path, hp⟩, hrest⟩
    | ref s path0 =>
      simp only [hpv]
      by_cases hs : s ∈ nodeIds
      · rw [if_pos hs, adjEdge_adjInsert]
        constructor
        · rintro ((h | ⟨ha, hb⟩) | h)
          · exact Or.inl h
          · subst ha
            exact Or.inr ⟨⟨pb, List.mem_cons_self _ _, path0, hpv⟩, hs, hb⟩
          · refine Or.inr ⟨?_, h.2⟩
            obtain ⟨pb2, hpb2, hp⟩ := h.1
            exact ⟨pb2, List.mem_cons_of_mem _ hpb2, hp⟩
        · rintro (h | ⟨⟨pb2, hpb2, path, hp⟩, hin, hb⟩)
          · exact Or.inl (Or.inl h)
          · cases List.mem_cons.mp hpb2 with
            | inl heq =>
              subst heq
              rw [hpv] at hp
              have : s = a := by
                cases hp
                rfl
              subst this
              exact Or.inl (Or.inr ⟨rfl, hb⟩)
            | inr hmem => exact Or.inr ⟨⟨pb2, hmem, path, hp⟩, hin, hb⟩
      · rw [if_neg hs]
        constructor
        · rintro (h | h)
          · exact Or.inl h
          · refine Or.inr ⟨?_, h.2⟩
            obtain ⟨pb2, hpb2, hp⟩ := h.1
            exact ⟨pb2, List.mem_cons_of_mem _ hpb2, hp⟩
        · rintro (h | ⟨⟨pb2, hpb2, path, hp⟩, hin, hb⟩)
          · exact Or.inl h
          · cases List.mem_cons.mp hpb2 with
            | inl heq =>
              subst heq
              rw [hpv] at hp
              have : s = a := by
                cases hp
                rfl
              subst this
              exact absurd hin hs
            | inr hmem => exact Or.inr ⟨⟨pb2, hmem, path, hp⟩, hin, hb⟩

theorem outerFold_edge (nodeIds : List String) (nodes : NodeMap) :
    ∀ (l : List String) (acc : List (String × List String)) (a b : String),
      adjEdge (l.foldl
        (fun adj nodeId =>
          match nodeGet nodes nodeId with
          | none => adj
          | some node =>
            node.params.foldl
              (fun adj param =>
                match param.value with
                | .literal _ => adj
                | .ref sourceNodeId _ =>
                  if sourceNodeId ∈ nodeIds then adjInsert adj sourceNodeId node.id
                  else adj)
              adj) acc) a b
      ↔ adjEdge acc a b ∨ ∃ tn ∈ l, ∃ node, nodeGet nodes tn = some node ∧
          (∃ pb ∈ node.params, ∃ path, pb.value = .ref a path) ∧
          a ∈ nodeIds ∧ b = node.id := by
  intro l
  induction l with
  | nil =>
    intro acc a b
    simp
  | cons tn rest ih =>
    intro acc a b
    rw [List.foldl_cons, ih]
    cases htn : nodeGet nodes tn with
    | none =>
      simp only [htn]
      constructor
      · rintro (h | ⟨tn2, h2, hrest⟩)
        · exact Or.inl h
        · exact Or.inr ⟨tn2, List.mem_cons_of_mem _ h2, hrest⟩
      · rintro (h | ⟨tn2, h2, node, hget, hrest⟩)
        · exact Or.inl h
        · cases List.mem_cons.mp h2 with
          | inl heq =>
            subst heq
            rw [htn] at hget
            exact absurd hget (by simp)
          | inr hmem => exact Or.inr ⟨tn2, hmem, node, hget, hrest⟩
    | some node =>
      simp only [htn]
      rw [innerFold_edge nodeIds node node.params acc a b]
      constructor
      · rintro ((h | h) | h)
        · exact Or.inl h
        · exact Or.inr ⟨tn, List.mem_cons_self _ _, node, htn, h⟩
        · obtain ⟨tn2, h2, node2, hget, hrest⟩ := h
          exact Or.inr ⟨tn2, List.mem_cons_of_mem _ h2, node2, hget, hrest⟩
      · rintro (h | ⟨tn2, h2, node2, hget, hrest⟩)
        · exact Or.inl (Or.inl h)
        · cases List.mem_cons.mp h2 with
          | inl heq =>
            subst heq
            rw [htn] at hget
            cases hget
            exact Or.inl (Or.inr hrest)
          | inr hmem => exact Or.inr ⟨tn2, hmem, node2, hget, hrest⟩

theorem buildReferenceAdjacency_edge (nodeIds : List String) (nodes : NodeMap)
    (a b : String) :
    adjEdge (buildReferenceAdjacency nodeIds nodes) a b
    ↔ ∃ tn ∈ nodeIds, ∃ node, nodeGet nodes tn = some node ∧
        (∃ pb ∈ node.params, ∃ path, pb.value = .ref a path) ∧
        a ∈ nodeIds ∧ b = node.id := by
  rw [buildReferenceAdjacency, outerFold_edge]
  have hnil : ¬adjEdge [] a b := by
    simp [adjEdge, adjGet, mapGet]
  constructor
  · rintro (h | h)
    · exact absurd h hnil
    · exact h
  · exact Or.inr

theorem innerFold_wf (nodeIds : List String) (node : WorkflowNode) :
    ∀ (params : List ParamBinding) (acc : List (String × List String)),
      ((acc.map Prod.fst).Nodup ∧ ∀ e ∈ acc, e.2.Nodup) →
      let out := params.foldl
        (fun adj param =>
          match param.value with
          | .literal _ => adj
          | .ref sourceNodeId _ =>
            if sourceNodeId ∈ nodeIds then adjInsert adj sourceNodeId node.id
            else adj) acc
      (out.map Prod.fst).Nodup ∧ ∀ e ∈ out, e.2.Nodup := by
  intro params
  induction params with
  | nil =>
    intro acc hacc
    exact hacc
  | cons pb rest ih =>
    intro acc hacc
    rw [List.foldl_cons]
    refine ih _ ?_
    cases hpv : pb.value with
    | literal v =>
      simp only [hpv]
      exact hacc
    | ref s path0 =>
      simp only [hpv]
      by_cases hs : s ∈ nodeIds
      · rw [if_pos hs]
        exact ⟨adjInsert_keys_nodup acc s node.id hacc.1,
          adjInsert_targets_nodup acc s node.id hacc.2⟩
      · rw [if_neg hs]
        exact hacc

theorem outerFold_wf (nodeIds : List String) (nodes : NodeMap) :
    ∀ (l : List String) (acc : List (String × List String)),
      ((acc.map Prod.fst).Nodup ∧ ∀ e ∈ acc, e.2.Nodup) →
      let out := l.foldl
        (fun adj nodeId =>
          match nodeGet nodes nodeId with
          | none => adj
          | some node =>
            node.params.foldl
              (fun adj param =>
                match param.value with
                | .literal _ => adj
                | .ref sourceNodeId _ =>
                  if sourceNodeId ∈ nodeIds then adjInsert adj sourceNodeId node.id
                  else adj)
              adj) acc
      (out.map Prod.fst).Nodup ∧ ∀ e ∈ out, e.2.Nodup := by
  intro l
  induction l with
  | nil =>
    intro acc hacc
    exact hacc
  | cons tn rest ih =>
    intro acc hacc
    rw [List.foldl_cons]
    refine ih _ ?_
    cases htn : nodeGet nodes tn with
    | none =>
      simp only [htn]
      exact hacc
    | some node =>
      simp only [htn]
      exact innerFold_wf nodeIds node node.params acc hacc

theorem buildReferenceAdjacency_wf (nodeIds : List String) (nodes : NodeMap) :
    ((buildReferenceAdjacency nodeIds nodes).map Prod.fst).Nodup ∧
    ∀ e ∈ buildReferenceAdjacency nodeIds nodes, e.2.Nodup := by
  rw [buildReferenceAdjacency]
  exact outerFold_wf nodeIds nodes nodeIds [] ⟨List.nodup_nil, by simp⟩

/-! ### Planner: queue sorting and indegree accounting -/

theorem insertByIdx_perm (idxOf : String → Nat) (x : String) :
    ∀ l : List String, (insertByIdx idxOf x l).Perm (x :: l) := by
  intro l
  induction l with
  | nil => exact List.Perm.refl _
  | cons y ys ih =>
    rw [insertByIdx]
    by_cases h : idxOf x < idxOf y
    · rw [if_pos h]
    · rw [if_neg h]
      exact (List.Perm.cons y ih).trans (List.Perm.swap x y ys)

theorem sortByIdx_perm (idxOf : String → Nat) :
    ∀ l : List String, (sortByIdx idxOf l).Perm l := by
  intro l
  induction l with
  | nil => exact List.Perm.refl _
  | cons y ys ih =>
    rw [sortByIdx, List.foldr_cons]
    exact ((insertByIdx_perm idxOf y _).trans (List.Perm.cons y ih))

theorem mem_sortByIdx (idxOf : String → Nat) (l : List String) (x : String) :
    x ∈ sortByIdx idxOf l ↔ x ∈ l :=
  (sortByIdx_perm idxOf l).mem_iff

theorem nodup_sortByIdx (idxOf : String → Nat) (l : List String) (h : l.Nodup) :
    (sortByIdx idxOf l).Nodup :=
  (sortByIdx_perm idxOf l).nodup_iff.mpr h

theorem sum_count_nonneg (t : String) :
    ∀ L : List (String × List String),
      0 ≤ (L.map (fun e => (e.2.count t : Int))).sum := by
  intro L
  induction L with
  | nil => simp
  | cons e rest ih =>
    rw [List.map_cons, List.sum_cons]
    have : (0 : Int) ≤ (e.2.count t : Int) := Int.ofNat_nonneg _
    omega

theorem sum_count_ge_one (t s : String) (ts : List String) (ht : t ∈ ts) :
    ∀ L : List (String × List String), (s, ts) ∈ L →
      1 ≤ (L.map (fun e => (e.2.count t : Int))).sum := by
  intro L
  induction L with
  | nil =>
    intro h
    simp at h
  | cons e rest ih =>
    intro h
    rw [List.map_cons, List.sum_cons]
    cases List.mem_cons.mp h with
    | inl heq =>
      subst heq
      show 1 ≤ (ts.count t : Int) + (rest.map (fun e => (e.2.count t : Int))).sum
      have h1 : 1 ≤ (ts.count t : Int) := by
        have := List.count_pos_iff.mpr ht
        omega
      have h2 := sum_count_nonneg t rest
      omega
    | inr hmem2 =>
      have h1 := ih hmem2
      have h2 : (0 : Int) ≤ (e.2.count t : Int) := Int.ofNat_nonneg _
      omega

theorem unprocIndeg_nonneg (adj : List (String × List String))
    (processed : List String) (x : String) : 0 ≤ unprocIndeg adj processed x := by
  rw [unprocIndeg]
  exact sum_count_nonneg x _

theorem unprocIndeg_pos_of_edge (adj : List (String × List String))
    (processed : List String) (s t : String) (hedge : adjEdge adj s t)
    (hs : s ∉ processed) : 1 ≤ unprocIndeg adj processed t := by
  rw [adjEdge, adjGet] at hedge
  rcases hget : mapGet adj s with - | ts
  · rw [hget] at hedge
    simp at hedge
  · rw [hget] at hedge
    simp only [Option.getD_some] at hedge
    have hmem : (s, ts) ∈ adj := mapGet_eq_some_mem adj s ts hget
    rw [unprocIndeg]
    refine sum_count_ge_one t s ts hedge _ ?_
    rw [List.mem_filter]
    refine ⟨hmem, by simpa using hs⟩

theorem unprocIndeg_notkey (adj : List (String × List String)) (proc : List String)
    (s x : String) (h : ∀ e ∈ adj, e.1 ≠ s) :
    unprocIndeg adj (proc ++ [s]) x = unprocIndeg adj proc x := by
  rw [unprocIndeg, unprocIndeg]
  have : adj.filter (fun e => !((proc ++ [s]).contains e.1))
      = adj.filter (fun e => !(proc.contains e.1)) := by
    apply List.filter_congr
    intro e he
    have hne := h e he
    simp [hne]
  rw [this]

theorem unprocIndeg_append_single (adj : List (String × List String))
    (proc : List String) (s x : String)
    (hkeys : (adj.map Prod.fst).Nodup) (hs : s ∉ proc) :
    unprocIndeg adj (proc ++ [s]) x
      = unprocIndeg adj proc x - ((adjGet adj s).count x : Int) := by
  induction adj with
  | nil =>
    simp [unprocIndeg, adjGet, mapGet]
  | cons e rest ih =>
    obtain ⟨k, ts⟩ := e
    rw [List.map_cons] at hkeys
    have hkeys' := hkeys.of_cons
    have hknotin : k ∉ rest.map Prod.fst := by
      intro hmem
      exact (List.nodup_cons.mp hkeys).1 hmem
    by_cases hk : k = s
    · subst hk
      have hrest_eq : unprocIndeg rest (proc ++ [k]) x = unprocIndeg rest proc x := by
        apply unprocIndeg_notkey
        intro e2 he2 heq
        exact hknotin (heq ▸ List.mem_map_of_mem Prod.fst he2)
      have hget : adjGet ((k, ts) :: rest) k = ts := by
        rw [adjGet]
        simp [mapGet]
      rw [hget]
      rw [unprocIndeg, unprocIndeg]
      rw [List.filter_cons, List.filter_cons]
      have hc1 : (!((proc ++ [k]).contains (k, ts).1)) = false := by
        simp
      have hc2 : (!(proc.contains (k, ts).1)) = true := by
        simp [hs]
      rw [hc1, hc2]
      rw [if_neg (by simp), if_pos (by simp)]
      rw [List.map_cons, List.sum_cons]
      dsimp only
      have h1 : unprocIndeg rest (proc ++ [k]) x = unprocIndeg rest proc x := hrest_eq
      rw [unprocIndeg, unprocIndeg] at h1
      omega
    · have hget : adjGet ((k, ts) :: rest) s = adjGet rest s := by
        rw [adjGet, adjGet]
        simp [mapGet, hk]
      rw [hget]
      have hih := ih hkeys'
      rw [unprocIndeg, unprocIndeg] at hih ⊢
      rw [List.filter_cons, List.filter_cons]
      by_cases hpc : k ∈ proc
      · have hc1 : (!((proc ++ [s]).contains (k, ts).1)) = false := by
          simp [hpc]
        have hc2 : (!(proc.contains (k, ts).1)) = false := by
          simp [hpc]
        rw [hc1, hc2]
        rw [if_neg (by simp), if_neg (by simp)]
        exact hih
      · have hc1 : (!((proc ++ [s]).contains (k, ts).1)) = true := by
          simp [hpc, hk]
        have hc2 : (!(proc.contains (k, ts).1)) = true := by
          simp [hpc]
        rw [hc1, hc2]
        rw [if_pos (by simp), if_pos (by simp)]
        rw [List.map_cons, List.sum_cons, List.map_cons, List.sum_cons]
        omega

/-! ### Planner: the relax step -/

theorem kahnRelax_cons (t : String) (rest : List String) (indeg : String → Int)
    (p : List String) :
    kahnRelax (t :: rest) indeg p
      = kahnRelax rest (fun x => if x = t then indeg t - 1 else indeg x)
          (if indeg t - 1 = 0 then p ++ [t] else p) := rfl

theorem kahnRelax_fst (x : String) :
    ∀ (ts : List String) (indeg : String → Int) (p : List String),
      (kahnRelax ts indeg p).1 x = indeg x - (ts.count x : Int) := by
  intro ts
  induction ts with
  | nil =>
    intro indeg p
    simp [kahnRelax]
  | cons t rest ih =>
    intro indeg p
    rw [kahnRelax_cons, ih]
    by_cases hx : x = t
    · subst hx
      rw [if_pos rfl]
      simp [List.count_cons]
      omega
    · rw [if_neg hx]
      have : (t :: rest).count x = rest.count x := by
        simp [List.count_cons, hx]
      rw [this]

theorem kahnRelax_snd (x : String) :
    ∀ (ts : List String) (indeg : String → Int) (p : List String), ts.Nodup →
      (x ∈ (kahnRelax ts indeg p).2 ↔ x ∈ p ∨ (x ∈ ts ∧ indeg x = 1)) := by
  intro ts
  induction ts with
  | nil =>
    intro indeg p h
    simp [kahnRelax]
  | cons t rest ih =>
    intro indeg p h
    rw [kahnRelax_cons]
    rw [ih _ _ h.of_cons]
    have htnotr : t ∉ rest := (List.nodup_cons.mp h).1
    constructor
    · rintro (hp | ⟨hr, hi⟩)
      · by_cases hc : indeg t - 1 = 0
        · rw [if_pos hc] at hp
          rcases List.mem_append.mp hp with hp | hp
          · exact Or.inl hp
          · have hx : x = t := by simpa using hp
            subst hx
            exact Or.inr ⟨List.mem_cons_self _ _, by omega⟩
        · rw [if_neg hc] at hp
          exact Or.inl hp
      · have hxt : x ≠ t := fun hxt => htnotr (hxt ▸ hr)
        rw [if_neg hxt] at hi
        exact Or.inr ⟨List.mem_cons_of_mem _ hr, hi⟩
    · rintro (hp | ⟨hr, hi⟩)
      · by_cases hc : indeg t - 1 = 0
        · rw [if_pos hc]
          exact Or.inl (List.mem_append.mpr (Or.inl hp))
        · rw [if_neg hc]
          exact Or.inl hp
      · cases List.mem_cons.mp hr with
        | inl hx =>
          subst hx
          have hc : indeg x - 1 = 0 := by omega
          rw [if_pos hc]
          exact Or.inl (List.mem_append.mpr (Or.inr (List.mem_singleton.mpr rfl)))
        | inr hx =>
          have hxt : x ≠ t := fun hxt => htnotr (hxt ▸ hx)
          refine Or.inr ⟨hx, ?_⟩
          rw [if_neg hxt]
          exact hi

theorem kahnRelax_snd_nodup :
    ∀ (ts : List String) (indeg : String → Int) (p : List String), ts.Nodup →
      p.Nodup → (∀ u ∈ ts, u ∉ p) → (kahnRelax ts indeg p).2.Nodup := by
  intro ts
  induction ts with
  | nil =>
    intro indeg p _ hp _
    exact hp
  | cons t rest ih =>
    intro indeg p h hp hdisj
    rw [kahnRelax_cons]
    have htnotr : t ∉ rest := (List.nodup_cons.mp h).1
    by_cases hc : indeg t - 1 = 0
    · rw [if_pos hc]
      refine ih _ _ h.of_cons ?_ ?_
      · refine List.nodup_append.mpr ⟨hp, List.nodup_singleton t, ?_⟩
        simpa using fun hmem => hdisj t (List.mem_cons_self _ _) hmem
      · intro u hu hmem
        rcases List.mem_append.mp hmem with hmem | hmem
        · exact hdisj u (List.mem_cons_of_mem _ hu) hmem
        · have : u = t := by simpa using hmem
          exact htnotr (this ▸ hu)
    · rw [if_neg hc]
      exact ih _ _ h.of_cons hp (fun u hu => hdisj u (List.mem_cons_of_mem _ hu))

/-! ### Planner: the main Kahn loop -/

theorem listBefore_append_right (l l2 : List String) (a b : String)
    (h : listBefore l a b) : listBefore (l ++ l2) a b := by
  obtain ⟨l1, l3, heq, ha⟩ := h
  exact ⟨l1, l3 ++ l2, by rw [heq, List.append_assoc, List.cons_append], ha⟩

theorem listBefore_append_new (l : List String) (a b : String) (ha : a ∈ l) :
    listBefore (l ++ [b]) a b := ⟨l, [], rfl, ha⟩

theorem adjGet_nodup (adj : List (String × List String)) (s : String)
    (h : ∀ e ∈ adj, e.2.Nodup) : (adjGet adj s).Nodup := by
  rw [adjGet]
  rcases hget : mapGet adj s with - | ts
  · exact List.nodup_nil
  · exact h (s, ts) (mapGet_eq_some_mem adj s ts hget)

theorem kahnLoop_zero (adj : List (String × List String)) (idxOf : String → Nat)
    (queue : List String) (indeg : String → Int) (result : List String) :
    kahnLoop adj idxOf 0 queue indeg result = result := rfl

theorem kahnLoop_nilq (adj : List (String × List String)) (idxOf : String → Nat)
    (fuel : Nat) (indeg : String → Int) (result : List String) :
    kahnLoop adj idxOf (fuel + 1) [] indeg result = result := rfl

theorem kahnLoop_cons (adj : List (String × List String)) (idxOf : String → Nat)
    (fuel : Nat) (q : String) (rest : List String) (indeg : String → Int)
    (result : List String) :
    kahnLoop adj idxOf (fuel + 1) (q :: rest) indeg result
      = if q = "" then kahnLoop adj idxOf fuel rest indeg result
        else
          kahnLoop adj idxOf fuel
            (sortByIdx idxOf (rest ++ (kahnRelax (adjGet adj q) indeg []).2))
            (kahnRelax (adjGet adj q) indeg []).1 (result ++ [q]) := rfl

theorem kahnLoop_invariant (adj : List (String × List String))
    (idxOf : String → Nat) (ids C : List String)
    (hkeys : (adj.map Prod.fst).Nodup)
    (htgts : ∀ e ∈ adj, e.2.Nodup)
    (htgtin : ∀ s t, adjEdge adj s t → t ∈ ids)
    (hCcyc : ∀ c ∈ C, ∃ s ∈ C, adjEdge adj s c) :
    ∀ (fuel : Nat) (queue : List String) (indeg : String → Int)
      (result : List String),
      (result ++ queue).Nodup →
      (∀ x ∈ result, x ∈ ids) →
      (∀ q ∈ queue, q ∈ ids) →
      (∀ q ∈ queue, indeg q = 0) →
      (∀ x, indeg x = unprocIndeg adj result x) →
      (∀ x ∈ result, indeg x ≤ 0) →
      (∀ t ∈ result, ∀ s, adjEdge adj s t → listBefore result s t) →
      (∀ c ∈ C, c ∉ result ∧ c ∉ queue) →
      (kahnLoop adj idxOf fuel queue indeg result).Nodup ∧
      (∀ x ∈ kahnLoop adj idxOf fuel queue indeg result, x ∈ ids) ∧
      (∀ t ∈ kahnLoop adj idxOf fuel queue indeg result, ∀ s, adjEdge adj s t →
        listBefore (kahnLoop adj idxOf fuel queue indeg result) s t) ∧
      (∀ c ∈ C, c ∉ kahnLoop adj idxOf fuel queue indeg result) := by
  intro fuel
  induction fuel with
  | zero =>
    intro queue indeg result hnodup hresin _ _ _ _ hsorted hC
    rw [kahnLoop_zero]
    exact ⟨(List.nodup_append.mp hnodup).1, hresin, hsorted,
      fun c hc => (hC c hc).1⟩
  | succ fuel ih =>
    intro queue indeg result hnodup hresin hquin hq0 hindeg hresneg hsorted hC
    cases queue with
    | nil =>
      rw [kahnLoop_nilq]
      exact ⟨by simpa using hnodup, hresin, hsorted, fun c hc => (hC c hc).1⟩
    | cons q rest =>
      rw [kahnLoop_cons]
      by_cases hq : q = ""
      · rw [if_pos hq]
        refine ih rest indeg result ?_ hresin
          (fun x hx => hquin x (List.mem_cons_of_mem _ hx))
          (fun x hx => hq0 x (List.mem_cons_of_mem _ hx))
          hindeg hresneg hsorted
          (fun c hc => ⟨(hC c hc).1, fun hmem => (hC c hc).2 (List.mem_cons_of_mem _ hmem)⟩)
        have hsub : (result ++ rest).Sublist (result ++ q :: rest) :=
          List.Sublist.append (List.Sublist.refl result) (List.sublist_cons_self q rest)
        exact hsub.nodup hnodup
      · rw [if_neg hq]
        -- facts about the popped node and the relax step
        have hts : (adjGet adj q).Nodup := adjGet_nodup adj q htgts
        have hqres : q ∉ result := by
          have := List.disjoint_of_nodup_append hnodup
          exact fun hmem => this hmem (List.mem_cons_self _ _)
        have hq0q : indeg q = 0 := hq0 q (List.mem_cons_self _ _)
        have hfst : ∀ x, (kahnRelax (adjGet adj q) indeg []).1 x
            = indeg x - ((adjGet adj q).count x : Int) :=
          fun x => kahnRelax_fst x (adjGet adj q) indeg []
        have hsnd : ∀ x, x ∈ (kahnRelax (adjGet adj q) indeg []).2
            ↔ x ∈ adjGet adj q ∧ indeg x = 1 := by
          intro x
          rw [kahnRelax_snd x (adjGet adj q) indeg [] hts]
          simp
        have hindeg' : ∀ x, (kahnRelax (adjGet adj q) indeg []).1 x
            = unprocIndeg adj (result ++ [q]) x := by
          intro x
          rw [hfst, hindeg, unprocIndeg_append_single adj result q x hkeys hqres]
        -- membership facts for the pushed nodes
        have hpush_ids : ∀ u ∈ (kahnRelax (adjGet adj q) indeg []).2, u ∈ ids := by
          intro u hu
          exact htgtin q u ((hsnd u).mp hu).1
        have hpush_notres : ∀ u ∈ (kahnRelax (adjGet adj q) indeg []).2,
            u ∉ result := by
          intro u hu hmem
          have := hresneg u hmem
          have := ((hsnd u).mp hu).2
          omega
        have hpush_notq : ∀ u ∈ (kahnRelax (adjGet adj q) indeg []).2,
            u ∉ q :: rest := by
          intro u hu hmem
          have h1 := ((hsnd u).mp hu).2
          have h2 := hq0 u hmem
          omega
        have hpush_nodup : (kahnRelax (adjGet adj q) indeg []).2.Nodup :=
          kahnRelax_snd_nodup (adjGet adj q) indeg [] hts List.nodup_nil
            (fun u _ => List.not_mem_nil u)
        have hrest_nodup : rest.Nodup :=
          (((List.nodup_append.mp hnodup).2.1).of_cons)
        have hq_notrest : q ∉ rest := by
          have := (List.nodup_append.mp hnodup).2.1
          exact (List.nodup_cons.mp this).1
        have hnewq_mem : ∀ x,
            x ∈ sortByIdx idxOf (rest ++ (kahnRelax (adjGet adj q) indeg []).2)
            ↔ x ∈ rest ∨ x ∈ (kahnRelax (adjGet adj q) indeg []).2 := by
          intro x
          rw [mem_sortByIdx]
          exact List.mem_append
        have hnewq_nodup :
            (sortByIdx idxOf (rest ++ (kahnRelax (adjGet adj q) indeg []).2)).Nodup := by
          apply nodup_sortByIdx
          refine List.Nodup.append hrest_nodup hpush_nodup ?_
          intro a ha hb
          exact hpush_notq a hb (List.mem_cons_of_mem _ ha)
        -- no unprocessed source points into the still-queued nodes
        have hqueue_nocount : ∀ x ∈ q :: rest, (adjGet adj q).count x = 0 := by
          intro x hx
          by_contra hcnt
          have hedge : adjEdge adj q x := by
            rw [adjEdge]
            exact List.count_pos_iff.mp (by omega) 
          have h1 := unprocIndeg_pos_of_edge adj result q x hedge hqres
          have h2 := hindeg x
          have h3 := hq0 x hx
          omega
        refine ih _ _ _ ?_ ?_ ?_ ?_ hindeg' ?_ ?_ ?_
        · -- ((result ++ [q]) ++ newqueue).Nodup
          refine List.Nodup.append ?_ hnewq_nodup ?_
          · have hsub : (result ++ [q]).Sublist (result ++ q :: rest) :=
              List.Sublist.append (List.Sublist.refl result) ?_
            · exact hsub.nodup hnodup
            · exact (List.singleton_sublist.mpr (List.mem_cons_self q rest))
          · intro a ha hb
            rcases (hnewq_mem a).mp hb with hb2 | hb2
            · rcases List.mem_append.mp ha with ha2 | ha2
              · have := List.disjoint_of_nodup_append hnodup
                exact this ha2 (List.mem_cons_of_mem _ hb2)
              · have haq : a = q := by simpa using ha2
                exact hq_notrest (haq ▸ hb2)
            · rcases List.mem_append.mp ha with ha2 | ha2
              · exact hpush_notres a hb2 ha2
              · have haq : a = q := by simpa using ha2
                exact hpush_notq a hb2 (haq ▸ List.mem_cons_self q rest)
        · intro x hx
          rcases List.mem_append.mp hx with hx | hx
          · exact hresin x hx
          · have hxq : x = q := by simpa using hx
            subst hxq
            exact hquin x (List.mem_cons_self _ _)
        · intro x hx
          rcases (hnewq_mem x).mp hx with hx | hx
          · exact hquin x (List.mem_cons_of_mem _ hx)
          · exact hpush_ids x hx
        · intro x hx
          rcases (hnewq_mem x).mp hx with hx | hx
          · rw [hfst]
            have h1 := hq0 x (List.mem_cons_of_mem _ hx)
            have h2 := hqueue_nocount x (List.mem_cons_of_mem _ hx)
            omega
          · rw [hfst]
            obtain ⟨hmem, hone⟩ := (hsnd x).mp hx
            have hcnt : (adjGet adj q).count x = 1 :=
              List.count_eq_one_of_mem hts hmem
            omega
        · intro x hx
          rcases List.mem_append.mp hx with hx | hx
          · rw [hfst]
            have h1 := hresneg x hx
            have h2 : (0 : Int) ≤ ((adjGet adj q).count x : Int) := Int.ofNat_nonneg _
            omega
          · have hxq : x = q := by simpa using hx
            subst hxq
            rw [hfst]
            have h2 : (0 : Int) ≤ ((adjGet adj x).count x : Int) := Int.ofNat_nonneg _
            omega
        · intro t ht s hedge
          rcases List.mem_append.mp ht with ht | ht
          · exact listBefore_append_right result [q] s t (hsorted t ht s hedge)
          · have htq : t = q := by simpa using ht
            subst htq
            have hsres : s ∈ result := by
              by_contra hsres
              have h1 := unprocIndeg_pos_of_edge adj result s t hedge hsres
              have h2 := hindeg t
              omega
            exact listBefore_append_new result s t hsres
        · intro c hc
          obtain ⟨hcres, hcqueue⟩ := hC c hc
          constructor
          · intro hmem
            rcases List.mem_append.mp hmem with hmem | hmem
            · exact hcres hmem
            · have : c = q := by simpa using hmem
              exact hcqueue (this ▸ List.mem_cons_self q rest)
          · intro hmem
            rcases (hnewq_mem c).mp hmem with hmem | hmem
            · exact hcqueue (List.mem_cons_of_mem _ hmem)
            · -- a cycle node can never be pushed
              obtain ⟨s, hsC, hsedge⟩ := hCcyc c hc
              have hsnotres : s ∉ result := (hC s hsC).1
              have hsnotq : s ≠ q := by
                intro heq
                exact (hC s hsC).2 (heq ▸ List.mem_cons_self q rest)
              have hsnot : s ∉ result ++ [q] := by
                intro hmem2
                rcases List.mem_append.mp hmem2 with hmem2 | hmem2
                · exact hsnotres hmem2
                · exact hsnotq (by simpa using hmem2)
              have h1 := unprocIndeg_pos_of_edge adj (result ++ [q]) s c hsedge hsnot
              have h2 := hindeg' c
              obtain ⟨hmemts, hone⟩ := (hsnd c).mp hmem
              have hcnt : (adjGet adj q).count c = 1 :=
                List.count_eq_one_of_mem hts hmemts
              rw [hfst] at h2
              omega

theorem buildOrder_eq (order : List String) (nodes : NodeMap) :
    buildDependencyExecutionOrder order nodes
      = { orderedNodeIds :=
            if (plannerResult order nodes).length = (plannerIds order nodes).length
            then plannerResult order nodes else plannerIds order nodes
          hasCycle :=
            (plannerResult order nodes).length ≠ (plannerIds order nodes).length } :=
  rfl

theorem initialIndegree_eq (adj : List (String × List String)) (x : String) :
    initialIndegree adj x = unprocIndeg adj [] x := by
  rw [initialIndegree, unprocIndeg]
  have hfil : adj.filter (fun e => !(([] : List String).contains e.1)) = adj := by
    apply List.filter_eq_self.mpr
    intro e _
    simp
  rw [hfil]
  have hgen : ∀ (L : List (String × List String)) (init : Int),
      L.foldl (fun acc entry => acc + (entry.2.count x : Int)) init
        = init + (L.map (fun e => (e.2.count x : Int))).sum := by
    intro L
    induction L with
    | nil =>
      intro init
      simp
    | cons e rest ih =>
      intro init
      rw [List.foldl_cons, ih, List.map_cons, List.sum_cons]
      omega
  rw [hgen]
  omega

theorem planner_core (order : List String) (nodes : NodeMap) (C : List String)
    (horder : order.Nodup)
    (hids : ∀ id node, nodeGet nodes id = some node → node.id = id)
    (hCcyc : ∀ c ∈ C, ∃ s ∈ C,
      adjEdge (buildReferenceAdjacency (plannerIds order nodes) nodes) s c) :
    (plannerResult order nodes).Nodup ∧
    (∀ x ∈ plannerResult order nodes, x ∈ plannerIds order nodes) ∧
    (∀ t ∈ plannerResult order nodes, ∀ s,
      adjEdge (buildReferenceAdjacency (plannerIds order nodes) nodes) s t →
      listBefore (plannerResult order nodes) s t) ∧
    (∀ c ∈ C, c ∉ plannerResult order nodes) := by
  have hidsnd : (plannerIds order nodes).Nodup := horder.filter _
  have hwf := buildReferenceAdjacency_wf (plannerIds order nodes) nodes
  have htgtin : ∀ s t,
      adjEdge (buildReferenceAdjacency (plannerIds order nodes) nodes) s t →
      t ∈ plannerIds order nodes := by
    intro s t hedge
    rw [buildReferenceAdjacency_edge] at hedge
    obtain ⟨tn, htn, node, hget, -, -, hb⟩ := hedge
    have : node.id = tn := hids tn node hget
    rw [hb, this]
    exact htn
  have hmain := kahnLoop_invariant
    (buildReferenceAdjacency (plannerIds order nodes) nodes)
    (indexOfNode (plannerIds order nodes)) (plannerIds order nodes) C
    hwf.1 hwf.2 htgtin hCcyc
    (2 * (plannerIds order nodes).length + 1)
    (sortByIdx (indexOfNode (plannerIds order nodes))
      ((plannerIds order nodes).filter
        (fun nodeId =>
          initialIndegree (buildReferenceAdjacency (plannerIds order nodes) nodes)
            nodeId = 0)))
    (initialIndegree (buildReferenceAdjacency (plannerIds order nodes) nodes))
    []
    (by
      simp only [List.nil_append]
      exact nodup_sortByIdx _ _ (hidsnd.filter _))
    (by simp)
    (by
      intro q hq
      rw [mem_sortByIdx] at hq
      exact List.mem_of_mem_filter hq)
    (by
      intro q hq
      rw [mem_sortByIdx] at hq
      have := List.of_mem_filter hq
      simpa using this)
    (fun x => initialIndegree_eq _ x)
    (by simp)
    (by simp)
    (by
      intro c hc
      refine ⟨by simp, ?_⟩
      intro hmem
      rw [mem_sortByIdx] at hmem
      have hzero := List.of_mem_filter hmem
      obtain ⟨s, hsC, hsedge⟩ := hCcyc c hc
      have hpos := unprocIndeg_pos_of_edge _ [] s c hsedge (List.not_mem_nil s)
      rw [← initialIndegree_eq] at hpos
      simp only [decide_eq_true_eq] at hzero
      omega)
  exact hmain

theorem outerFold_congr (nodeIds : List String) (nodes2 nodes : NodeMap)
    (h : ∀ id, nodeGet nodes2 id = nodeGet nodes id) :
    ∀ (l : List String) (acc : List (String × List String)),
      l.foldl
        (fun adj nodeId =>
          match nodeGet nodes2 nodeId with
          | none => adj
          | some node =>
            node.params.foldl
              (fun adj param =>
                match param.value with
                | .literal _ => adj
                | .ref sourceNodeId _ =>
                  if sourceNodeId ∈ nodeIds then adjInsert adj sourceNodeId node.id
                  else adj)
              adj) acc
      = l.foldl
        (fun adj nodeId =>
          match nodeGet nodes nodeId with
          | none => adj
          | some node =>
            node.params.foldl
              (fun adj param =>
                match param.value with
                | .literal _ => adj
                | .ref sourceNodeId _ =>
                  if sourceNodeId ∈ nodeIds then adjInsert adj sourceNodeId node.id
                  else adj)
              adj) acc := by
  intro l
  induction l with
  | nil =>
    intro acc
    rfl
  | cons tn rest ih =>
    intro acc
    rw [List.foldl_cons, List.foldl_cons, h tn]
    exact ih _

theorem plannerIds_congr (order : List String) (nodes2 nodes : NodeMap)
    (h : ∀ id, nodeGet nodes2 id = nodeGet nodes id) :
    plannerIds order nodes2 = plannerIds order nodes := by
  rw [plannerIds, plannerIds]
  apply List.filter_congr
  intro a _
  rw [h a]

theorem buildAdj_congr (nodeIds : List String) (nodes2 nodes : NodeMap)
    (h : ∀ id, nodeGet nodes2 id = nodeGet nodes id) :
    buildReferenceAdjacency nodeIds nodes2 = buildReferenceAdjacency nodeIds nodes := by
  rw [buildReferenceAdjacency, buildReferenceAdjacency]
  exact outerFold_congr nodeIds nodes2 nodes h nodeIds []

theorem plannerResult_congr (order : List String) (nodes2 nodes : NodeMap)
    (h : ∀ id, nodeGet nodes2 id = nodeGet nodes id) :
    plannerResult order nodes2 = plannerResult order nodes := by
  rw [plannerResult, plannerResult]
  rw [plannerIds_congr order nodes2 nodes h, buildAdj_congr _ nodes2 nodes h]

/-- Claim C1: for every node set and every acyclic reference graph over it
(acyclicity as reported by the planner itself), the planner's output order
places every node after all of its in-subset reference sources; and the
whole plan is a function of the display order and the id-to-node lookup
alone (independent of the iteration order of the underlying record), hence
deterministic for a fixed node set, param bindings and display order. -/
theorem claimC1_planner_topological (order : List String) (nodes : NodeMap)
    (horder : order.Nodup)
    (hids : ∀ id node, nodeGet nodes id = some node → node.id = id) :
    (∀ nodes2 : NodeMap, (∀ id, nodeGet nodes2 id = nodeGet nodes id) →
      buildDependencyExecutionOrder order nodes2
        = buildDependencyExecutionOrder order nodes) ∧
    ((buildDependencyExecutionOrder order nodes).hasCycle = false →
      ∀ t node, nodeGet nodes t = some node →
        t ∈ (buildDependencyExecutionOrder order nodes).orderedNodeIds →
        ∀ pb ∈ node.params, ∀ s path, pb.value = ParamValue.ref s path →
          s ∈ plannerIds order nodes →
          listBefore (buildDependencyExecutionOrder order nodes).orderedNodeIds s t) := by
  constructor
  · intro nodes2 h
    rw [buildOrder_eq, buildOrder_eq]
    rw [plannerResult_congr order nodes2 nodes h, plannerIds_congr order nodes2 nodes h]
  · intro hnc t node hget hmem pb hpb s path href hs
    have hcore := planner_core order nodes [] horder hids (by simp)
    rw [buildOrder_eq] at hnc hmem ⊢
    simp only [ne_eq, decide_not] at hnc
    have hlen : (plannerResult order nodes).length = (plannerIds order nodes).length := by
      by_contra hne
      simp [hne] at hnc
    rw [if_pos hlen] at hmem ⊢
    have hedge : adjEdge (buildReferenceAdjacency (plannerIds order nodes) nodes) s t := by
      rw [buildReferenceAdjacency_edge]
      refine ⟨t, hcore.2.1 t hmem, node, hget, ⟨pb, hpb, path, href⟩, hs, ?_⟩
      exact (hids t node hget).symm
    exact hcore.2.2.1 t hmem s hedge

theorem hids_nmPMQ : ∀ id node, nodeGet nmPMQ id = some node → node.id = id := by
  intro id node h
  simp only [nodeGet, nmPMQ, mapGet] at h
  by_cases h1 : "P" = id
  · rw [if_pos h1] at h
    cases h
    exact h1
  · rw [if_neg h1] at h
    by_cases h2 : "M" = id
    · rw [if_pos h2] at h
      cases h
      exact h2
    · rw [if_neg h2] at h
      by_cases h3 : "Q" = id
      · rw [if_pos h3] at h
        cases h
        exact h3
      · rw [if_neg h3] at h
        exact Option.noConfusion h

/-- Witness for C1 on a concrete three-node workflow (`Q` references `M`). -/
theorem claimC1_planner_topological_witness :
    (["P", "M", "Q"] : List String).Nodup ∧
    (∀ id node, nodeGet nmPMQ id = some node → node.id = id) ∧
    ((∀ nodes2 : NodeMap, (∀ id, nodeGet nodes2 id = nodeGet nmPMQ id) →
      buildDependencyExecutionOrder ["P", "M", "Q"] nodes2
        = buildDependencyExecutionOrder ["P", "M", "Q"] nmPMQ) ∧
    ((buildDependencyExecutionOrder ["P", "M", "Q"] nmPMQ).hasCycle = false →
      ∀ t node, nodeGet nmPMQ t = some node →
        t ∈ (buildDependencyExecutionOrder ["P", "M", "Q"] nmPMQ).orderedNodeIds →
        ∀ pb ∈ node.params, ∀ s path, pb.value = ParamValue.ref s path →
          s ∈ plannerIds ["P", "M", "Q"] nmPMQ →
          listBefore (buildDependencyExecutionOrder ["P", "M", "Q"] nmPMQ).orderedNodeIds
            s t)) :=
  ⟨by decide, hids_nmPMQ,
    claimC1_planner_topological ["P", "M", "Q"] nmPMQ (by decide) hids_nmPMQ⟩

/-- Claim C2: a reference cycle anywhere in the node set (here a nonempty
set of nodes each referencing another member of the set, covering the
length-1 self-reference) makes the planner report `hasCycle = true`, its
returned order degrade to the existing-node-filtered display order, and
every run request over any range return a failure with an empty trace:
no node is ever invoked. -/
theorem claimC2_cycle_refusal (order : List String) (nodes : NodeMap)
    (C : List String)
    (horder : order.Nodup)
    (hids : ∀ id node, nodeGet nodes id = some node → node.id = id)
    (hCne : C ≠ [])
    (hCin : ∀ c ∈ C, c ∈ order)
    (hCcyc : ∀ c ∈ C, ∃ s ∈ C, ∃ node, nodeGet nodes c = some node ∧
      ∃ pb ∈ node.params, ∃ path, pb.value = ParamValue.ref s path) :
    (buildDependencyExecutionOrder order nodes).hasCycle = true ∧
    (buildDependencyExecutionOrder order nodes).orderedNodeIds
      = plannerIds order nodes ∧
    (∀ (env : RunEnv) (startIndex endIndexExclusive : Int) (fuel : Nat),
      ∃ r, (runRange env nodes order startIndex endIndexExclusive fuel).result
          = some r ∧
        r.success = false ∧
        (runRange env nodes order startIndex endIndexExclusive fuel).state.trace
          = []) := by
  have hCids : ∀ c ∈ C, c ∈ plannerIds order nodes := by
    intro c hc
    rw [plannerIds, List.mem_filter]
    refine ⟨hCin c hc, ?_⟩
    obtain ⟨-, -, node, hget, -⟩ := hCcyc c hc
    simp [hget]
  have hCedge : ∀ c ∈ C, ∃ s ∈ C,
      adjEdge (buildReferenceAdjacency (plannerIds order nodes) nodes) s c := by
    intro c hc
    obtain ⟨s, hsC, node, hget, pb, hpb, path, href⟩ := hCcyc c hc
    refine ⟨s, hsC, ?_⟩
    rw [buildReferenceAdjacency_edge]
    exact ⟨c, hCids c hc, node, hget, ⟨pb, hpb, path, href⟩, hCids s hsC,
      (hids c node hget).symm⟩
  have hcore := planner_core order nodes C horder hids hCedge
  obtain ⟨c0, hc0⟩ := List.exists_mem_of_ne_nil C hCne
  have hc0ids := hCids c0 hc0
  have hc0notR := hcore.2.2.2 c0 hc0
  have hsub : ∀ x ∈ plannerResult order nodes, x ∈ (plannerIds order nodes).erase c0 := by
    intro x hx
    have hxne : x ≠ c0 := fun h => hc0notR (h ▸ hx)
    exact (List.mem_erase_of_ne hxne).mpr (hcore.2.1 x hx)
  have hsubperm := List.subperm_of_subset hcore.1 hsub
  have hle := hsubperm.length_le
  have herase := List.length_erase_of_mem hc0ids
  have hpos : 0 < (plannerIds order nodes).length := List.length_pos.mpr
    (List.ne_nil_of_mem hc0ids)
  have hlen : (plannerResult order nodes).length ≠ (plannerIds order nodes).length := by
    omega
  refine ⟨?_, ?_, ?_⟩
  · rw [buildOrder_eq]
    simp [hlen]
  · rw [buildOrder_eq]
    simp only
    rw [if_neg hlen]
  · intro env startIndex endIndexExclusive fuel
    have hcyc : (buildDependencyExecutionOrder order nodes).hasCycle = true := by
      rw [buildOrder_eq]
      simp [hlen]
    rw [runRange]
    by_cases hstart : startIndex < 0 ∨ startIndex > min endIndexExclusive (order.length : Int)
    · rw [if_pos hstart]
      exact ⟨_, rfl, rfl, rfl⟩
    · rw [if_neg hstart]
      rw [if_pos hcyc]
      exact ⟨_, rfl, rfl, rfl⟩

theorem hids_nmCy : ∀ id node, nodeGet nmCy id = some node → node.id = id := by
  intro id node h
  simp only [nodeGet, nmCy, mapGet] at h
  by_cases h1 : "C" = id
  · rw [if_pos h1] at h
    cases h
    exact h1
  · rw [if_neg h1] at h
    exact Option.noConfusion h

theorem hcyc_nmCy : ∀ c ∈ (["C"] : List String), ∃ s ∈ (["C"] : List String),
    ∃ node, nodeGet nmCy c = some node ∧
      ∃ pb ∈ node.params, ∃ path, pb.value = ParamValue.ref s path := by
  intro c hc
  have hcC : c = "C" := by simpa using hc
  subst hcC
  refine ⟨"C", List.mem_singleton.mpr rfl, nodeCy, rfl, ?_⟩
  exact ⟨⟨"x", .ref "C" "r"⟩, List.mem_cons_self _ _, "r", rfl⟩

/-- Witness for C2 on the concrete single-node self-reference cycle. -/
theorem claimC2_cycle_refusal_witness :
    (["C"] : List String).Nodup ∧
    (∀ id node, nodeGet nmCy id = some node → node.id = id) ∧
    (["C"] : List String) ≠ [] ∧
    (∀ c ∈ (["C"] : List String), c ∈ (["C"] : List String)) ∧
    (∀ c ∈ (["C"] : List String), ∃ s ∈ (["C"] : List String),
      ∃ node, nodeGet nmCy c = some node ∧
        ∃ pb ∈ node.params, ∃ path, pb.value = ParamValue.ref s path) ∧
    ((buildDependencyExecutionOrder ["C"] nmCy).hasCycle = true ∧
    (buildDependencyExecutionOrder ["C"] nmCy).orderedNodeIds
      = plannerIds ["C"] nmCy ∧
    (∀ (env : RunEnv) (startIndex endIndexExclusive : Int) (fuel : Nat),
      ∃ r, (runRange env nmCy ["C"] startIndex endIndexExclusive fuel).result
          = some r ∧
        r.success = false ∧
        (runRange env nmCy ["C"] startIndex endIndexExclusive fuel).state.trace
          = [])) :=
  ⟨by decide, hids_nmCy, by decide, by decide, hcyc_nmCy,
    claimC2_cycle_refusal ["C"] nmCy ["C"] (by decide) hids_nmCy (by decide)
      (by decide) hcyc_nmCy⟩

/-! ### C3: first-failure halt -/

theorem execFail (env : RunEnv) (nodes : NodeMap) (nodeId : String) (st : RunState) :
    ∀ r st', executeSingleNode env nodes nodeId st = (r, st') →
      r.success = false → r.canceled = false →
      ∀ fid, r.failedNodeId = some fid → failShapeAt fid r st' := by
  intro r st' hexec hs hc fid hfid
  rw [executeSingleNode.eq_def] at hexec
  cases hget : nodeGet nodes nodeId with
  | none =>
    rw [hget] at hexec
    dsimp only at hexec
    injection hexec with h1 h2
    subst h1
    exact absurd hs (by simp [okResult])
  | some node =>
    rw [hget] at hexec
    dsimp only at hexec
    by_cases hsig : env.signal st.tick
    · rw [if_pos hsig] at hexec
      injection hexec with h1 h2
      subst h1
      exact absurd hc (by simp [mkNodeCanceled])
    · rw [if_neg hsig] at hexec
      rw [dispatchFetch.eq_def] at hexec
      repeat' split at hexec
      all_goals try rw [classifyResponse.eq_def] at hexec
      repeat' split at hexec
      all_goals try dsimp only at hexec
      all_goals try split at hexec
      all_goals try rw [classifyResponse.eq_def] at hexec
      all_goals try dsimp only at hexec
      all_goals try split at hexec
      all_goals try split at hexec
      all_goals try split at hexec
      all_goals try dsimp only at hexec
      all_goals injection hexec with h1 h2
      all_goals subst h1
      all_goals subst h2
      all_goals first
        | simp [okResult] at hs
        | simp [mkNodeCanceled] at hc
        | (simp only [mkNodeFailure, Option.some.injEq] at hfid
           subst hfid
           refine ⟨rfl, rfl, st.trace, st.outputsByNodeId.map Prod.fst, ?_, ?_⟩ <;> rfl)

theorem execStepFail (env : RunEnv) (nodes : NodeMap) (nodeId : String) (st : RunState)
    (r : RunRangeResult) (st' : RunState)
    (h : execStep env nodes nodeId st = .halted r st')
    (hc : r.canceled = false) (fid : String) (hfid : r.failedNodeId = some fid) :
    r.success = false ∧ failShapeAt fid r st' := by
  rw [execStep] at h
  rcases hexec : executeSingleNode env nodes nodeId st with ⟨r2, st2⟩
  rw [hexec] at h
  dsimp only at h
  by_cases hrs : r2.success
  · rw [if_pos hrs] at h
    exact LoopOut.noConfusion h
  · rw [if_neg hrs] at h
    injection h with h1 h2
    subst h1
    subst h2
    have hsf : r2.success = false := by simpa using hrs
    have hshape := execFail env nodes nodeId st r2 st2 hexec hsf hc fid hfid
    obtain ⟨hn, hm, pre, ks, ht, ho⟩ := hshape
    exact ⟨hsf, hn, hm, pre, ks, ht, ho⟩

theorem runDownstreamFail (env : RunEnv) (nodes : NodeMap) :
    ∀ (ds : List String) (st : RunState) (r : RunRangeResult) (st' : RunState),
      runDownstream env nodes ds st = .halted r st' →
      r.canceled = false → ∀ fid, r.failedNodeId = some fid →
      r.success = false ∧ failShapeAt fid r st' := by
  intro ds
  induction ds with
  | nil =>
    intro st r st' h hc fid hfid
    rw [runDownstream] at h
    exact LoopOut.noConfusion h
  | cons d rest ih =>
    intro st r st' h hc fid hfid
    rw [runDownstream] at h
    cases hstep : execStep env nodes d st with
    | continued st2 =>
      rw [hstep] at h
      exact ih st2 r st' h hc fid hfid
    | halted r2 st2 =>
      rw [hstep] at h
      injection h with h1 h2
      subst h1
      subst h2
      exact execStepFail env nodes d st r2 st2 hstep hc fid hfid
    | thrown st2 =>
      rw [hstep] at h
      exact LoopOut.noConfusion h

theorem runRepeatIterationFail (env : RunEnv) (nodes : NodeMap) (nodeId : String)
    (downstream : List String) (delayMs : Int) (globalIteration : Nat)
    (st : RunState) (r : RunRangeResult) (st' : RunState)
    (h : runRepeatIteration env nodes nodeId downstream delayMs globalIteration st
      = .halted r st')
    (hc : r.canceled = false) (fid : String) (hfid : r.failedNodeId = some fid) :
    r.success = false ∧ failShapeAt fid r st' := by
  rw [runRepeatIteration] at h
  cases hslp : (if globalIteration > 0 ∧ delayMs > 0 then sleepWithSignal env delayMs st
      else some st) with
  | none =>
    rw [hslp] at h
    exact LoopOut.noConfusion h
  | some st2 =>
    rw [hslp] at h
    dsimp only at h
    cases hstep : execStep env nodes nodeId st2 with
    | continued st3 =>
      rw [hstep] at h
      exact runDownstreamFail env nodes downstream st3 r st' h hc fid hfid
    | halted r2 st3 =>
      rw [hstep] at h
      injection h with h1 h2
      subst h1
      subst h2
      exact execStepFail env nodes nodeId st2 r2 st3 hstep hc fid hfid
    | thrown st3 =>
      rw [hstep] at h
      exact LoopOut.noConfusion h

theorem runRepeatItersFail (env : RunEnv) (nodes : NodeMap) (nodeId : String)
    (downstream : List String) (delayMs : Int) :
    ∀ (k globalIteration : Nat) (st : RunState) (g : Nat) (r : RunRangeResult)
      (st' : RunState),
      runRepeatIters env nodes nodeId downstream delayMs k globalIteration st
        = (g, .halted r st') →
      r.canceled = false → ∀ fid, r.failedNodeId = some fid →
      r.success = false ∧ failShapeAt fid r st' := by
  intro k
  induction k with
  | zero =>
    intro globalIteration st g r st' h hc fid hfid
    rw [runRepeatIters] at h
    injection h with h1 h2
    exact LoopOut.noConfusion h2
  | succ k ih =>
    intro globalIteration st g r st' h hc fid hfid
    rw [runRepeatIters] at h
    cases hit : runRepeatIteration env nodes nodeId downstream delayMs
        globalIteration st with
    | continued st2 =>
      rw [hit] at h
      exact ih (globalIteration + 1) st2 g r st' h hc fid hfid
    | halted r2 st2 =>
      rw [hit] at h
      injection h with h1 h2
      injection h2 with h3 h4
      subst h3
      subst h4
      exact runRepeatIterationFail env nodes nodeId downstream delayMs
        globalIteration st r2 st2 hit hc fid hfid
    | thrown st2 =>
      rw [hit] at h
      injection h with h1 h2
      exact LoopOut.noConfusion h2

theorem runRepeatCyclesFail (env : RunEnv) (nodes : NodeMap) (nodeId : String)
    (downstream : List String) (delayMs : Int) (repeatCount : Nat) :
    ∀ (cycles globalIteration : Nat) (st : RunState) (r : RunRangeResult)
      (st' : RunState),
      runRepeatCycles env nodes nodeId downstream delayMs repeatCount cycles
        globalIteration st = .halted r st' →
      r.canceled = false → ∀ fid, r.failedNodeId = some fid →
      r.success = false ∧ failShapeAt fid r st' := by
  intro cycles
  induction cycles with
  | zero =>
    intro globalIteration st r st' h hc fid hfid
    rw [runRepeatCycles] at h
    exact LoopOut.noConfusion h
  | succ c ih =>
    intro globalIteration st r st' h hc fid hfid
    rw [runRepeatCycles] at h
    rcases hit : runRepeatIters env nodes nodeId downstream delayMs repeatCount
        globalIteration st with ⟨g2, out⟩
    rw [hit] at h
    cases out with
    | continued st2 =>
      dsimp only at h
      exact ih g2 st2 r st' h hc fid hfid
    | halted r2 st2 =>
      dsimp only at h
      injection h with h1 h2
      subst h1
      subst h2
      exact runRepeatItersFail env nodes nodeId downstream delayMs repeatCount
        globalIteration st g2 r2 st2 hit hc fid hfid
    | thrown st2 =>
      dsimp only at h
      exact LoopOut.noConfusion h

theorem runRepeatBlockFail (env : RunEnv) (nodes : NodeMap)
    (executionOrder includedNodeIds : List String) (nodeId : String)
    (node : WorkflowNode) (fuel : Nat) (st : RunState) (r : RunRangeResult)
    (st' : RunState) (ds : List String)
    (h : runRepeatBlock env nodes executionOrder includedNodeIds nodeId node fuel st
      = (.halted r st', ds))
    (hc : r.canceled = false) (fid : String) (hfid : r.failedNodeId = some fid) :
    r.success = false ∧ failShapeAt fid r st' := by
  rw [runRepeatBlock] at h
  try dsimp only at h
  by_cases hlc : (max 0 node.repeatCfg.loopCount).toNat = 0
  · rw [if_pos hlc] at h
    cases hcy : runRepeatCycles env nodes nodeId
        (getReferencedDownstreamNodeIds executionOrder nodes nodeId includedNodeIds)
        (repeatIntervalToMs (max 0 node.repeatCfg.interval) node.repeatCfg.unit)
        (max 1 node.repeatCfg.count).toNat fuel 0 st with
    | continued st2 =>
      rw [hcy] at h
      injection h with h1 h2
      exact RunOut.noConfusion h1
    | halted r2 st2 =>
      rw [hcy] at h
      injection h with h1 h2
      injection h1 with h3 h4
      subst h3
      subst h4
      exact runRepeatCyclesFail env nodes nodeId _ _ _ fuel 0 st r2 st2 hcy hc fid hfid
    | thrown st2 =>
      rw [hcy] at h
      injection h with h1 h2
      exact RunOut.noConfusion h1
  · rw [if_neg hlc] at h
    cases hcy : runRepeatCycles env nodes nodeId
        (getReferencedDownstreamNodeIds executionOrder nodes nodeId includedNodeIds)
        (repeatIntervalToMs (max 0 node.repeatCfg.interval) node.repeatCfg.unit)
        (max 1 node.repeatCfg.count).toNat (max 0 node.repeatCfg.loopCount).toNat 0 st with
    | continued st2 =>
      rw [hcy] at h
      injection h with h1 h2
      exact RunOut.noConfusion h1
    | halted r2 st2 =>
      rw [hcy] at h
      injection h with h1 h2
      injection h1 with h3 h4
      subst h3
      subst h4
      exact runRepeatCyclesFail env nodes nodeId _ _ _ _ 0 st r2 st2 hcy hc fid hfid
    | thrown st2 =>
      rw [hcy] at h
      injection h with h1 h2
      exact RunOut.noConfusion h1

theorem runMainLoopFail (env : RunEnv) (nodes : NodeMap)
    (includedNodeIds executionOrder : List String) (fuel : Nat) :
    ∀ (l skipped : List String) (st : RunState) (r : RunRangeResult) (st' : RunState),
      runMainLoop env nodes includedNodeIds executionOrder fuel l skipped st
        = .halted r st' →
      r.canceled = false → ∀ fid, r.failedNodeId = some fid →
      r.success = false ∧ failShapeAt fid r st' := by
  intro l
  induction l with
  | nil =>
    intro skipped st r st' h hc fid hfid
    rw [runMainLoop] at h
    exact RunOut.noConfusion h
  | cons nodeId rest ih =>
    intro skipped st r st' h hc fid hfid
    rw [runMainLoop] at h
    by_cases hsig : env.signal st.tick
    · rw [if_pos hsig] at h
      injection h with h1 h2
      subst h1
      simp at hc
    · rw [if_neg hsig] at h
      dsimp only at h
      by_cases hskip : nodeId ∈ skipped
      · rw [if_pos hskip] at h
        exact ih skipped _ r st' h hc fid hfid
      · rw [if_neg hskip] at h
        cases hget : nodeGet nodes nodeId with
        | none =>
          rw [hget] at h
          exact ih skipped _ r st' h hc fid hfid
        | some node =>
          rw [hget] at h
          dsimp only at h
          by_cases hrep : node.repeatCfg.enabled = false
          · rw [if_pos hrep] at h
            cases hstep : execStep env nodes nodeId
                { st with tick := st.tick + 1 } with
            | continued st2 =>
              rw [hstep] at h
              exact ih skipped st2 r st' h hc fid hfid
            | halted r2 st2 =>
              rw [hstep] at h
              injection h with h1 h2
              subst h1
              subst h2
              exact execStepFail env nodes nodeId _ r2 st2 hstep hc fid hfid
            | thrown st2 =>
              rw [hstep] at h
              exact RunOut.noConfusion h
          · rw [if_neg hrep] at h
            rcases hblk : runRepeatBlock env nodes executionOrder includedNodeIds
                nodeId node fuel { st with tick := st.tick + 1 } with ⟨out, ds⟩
            rw [hblk] at h
            cases out with
            | done st2 =>
              dsimp only at h
              exact ih _ st2 r st' h hc fid hfid
            | halted r2 st2 =>
              dsimp only at h
              injection h with h1 h2
              subst h1
              subst h2
              exact runRepeatBlockFail env nodes executionOrder includedNodeIds
                nodeId node fuel _ r2 st2 ds hblk hc fid hfid
            | thrown st2 =>
              dsimp only at h
              exact RunOut.noConfusion h
            | diverged st2 =>
              dsimp only at h
              exact RunOut.noConfusion h

/-- Claim C3: when a run's result reports a failing node (a node invocation
failed with an error rather than a cancellation), the run halted right
there: the result carries the failing node's id, name and error message,
the trace ends at the failing node's invocation — no node later in the
order is invoked afterwards — and the outputs recorded by earlier
successful invocations of the run are still all present in the final
outputs map (nothing is rolled back; the domain equals exactly the outputs
known at the failing invocation). -/
theorem claimC3_first_failure_halts (env : RunEnv) (nodes : NodeMap)
    (order : List String) (startIndex endIndexExclusive : Int) (fuel : Nat)
    (r : RunRangeResult) (fid : String)
    (hres : (runRange env nodes order startIndex endIndexExclusive fuel).result
      = some r)
    (hc : r.canceled = false) (hfid : r.failedNodeId = some fid) :
    r.success = false ∧ r.failedNodeName.isSome = true ∧
    r.errorMessage.isSome = true ∧
    ∃ pre ks,
      (runRange env nodes order startIndex endIndexExclusive fuel).state.trace
        = pre ++ [TraceEvent.invoke fid ks] ∧
      (runRange env nodes order startIndex endIndexExclusive fuel).state.outputsByNodeId.map
        Prod.fst = ks := by
  rw [runRange] at hres ⊢
  by_cases hstart : startIndex < 0 ∨ startIndex > min endIndexExclusive (order.length : Int)
  · rw [if_pos hstart] at hres
    dsimp only at hres
    injection hres with h1
    rw [← h1] at hfid
    exact Option.noConfusion hfid
  · rw [if_neg hstart] at hres ⊢
    by_cases hcyc : (buildDependencyExecutionOrder order nodes).hasCycle
    · rw [if_pos hcyc] at hres
      dsimp only at hres
      injection hres with h1
      rw [← h1] at hfid
      exact Option.noConfusion hfid
    · rw [if_neg hcyc] at hres ⊢
      dsimp only at hres ⊢
      split at hres
      · dsimp only at hres
        injection hres with h1
        rw [← h1] at hfid
        exact Option.noConfusion hfid
      · rename_i r2 st2 heq
        dsimp only at hres
        injection hres with h1
        subst h1
        simp only [heq]
        have hall := runMainLoopFail env nodes _ _ fuel _ _ _ r2 st2 heq hc fid hfid
        obtain ⟨hn, hm, pre, ks, ht, ho⟩ := hall.2
        exact ⟨hall.1, hn, hm, pre, ks, ht, ho⟩
      · rename_i st2 heq
        dsimp only at hres
        injection hres with h1
        rw [← h1] at hc
        simp at hc
      · rename_i st2 heq
        dsimp only at hres
        exact Option.noConfusion hres

/-! ### C4: repeat interleaving -/

theorem execOk_plain (env : RunEnv) (nodes : NodeMap) (nodeId : String)
    (node : WorkflowNode) (st : RunState) (status : Nat) (body : Json)
    (hget : nodeGet nodes nodeId = some node)
    (hreg : env.registry node.method = none)
    (hsig : env.signal st.tick = false)
    (hparse : env.jsonParse node.rawParamsJson = Except.ok (Json.arr []))
    (hfetch : env.fetchResult node.id (st.tick + 1) = .response true status body)
    (herr : errorField body = none) :
    executeSingleNode env nodes nodeId st = (okResult, execOkState st node body) := by
  rw [executeSingleNode.eq_def, hget]
  try dsimp only
  rw [if_neg (by rw [hsig]; exact Bool.false_ne_true)]
  rw [hreg]
  try dsimp only
  have hparams : getNodeParams env node
      (setStatus
        { st with
          tick := st.tick + 1
          callCounts := fun x =>
            if x = node.id then st.callCounts node.id + 1 else st.callCounts x }
        node.id .running none).outputsByNodeId = Except.ok (Json.arr []) := by
    rw [getNodeParams, hreg, hparse]
    rfl
  simp only [Option.none_bind, Option.getD_none]
  try dsimp only
  rw [hparams]
  try dsimp only
  rw [dispatchFetch.eq_def]
  dsimp only [setStatus]
  rw [hfetch]
  try dsimp only
  rw [classifyResponse.eq_def]
  rw [if_neg (fun h : true = false => Bool.noConfusion h)]
  rw [herr]
  rfl

theorem execStep_ok (env : RunEnv) (nodes : NodeMap) (nodeId : String)
    (st st' : RunState)
    (h : executeSingleNode env nodes nodeId st = (okResult, st')) :
    execStep env nodes nodeId st = .continued st' := by
  rw [execStep, h]
  rfl

theorem sleep_ok (env : RunEnv) (d : Int) (st : RunState)
    (hsig : env.signal st.tick = false) :
    sleepWithSignal env d st
      = some { st with tick := st.tick + 1, trace := st.trace ++ [.sleep d] } := by
  rw [sleepWithSignal, if_neg (by rw [hsig]; exact Bool.false_ne_true)]

theorem execOkState_trace (st : RunState) (node : WorkflowNode) (body : Json) :
    (execOkState st node body).trace
      = st.trace ++ [TraceEvent.invoke node.id (st.outputsByNodeId.map Prod.fst)] := rfl

theorem execOkState_outputs (st : RunState) (node : WorkflowNode) (body : Json) :
    (execOkState st node body).outputsByNodeId
      = mapSet st.outputsByNodeId node.id body := rfl

theorem execOkState_tick (st : RunState) (node : WorkflowNode) (body : Json) :
    (execOkState st node body).tick = st.tick + 2 := rfl

theorem mainLoopRS (env : RunEnv) (fuel : Nat)
    (hreg : env.registry "m" = none)
    (hsig : ∀ t, env.signal t = false)
    (hparse : env.jsonParse "[]" = Except.ok (Json.arr []))
    (hfetch : ∀ id t, ∃ status body,
      env.fetchResult id t = FetchResult.response true status body ∧
        errorField body = none) :
    ∀ st0 : RunState, st0.outputsByNodeId = [] →
      ∃ st', runMainLoop env nmRS ["R", "S"] ["R", "S"] fuel ["R", "S"] [] st0
          = .done st' ∧
        st'.trace = st0.trace ++ [TraceEvent.invoke "R" [],
          TraceEvent.invoke "S" ["R"], TraceEvent.sleep 5,
          TraceEvent.invoke "R" ["R", "S"], TraceEvent.invoke "S" ["R", "S"]] := by
  intro st0 hout
  set st1 : RunState := { st0 with tick := st0.tick + 1 } with hst1
  obtain ⟨c1, b1, hf1, he1⟩ := hfetch "R" (st1.tick + 1)
  have hR1 : executeSingleNode env nmRS "R" st1 = (okResult, execOkState st1 nodeR b1) :=
    execOk_plain env nmRS "R" nodeR st1 c1 b1 rfl hreg (hsig _) hparse hf1 he1
  set st2 : RunState := execOkState st1 nodeR b1 with hst2
  obtain ⟨c2, b2, hf2, he2⟩ := hfetch "S" (st2.tick + 1)
  have hS1 : executeSingleNode env nmRS "S" st2 = (okResult, execOkState st2 nodeS b2) :=
    execOk_plain env nmRS "S" nodeS st2 c2 b2 rfl hreg (hsig _) hparse hf2 he2
  set st3 : RunState := execOkState st2 nodeS b2 with hst3
  have hslp : sleepWithSignal env 5 st3
      = some { st3 with tick := st3.tick + 1, trace := st3.trace ++ [.sleep 5] } :=
    sleep_ok env 5 st3 (hsig _)
  set st4 : RunState :=
    { st3 with tick := st3.tick + 1, trace := st3.trace ++ [.sleep 5] } with hst4
  obtain ⟨c3, b3, hf3, he3⟩ := hfetch "R" (st4.tick + 1)
  have hR2 : executeSingleNode env nmRS "R" st4 = (okResult, execOkState st4 nodeR b3) :=
    execOk_plain env nmRS "R" nodeR st4 c3 b3 rfl hreg (hsig _) hparse hf3 he3
  set st5 : RunState := execOkState st4 nodeR b3 with hst5
  obtain ⟨c4, b4, hf4, he4⟩ := hfetch "S" (st5.tick + 1)
  have hS2 : executeSingleNode env nmRS "S" st5 = (okResult, execOkState st5 nodeS b4) :=
    execOk_plain env nmRS "S" nodeS st5 c4 b4 rfl hreg (hsig _) hparse hf4 he4
  set st6 : RunState := execOkState st5 nodeS b4 with hst6
  have hsig' : ∀ t, ¬(env.signal t = true) := by
    intro t h
    rw [hsig t] at h
    exact Bool.noConfusion h
  have hDown1 : runDownstream env nmRS ["S"] st2 = .continued st3 := by
    show (match execStep env nmRS "S" st2 with
      | .continued st' => runDownstream env nmRS [] st'
      | out => out) = .continued st3
    rw [execStep_ok env nmRS "S" st2 st3 hS1]
    rfl
  have hDown2 : runDownstream env nmRS ["S"] st5 = .continued st6 := by
    show (match execStep env nmRS "S" st5 with
      | .continued st' => runDownstream env nmRS [] st'
      | out => out) = .continued st6
    rw [execStep_ok env nmRS "S" st5 st6 hS2]
    rfl
  have hIt1 : runRepeatIteration env nmRS "R" ["S"] 5 0 st1 = .continued st3 := by
    rw [runRepeatIteration]
    try dsimp only
    try rw [if_neg (by simp)]
    try dsimp only
    rw [execStep_ok env nmRS "R" st1 st2 hR1]
    try dsimp only
    exact hDown1
  have hIt2 : runRepeatIteration env nmRS "R" ["S"] 5 1 st3 = .continued st6 := by
    rw [runRepeatIteration]
    try dsimp only
    rw [if_pos (by decide)]
    rw [hslp]
    try dsimp only
    rw [execStep_ok env nmRS "R" st4 st5 hR2]
    try dsimp only
    exact hDown2
  have hIters : runRepeatIters env nmRS "R" ["S"] 5 2 0 st1 = (2, .continued st6) := by
    simp only [runRepeatIters, hIt1, hIt2]
  have hCycles : runRepeatCycles env nmRS "R" ["S"] 5 2 1 0 st1 = .continued st6 := by
    simp only [runRepeatCycles, hIters]
  have hBlock : runRepeatBlock env nmRS ["R", "S"] ["R", "S"] "R" nodeR fuel st1
      = (.done st6, ["S"]) := by
    rw [runRepeatBlock]
    try dsimp only
    rw [show getReferencedDownstreamNodeIds ["R", "S"] nmRS "R" ["R", "S"]
      = ["S"] from rfl]
    rw [show (max 1 nodeR.repeatCfg.count).toNat = 2 from rfl]
    rw [show (max 0 nodeR.repeatCfg.loopCount).toNat = 1 from rfl]
    rw [show repeatIntervalToMs (max 0 nodeR.repeatCfg.interval) nodeR.repeatCfg.unit
      = 5 from rfl]
    rw [if_neg (by decide)]
    rw [hCycles]
  refine ⟨{ st6 with tick := st6.tick + 1 }, ?_, ?_⟩
  · rw [runMainLoop]
    rw [if_neg (hsig' _)]
    dsimp only
    rw [if_neg (by simp)]
    rw [show nodeGet nmRS "R" = some nodeR from rfl]
    dsimp only
    rw [if_neg (by decide)]
    rw [hBlock]
    dsimp only
    rw [show (List.foldl setAdd ([] : List String) ["S"]) = ["S"] from rfl]
    rw [runMainLoop]
    rw [if_neg (hsig' _)]
    dsimp only
    rw [if_pos (by simp)]
    rw [runMainLoop]
  · have htr2 : st2.trace = st0.trace ++ [TraceEvent.invoke "R" []] := by
      rw [hst2, execOkState_trace]
      have : st1.outputsByNodeId = [] := hout
      rw [this]
      rfl
    have hout2 : st2.outputsByNodeId = [("R", b1)] := by
      rw [hst2, execOkState_outputs]
      have : st1.outputsByNodeId = [] := hout
      rw [this]
      rfl
    have htr3 : st3.trace = st0.trace ++ [TraceEvent.invoke "R" [],
        TraceEvent.invoke "S" ["R"]] := by
      rw [hst3, execOkState_trace, htr2, hout2]
      simp [nodeS]
    have hout3 : st3.outputsByNodeId = [("R", b1), ("S", b2)] := by
      rw [hst3, execOkState_outputs, hout2]
      rfl
    have htr4 : st4.trace = st0.trace ++ [TraceEvent.invoke "R" [],
        TraceEvent.invoke "S" ["R"], TraceEvent.sleep 5] := by
      rw [hst4]
      dsimp only
      rw [htr3]
      simp
    have hout4 : st4.outputsByNodeId = [("R", b1), ("S", b2)] := by
      rw [hst4]
      exact hout3
    have htr5 : st5.trace = st0.trace ++ [TraceEvent.invoke "R" [],
        TraceEvent.invoke "S" ["R"], TraceEvent.sleep 5,
        TraceEvent.invoke "R" ["R", "S"]] := by
      rw [hst5, execOkState_trace, htr4, hout4]
      simp [nodeR]
    have hout5 : st5.outputsByNodeId = [("R", b3), ("S", b2)] := by
      rw [hst5, execOkState_outputs, hout4]
      rfl
    have htr6 : st6.trace = st0.trace ++ [TraceEvent.invoke "R" [],
        TraceEvent.invoke "S" ["R"], TraceEvent.sleep 5,
        TraceEvent.invoke "R" ["R", "S"], TraceEvent.invoke "S" ["R", "S"]] := by
      rw [hst6, execOkState_trace, htr5, hout5]
      simp [nodeS]
    exact htr6

theorem runRangeRS_eq (env : RunEnv) (fuel : Nat) :
    runRange env nmRS ["R", "S"] 0 2 fuel
      = match runMainLoop env nmRS ["R", "S"] ["R", "S"] fuel ["R", "S"] [] seedRS with
        | .done st' => { result := some okResult, state := st' }
        | .halted r st' => { result := some r, state := st' }
        | .thrown st' =>
          { result := some
              { success := false, canceled := true,
                errorMessage := some "Execution stopped by user." }
            state := st' }
        | .diverged st' => { result := none, state := st' } := rfl

/-- Claim C4: for the repeating node `R` (`repeat.enabled = true`,
`count = 2`, `loopCount = 1`, interval 5 ms) feeding `S` by reference, and
any environment whose transport succeeds and whose abort signal never
fires, running the range executes R, then S, then R again, then S again
(downstream dependents re-run after each iteration of R, not after all of
them), the configured interval is waited exactly once — between the
iterations, not before the very first one — and S, marked skipped after
the repeat block, is not executed again by the main loop: the whole trace
is exactly those five events. -/
theorem claimC4_repeat_interleaving (env : RunEnv) (fuel : Nat)
    (hreg : env.registry "m" = none)
    (hsig : ∀ t, env.signal t = false)
    (hparse : env.jsonParse "[]" = Except.ok (Json.arr []))
    (hfetch : ∀ id t, ∃ status body,
      env.fetchResult id t = FetchResult.response true status body ∧
        errorField body = none) :
    (runRange env nmRS ["R", "S"] 0 2 fuel).result = some okResult ∧
    (runRange env nmRS ["R", "S"] 0 2 fuel).state.trace
      = [TraceEvent.invoke "R" [], TraceEvent.invoke "S" ["R"], TraceEvent.sleep 5,
         TraceEvent.invoke "R" ["R", "S"], TraceEvent.invoke "S" ["R", "S"]] := by
  obtain ⟨st', hml, htr⟩ := mainLoopRS env fuel hreg hsig hparse hfetch seedRS rfl
  rw [runRangeRS_eq, hml]
  refine ⟨rfl, ?_⟩
  show st'.trace = _
  rw [htr]
  rfl

/-- Witness for C4 on the concrete benign environment. -/
theorem claimC4_repeat_interleaving_witness :
    envOk.registry "m" = none ∧ (∀ t, envOk.signal t = false) ∧
    envOk.jsonParse "[]" = Except.ok (Json.arr []) ∧
    (∀ id t, ∃ status body,
      envOk.fetchResult id t = FetchResult.response true status body ∧
        errorField body = none) ∧
    ((runRange envOk nmRS ["R", "S"] 0 2 10).result = some okResult ∧
     (runRange envOk nmRS ["R", "S"] 0 2 10).state.trace
       = [TraceEvent.invoke "R" [], TraceEvent.invoke "S" ["R"], TraceEvent.sleep 5,
          TraceEvent.invoke "R" ["R", "S"], TraceEvent.invoke "S" ["R", "S"]]) :=
  ⟨rfl, fun _ => rfl, rfl,
    fun _ _ => ⟨200, Json.obj [("result", Json.num 1)], rfl, rfl⟩,
    claimC4_repeat_interleaving envOk 10 rfl (fun _ => rfl) rfl
      (fun _ _ => ⟨200, Json.obj [("result", Json.num 1)], rfl, rfl⟩)⟩

/-- Witness for C3: a single custom-transport node whose value reference
cannot resolve fails the run at its own invocation. -/
theorem claimC3_first_failure_halts_witness :
    (runRange envF nmF ["F"] 0 1 1).result
        = some (mkNodeFailure nodeF "Reference node Z has no output") ∧
    (mkNodeFailure nodeF "Reference node Z has no output").canceled = false ∧
    (mkNodeFailure nodeF "Reference node Z has no output").failedNodeId = some "F" ∧
    ((mkNodeFailure nodeF "Reference node Z has no output").success = false ∧
     (mkNodeFailure nodeF "Reference node Z has no output").failedNodeName.isSome = true ∧
     (mkNodeFailure nodeF "Reference node Z has no output").errorMessage.isSome = true ∧
     ∃ pre ks, (runRange envF nmF ["F"] 0 1 1).state.trace
         = pre ++ [TraceEvent.invoke "F" ks] ∧
       (runRange envF nmF ["F"] 0 1 1).state.outputsByNodeId.map Prod.fst = ks) :=
  ⟨rfl, rfl, rfl,
    claimC3_first_failure_halts envF nmF ["F"] 0 1 1
      (mkNodeFailure nodeF "Reference node Z has no output") "F" rfl rfl rfl⟩

/-! ### C7: abort handling -/

/-- Claim C7: when the abort signal fires (i) an interval wait rejects
immediately with an `AbortError` instead of completing the delay, (ii) a
node invocation whose in-flight fetch rejects with `AbortError` reports a
canceled result (`canceled = true`) and resets the node's status to
`idle`, not `error`, and (iii) in the concrete repeat scenario, aborting
during the delay before the second iteration ends the whole run with
`canceled = true`, the trace showing the wait was never completed and
nothing ran after it. -/
theorem claimC7_abort_handling :
    (∀ (env : RunEnv) (d : Int) (st : RunState),
      env.signal st.tick = true → sleepWithSignal env d st = none) ∧
    (∀ (env : RunEnv) (nodes : NodeMap) (nodeId : String) (node : WorkflowNode)
      (st : RunState),
      nodeGet nodes nodeId = some node →
      env.signal st.tick = false →
      env.registry node.method = none →
      env.jsonParse node.rawParamsJson = Except.ok (Json.arr []) →
      env.fetchResult node.id (st.tick + 1) = .abortError →
      ∃ st', executeSingleNode env nodes nodeId st = (mkNodeCanceled node, st') ∧
        (mkNodeCanceled node).canceled = true ∧
        (mkNodeCanceled node).success = false ∧
        st'.statuses node.id = NodeStatus.idle) ∧
    ((runRange envAbort5 nmRS ["R", "S"] 0 2 10).result
        = some { success := false, canceled := true,
                 errorMessage := some "Execution stopped by user." } ∧
     (runRange envAbort5 nmRS ["R", "S"] 0 2 10).state.trace
        = [TraceEvent.invoke "R" [], TraceEvent.invoke "S" ["R"]]) := by
  refine ⟨?_, ?_, rfl, rfl⟩
  · intro env d st hsig
    rw [sleepWithSignal, if_pos hsig]
  · intro env nodes nodeId node st hget hsig hreg hparse hfetch
    have hx : ∃ st', executeSingleNode env nodes nodeId st
        = (mkNodeCanceled node, st') ∧ st'.statuses node.id = NodeStatus.idle := by
      rw [executeSingleNode.eq_def, hget]
      try dsimp only
      rw [if_neg (by rw [hsig]; exact Bool.false_ne_true)]
      rw [hreg]
      try dsimp only
      have hparams : getNodeParams env node
          (setStatus
            { st with
              tick := st.tick + 1
              callCounts := fun x =>
                if x = node.id then st.callCounts node.id + 1 else st.callCounts x }
            node.id .running none).outputsByNodeId = Except.ok (Json.arr []) := by
        rw [getNodeParams, hreg, hparse]
        rfl
      simp only [Option.none_bind, Option.getD_none]
      try dsimp only
      rw [hparams]
      try dsimp only
      rw [dispatchFetch.eq_def]
      dsimp only [setStatus]
      rw [hfetch]
      try dsimp only
      refine ⟨_, rfl, ?_⟩
      dsimp only
      rw [if_pos rfl]
    obtain ⟨st', heq, hidle⟩ := hx
    exact ⟨st', heq, rfl, rfl, hidle⟩

/-- Witness for C7 at concrete aborting environments. -/
theorem claimC7_abort_handling_witness :
    envAbort5.signal st5c.tick = true ∧
    sleepWithSignal envAbort5 7 st5c = none ∧
    nodeGet nmRS "R" = some nodeR ∧
    envFetchAbort.signal (initialRunState nmRS).tick = false ∧
    envFetchAbort.registry nodeR.method = none ∧
    envFetchAbort.jsonParse nodeR.rawParamsJson = Except.ok (Json.arr []) ∧
    envFetchAbort.fetchResult nodeR.id ((initialRunState nmRS).tick + 1)
      = .abortError ∧
    (∃ st', executeSingleNode envFetchAbort nmRS "R" (initialRunState nmRS)
        = (mkNodeCanceled nodeR, st') ∧ (mkNodeCanceled nodeR).canceled = true ∧
        (mkNodeCanceled nodeR).success = false ∧
        st'.statuses nodeR.id = NodeStatus.idle) :=
  ⟨rfl, claimC7_abort_handling.1 envAbort5 7 st5c rfl, rfl, rfl, rfl, rfl, rfl,
    claimC7_abort_handling.2.1 envFetchAbort nmRS "R" nodeR (initialRunState nmRS)
      rfl rfl rfl rfl rfl⟩

/-! ### C8: sources-before-invocation -/

theorem mapSet_fst_mem {α : Type} (m : List (String × α)) (k x : String) (v : α) :
    x ∈ (mapSet m k v).map Prod.fst ↔ x ∈ m.map Prod.fst ∨ x = k := by
  induction m with
  | nil =>
    simp [mapSet]
  | cons e rest ih =>
    obtain ⟨k1, v1⟩ := e
    by_cases h1 : k1 = k
    · subst h1
      simp [mapSet]
      tauto
    · simp only [mapSet, if_neg h1, List.map_cons, List.mem_cons, ih]
      tauto

theorem execEffects (env : RunEnv) (nodes : NodeMap) (nodeId : String)
    (st : RunState) :
    ∀ r st', executeSingleNode env nodes nodeId st = (r, st') →
      (st'.trace = st.trace ∧ st'.outputsByNodeId = st.outputsByNodeId) ∨
      (∃ node, nodeGet nodes nodeId = some node ∧
        st'.trace = st.trace
          ++ [TraceEvent.invoke node.id (st.outputsByNodeId.map Prod.fst)] ∧
        (st'.outputsByNodeId = st.outputsByNodeId ∨
         ∃ body, st'.outputsByNodeId = mapSet st.outputsByNodeId node.id body)) := by
  intro r st' hexec
  rw [executeSingleNode.eq_def] at hexec
  cases hget : nodeGet nodes nodeId with
  | none =>
    rw [hget] at hexec
    dsimp only at hexec
    injection hexec with h1 h2
    subst h2
    exact Or.inl ⟨rfl, rfl⟩
  | some node =>
    rw [hget] at hexec
    dsimp only at hexec
    by_cases hsig : env.signal st.tick
    · rw [if_pos hsig] at hexec
      injection hexec with h1 h2
      subst h2
      exact Or.inl ⟨rfl, rfl⟩
    · rw [if_neg hsig] at hexec
      rw [dispatchFetch.eq_def] at hexec
      repeat' split at hexec
      all_goals try dsimp only at hexec
      all_goals try split at hexec
      all_goals try rw [classifyResponse.eq_def] at hexec
      all_goals try dsimp only at hexec
      all_goals try split at hexec
      all_goals try split at hexec
      all_goals try split at hexec
      all_goals injection hexec with h1 h2
      all_goals subst h2
      all_goals refine Or.inr ⟨node, by first | exact rfl | exact hget, rfl, ?_⟩
      all_goals first
        | exact Or.inl rfl
        | exact Or.inr ⟨_, rfl⟩

theorem execPublish (env : RunEnv) (nodes : NodeMap) (nodeId : String)
    (st : RunState) :
    ∀ r st', executeSingleNode env nodes nodeId st = (r, st') →
      r.success = true →
      ∀ node, nodeGet nodes nodeId = some node →
      ∃ body, st'.outputsByNodeId = mapSet st.outputsByNodeId node.id body := by
  intro r st' hexec hs node hget
  rw [executeSingleNode.eq_def, hget] at hexec
  dsimp only at hexec
  by_cases hsig : env.signal st.tick
  · rw [if_pos hsig] at hexec
    injection hexec with h1 h2
    subst h1
    exact absurd hs (by simp [mkNodeCanceled])
  · rw [if_neg hsig] at hexec
    rw [dispatchFetch.eq_def] at hexec
    repeat' split at hexec
    all_goals try dsimp only at hexec
    all_goals try split at hexec
    all_goals try rw [classifyResponse.eq_def] at hexec
    all_goals try dsimp only at hexec
    all_goals try split at hexec
    all_goals try split at hexec
    all_goals try split at hexec
    all_goals injection hexec with h1 h2
    all_goals subst h1
    all_goals subst h2
    all_goals first
      | exact ⟨_, rfl⟩
      | simp [mkNodeFailure] at hs
      | simp [mkNodeCanceled] at hs

theorem traceOK_sleep (nodes : NodeMap) (inc : List String) (tr : List TraceEvent)
    (d : Int) (h : traceOK nodes inc tr) :
    traceOK nodes inc (tr ++ [TraceEvent.sleep d]) := by
  intro t ks hmem s hsrc
  rcases List.mem_append.mp hmem with hmem | hmem
  · exact h t ks hmem s hsrc
  · have : TraceEvent.invoke t ks = TraceEvent.sleep d := by simpa using hmem
    exact TraceEvent.noConfusion this

theorem execStepC8 (env : RunEnv) (nodes : NodeMap) (inc : List String)
    (nodeId : String) (node : WorkflowNode) (st : RunState)
    (hget : nodeGet nodes nodeId = some node)
    (hid : node.id = nodeId)
    (hready : sourcesReady nodes inc nodeId st)
    (htr : traceOK nodes inc st.trace) :
    (∀ st', execStep env nodes nodeId st = .continued st' →
      traceOK nodes inc st'.trace ∧
      (∀ x ∈ domOf st, x ∈ domOf st') ∧ nodeId ∈ domOf st') ∧
    (∀ r st', execStep env nodes nodeId st = .halted r st' →
      traceOK nodes inc st'.trace ∧ (∀ x ∈ domOf st, x ∈ domOf st')) := by
  rcases hexec : executeSingleNode env nodes nodeId st with ⟨r0, st0⟩
  have heff := execEffects env nodes nodeId st r0 st0 hexec
  have hkey : traceOK nodes inc st0.trace ∧ (∀ x ∈ domOf st, x ∈ domOf st0) := by
    rcases heff with ⟨ht, ho⟩ | ⟨node2, hg2, ht, ho⟩
    · constructor
      · rw [ht]
        exact htr
      · intro x hx
        rw [domOf, ho]
        exact hx
    · have hnode2 : node2 = node := by
        rw [hget] at hg2
        injection hg2 with h
        exact h.symm
      rw [hnode2] at ht ho
      constructor
      · rw [ht]
        intro t ks hmem s hsrc
        rcases List.mem_append.mp hmem with hmem | hmem
        · exact htr t ks hmem s hsrc
        · have heq : TraceEvent.invoke t ks
              = TraceEvent.invoke node.id (st.outputsByNodeId.map Prod.fst) := by
            simpa using hmem
          injection heq with h1 h2
          subst h1
          subst h2
          rw [hid] at hsrc
          exact hready s hsrc
      · intro x hx
        rcases ho with ho | ⟨body, ho⟩
        · rw [domOf, ho]
          exact hx
        · rw [domOf, ho, mapSet_fst_mem]
          exact Or.inl hx
  refine ⟨?_, ?_⟩
  · intro st' hstep
    rw [execStep, hexec] at hstep
    dsimp only at hstep
    by_cases hrs : r0.success
    · rw [if_pos hrs] at hstep
      injection hstep with h1
      subst h1
      refine ⟨hkey.1, hkey.2, ?_⟩
      obtain ⟨body, ho⟩ := execPublish env nodes nodeId st r0 st0 hexec
        (by simpa using hrs) node hget
      rw [domOf, ho, mapSet_fst_mem]
      exact Or.inr hid.symm
    · rw [if_neg hrs] at hstep
      exact LoopOut.noConfusion hstep
  · intro r st' hstep
    rw [execStep, hexec] at hstep
    dsimp only at hstep
    by_cases hrs : r0.success
    · rw [if_pos hrs] at hstep
      exact LoopOut.noConfusion hstep
    · rw [if_neg hrs] at hstep
      injection hstep with h1 h2
      subst h2
      exact ⟨hkey.1, hkey.2⟩

theorem listBefore_filter (l : List String) (a b : String) (p : String → Bool)
    (h : listBefore l a b) (ha : p a = true) (hb : p b = true) :
    listBefore (l.filter p) a b := by
  obtain ⟨l1, l2, heq, hmem⟩ := h
  refine ⟨l1.filter p, l2.filter p, ?_, ?_⟩
  · rw [heq, List.filter_append, List.filter_cons, hb]
    rfl
  · rw [List.mem_filter]
    exact ⟨hmem, ha⟩

theorem append_eq_append_nodup (b : String) :
    ∀ (xs ys us vs : List String), xs ++ b :: ys = us ++ b :: vs →
      b ∉ xs → b ∉ us → xs = us := by
  intro xs
  induction xs with
  | nil =>
    intro ys us vs heq hbxs hbus
    cases us with
    | nil => rfl
    | cons u us2 =>
      rw [List.nil_append, List.cons_append] at heq
      injection heq with h1 h2
      exact absurd (h1 ▸ List.mem_cons_self u us2) (h1 ▸ hbus)
  | cons x xs2 ih =>
    intro ys us vs heq hbxs hbus
    cases us with
    | nil =>
      rw [List.nil_append, List.cons_append] at heq
      injection heq with h1 h2
      exact absurd (h1 ▸ List.mem_cons_self x xs2) (h1 ▸ hbxs)
    | cons u us2 =>
      rw [List.cons_append, List.cons_append] at heq
      injection heq with h1 h2
      subst h1
      have := ih ys us2 vs h2 (fun hm => hbxs (List.mem_cons_of_mem _ hm))
        (fun hm => hbus (List.mem_cons_of_mem _ hm))
      rw [this]

theorem nodup_split_mem_left (done rest : List String) (a b : String)
    (hnd : (done ++ b :: rest).Nodup)
    (h : listBefore (done ++ b :: rest) a b) : a ∈ done := by
  obtain ⟨l1, l2, heq, hmem⟩ := h
  have hnd2 : (l1 ++ b :: l2).Nodup := heq ▸ hnd
  have hbl1 : b ∉ l1 := by
    intro hb
    exact List.disjoint_of_nodup_append hnd2 hb (List.mem_cons_self b l2)
  have hbdone : b ∉ done := by
    intro hb
    exact List.disjoint_of_nodup_append hnd hb (List.mem_cons_self b rest)
  have hsame : l1 = done := append_eq_append_nodup b l1 l2 done rest heq.symm hbl1 hbdone
  rw [← hsame]
  exact hmem

theorem sublist_listBefore (D l : List String) (hsub : D.Sublist l) :
    l.Nodup → ∀ a b, a ∈ D → b ∈ D → listBefore l a b → listBefore D a b := by
  induction hsub with
  | slnil =>
    intro _ a b ha _ _
    exact absurd ha (List.not_mem_nil a)
  | @cons D' l' y hsub ih =>
    intro hnd a b ha hb hbef
    obtain ⟨l1, l2, heq, hmem⟩ := hbef
    cases l1 with
    | nil =>
      exact absurd hmem (List.not_mem_nil a)
    | cons x l1' =>
      rw [List.cons_append] at heq
      injection heq with h1 h2
      refine ih hnd.of_cons a b ha hb ⟨l1', l2, h2, ?_⟩
      have hal : a ∈ l' := hsub.subset ha
      have hynot : y ∉ l' := (List.nodup_cons.mp hnd).1
      cases List.mem_cons.mp hmem with
      | inl haeq =>
        have hya : y = a := h1.trans haeq.symm
        rw [hya] at hynot
        exact absurd hal hynot
      | inr h => exact h
  | @cons₂ D' l' y hsub ih =>
    intro hnd a b ha hb hbef
    obtain ⟨l1, l2, heq, hmem⟩ := hbef
    cases l1 with
    | nil =>
      exact absurd hmem (List.not_mem_nil a)
    | cons x l1' =>
      rw [List.cons_append] at heq
      injection heq with h1 h2
      have hynot : y ∉ l' := (List.nodup_cons.mp hnd).1
      have hbney : b ≠ y := by
        intro hby
        apply hynot
        rw [h2]
        refine List.mem_append.mpr (Or.inr ?_)
        rw [← hby]
        exact List.mem_cons_self b l2
      have hbD2 : b ∈ D' := by
        cases List.mem_cons.mp hb with
        | inl h => exact absurd h hbney
        | inr h => exact h
      cases List.mem_cons.mp hmem with
      | inl haeq =>
        obtain ⟨d1, d2, hD⟩ := List.append_of_mem hbD2
        refine ⟨y :: d1, d2, ?_, ?_⟩
        · rw [hD, List.cons_append]
        · have hay : a = y := haeq.trans h1.symm
          rw [hay]
          exact List.mem_cons_self y d1
      | inr hal1 =>
        have haD2 : a ∈ D' := by
          cases List.mem_cons.mp ha with
          | inl h =>
            exfalso
            apply hynot
            rw [h2]
            exact List.mem_append.mpr (Or.inl (h ▸ hal1))
          | inr h => exact h
        obtain ⟨d1, d2, hD, hmem2⟩ := ih hnd.of_cons a b haD2 hbD2 ⟨l1', l2, h2, hal1⟩
        exact ⟨y :: d1, d2, by rw [hD, List.cons_append], List.mem_cons_of_mem _ hmem2⟩

theorem runDownstreamC8 (env : RunEnv) (nodes : NodeMap) (inc : List String)
    (hids : ∀ id node, nodeGet nodes id = some node → node.id = id)
    (R : String) (D B : List String)
    (hDex : ∀ d ∈ D, (nodeGet nodes d).isSome)
    (hsrcD : ∀ d ∈ D, ∀ s, isSource nodes inc d s →
      s = R ∨ (s ∈ D ∧ listBefore D s d) ∨ s ∈ B)
    (hndD : D.Nodup) :
    ∀ (D2 Dpre : List String), D = Dpre ++ D2 →
      ∀ st : RunState,
      (∀ x ∈ B, x ∈ domOf st) → R ∈ domOf st → (∀ x ∈ Dpre, x ∈ domOf st) →
      traceOK nodes inc st.trace →
      ∀ out, runDownstream env nodes D2 st = out →
        traceOK nodes inc (loopOutState out).trace ∧
        (∀ st', out = .continued st' →
          (∀ x ∈ domOf st, x ∈ domOf st') ∧ (∀ x ∈ B, x ∈ domOf st') ∧
          R ∈ domOf st' ∧ (∀ x ∈ D, x ∈ domOf st')) := by
  intro D2
  induction D2 with
  | nil =>
    intro Dpre hsplit st hB hR hpre htr out hrun
    rw [runDownstream] at hrun
    subst hrun
    refine ⟨htr, ?_⟩
    intro st' heq
    injection heq with heq
    subst heq
    refine ⟨fun x hx => hx, hB, hR, ?_⟩
    intro x hx
    rw [hsplit, List.append_nil] at hx
    exact hpre x hx
  | cons d D2' ih =>
    intro Dpre hsplit st hB hR hpre htr out hrun
    rw [runDownstream] at hrun
    have hdD : d ∈ D := by
      rw [hsplit]
      exact List.mem_append.mpr (Or.inr (List.mem_cons_self d D2'))
    obtain ⟨node, hget⟩ := Option.isSome_iff_exists.mp (hDex d hdD)
    have hid : node.id = d := hids d node hget
    have hready : sourcesReady nodes inc d st := by
      intro s hsrc
      rcases hsrcD d hdD s hsrc with hsR | ⟨hsD, hbef⟩ | hsB
      · rw [hsR]
        exact hR
      · have hndD2 : (Dpre ++ d :: D2').Nodup := hsplit ▸ hndD
        have hbef2 : listBefore (Dpre ++ d :: D2') s d := hsplit ▸ hbef
        exact hpre s (nodup_split_mem_left Dpre D2' s d hndD2 hbef2)
      · exact hB s hsB
    have hstep := execStepC8 env nodes inc d node st hget hid hready htr
    cases hs : execStep env nodes d st with
    | continued st2 =>
      rw [hs] at hrun
      obtain ⟨htr2, hmono2, hd2⟩ := hstep.1 st2 hs
      have hrec := ih (Dpre ++ [d]) (by rw [hsplit, List.append_assoc]; rfl) st2
        (fun x hx => hmono2 x (hB x hx)) (hmono2 R hR)
        (by
          intro x hx
          rcases List.mem_append.mp hx with hx | hx
          · exact hmono2 x (hpre x hx)
          · have : x = d := by simpa using hx
            rw [this]
            exact hd2)
        htr2 out hrun
      refine ⟨hrec.1, ?_⟩
      intro st' heq
      obtain ⟨hm, hb, hr, hd⟩ := hrec.2 st' heq
      exact ⟨fun x hx => hm x (hmono2 x hx), hb, hr, hd⟩
    | halted r2 st2 =>
      rw [hs] at hrun
      subst hrun
      obtain ⟨htr2, -⟩ := hstep.2 r2 st2 hs
      refine ⟨htr2, ?_⟩
      intro st' heq
      exact LoopOut.noConfusion heq
    | thrown st2 =>
      rw [hs] at hrun
      subst hrun
      -- execStep never throws
      exfalso
      rw [execStep] at hs
      rcases hexec2 : executeSingleNode env nodes d st with ⟨r0, st0⟩
      rw [hexec2] at hs
      dsimp only at hs
      by_cases hrs : r0.success
      · rw [if_pos hrs] at hs
        exact LoopOut.noConfusion hs
      · rw [if_neg hrs] at hs
        exact LoopOut.noConfusion hs

theorem runRepeatIterationC8 (env : RunEnv) (nodes : NodeMap) (inc : List String)
    (hids : ∀ id node, nodeGet nodes id = some node → node.id = id)
    (R : String) (node : WorkflowNode) (D B : List String)
    (hget : nodeGet nodes R = some node)
    (hDex : ∀ d ∈ D, (nodeGet nodes d).isSome)
    (hsrcR : ∀ s, isSource nodes inc R s → s ∈ B)
    (hsrcD : ∀ d ∈ D, ∀ s, isSource nodes inc d s →
      s = R ∨ (s ∈ D ∧ listBefore D s d) ∨ s ∈ B)
    (hndD : D.Nodup) :
    ∀ (delay : Int) (g : Nat) (st : RunState),
      (∀ x ∈ B, x ∈ domOf st) → traceOK nodes inc st.trace →
      ∀ out, runRepeatIteration env nodes R D delay g st = out →
        traceOK nodes inc (loopOutState out).trace ∧
        (∀ st', out = .continued st' →
          (∀ x ∈ domOf st, x ∈ domOf st') ∧ (∀ x ∈ B, x ∈ domOf st') ∧
          R ∈ domOf st' ∧ (∀ x ∈ D, x ∈ domOf st')) := by
  intro delay g st hB htr out hrun
  rw [runRepeatIteration] at hrun
  have hid : node.id = R := hids R node hget
  -- characterize the state after the optional sleep
  have hslp : ∀ st2, (if g > 0 ∧ delay > 0 then sleepWithSignal env delay st
      else some st) = some st2 →
      st2.trace = st.trace ∨ st2.trace = st.trace ++ [TraceEvent.sleep delay] ∧
      True := by
    intro st2 h
    by_cases hc : g > 0 ∧ delay > 0
    · rw [if_pos hc, sleepWithSignal] at h
      by_cases hsg : env.signal st.tick
      · rw [if_pos hsg] at h
        exact Option.noConfusion h
      · rw [if_neg hsg] at h
        injection h with h
        rw [← h]
        exact Or.inr ⟨rfl, trivial⟩
    · rw [if_neg hc] at h
      injection h with h
      rw [← h]
      exact Or.inl rfl
  have hslpo : ∀ st2, (if g > 0 ∧ delay > 0 then sleepWithSignal env delay st
      else some st) = some st2 → st2.outputsByNodeId = st.outputsByNodeId := by
    intro st2 h
    by_cases hc : g > 0 ∧ delay > 0
    · rw [if_pos hc, sleepWithSignal] at h
      by_cases hsg : env.signal st.tick
      · rw [if_pos hsg] at h
        exact Option.noConfusion h
      · rw [if_neg hsg] at h
        injection h with h
        rw [← h]
    · rw [if_neg hc] at h
      injection h with h
      rw [← h]
  cases hsleep : (if g > 0 ∧ delay > 0 then sleepWithSignal env delay st
      else some st) with
  | none =>
    rw [hsleep] at hrun
    subst hrun
    refine ⟨htr, ?_⟩
    intro st' heq
    exact LoopOut.noConfusion heq
  | some st2 =>
    rw [hsleep] at hrun
    dsimp only at hrun
    have htr2 : traceOK nodes inc st2.trace := by
      rcases hslp st2 hsleep with h | ⟨h, -⟩
      · rw [h]
        exact htr
      · rw [h]
        exact traceOK_sleep nodes inc st.trace delay htr
    have hdom2 : domOf st2 = domOf st := by
      rw [domOf, domOf, hslpo st2 hsleep]
    have hreadyR : sourcesReady nodes inc R st2 := by
      intro s hsrc
      rw [hdom2]
      exact hB s (hsrcR s hsrc)
    have hstep := execStepC8 env nodes inc R node st2 hget hid hreadyR htr2
    cases hs : execStep env nodes R st2 with
    | continued st3 =>
      rw [hs] at hrun
      obtain ⟨htr3, hmono3, hR3⟩ := hstep.1 st3 hs
      have hrec := runDownstreamC8 env nodes inc hids R D B hDex hsrcD hndD D [] rfl
        st3
        (fun x hx => hmono3 x (hdom2 ▸ hB x hx))
        hR3 (by intro x hx; exact absurd hx (List.not_mem_nil x)) htr3 out hrun
      refine ⟨hrec.1, ?_⟩
      intro st' heq
      obtain ⟨hm, hb, hr, hd⟩ := hrec.2 st' heq
      refine ⟨?_, hb, hr, hd⟩
      intro x hx
      exact hm x (hmono3 x (hdom2 ▸ hx))
    | halted r2 st3 =>
      rw [hs] at hrun
      subst hrun
      obtain ⟨htr3, -⟩ := hstep.2 r2 st3 hs
      refine ⟨htr3, ?_⟩
      intro st' heq
      exact LoopOut.noConfusion heq
    | thrown st3 =>
      rw [hs] at hrun
      subst hrun
      exfalso
      rw [execStep] at hs
      rcases hexec2 : executeSingleNode env nodes R st2 with ⟨r0, st0⟩
      rw [hexec2] at hs
      dsimp only at hs
      by_cases hrs : r0.success
      · rw [if_pos hrs] at hs
        exact LoopOut.noConfusion hs
      · rw [if_neg hrs] at hs
        exact LoopOut.noConfusion hs

theorem runRepeatItersC8 (env : RunEnv) (nodes : NodeMap) (inc : List String)
    (hids : ∀ id node, nodeGet nodes id = some node → node.id = id)
    (R : String) (node : WorkflowNode) (D B : List String)
    (hget : nodeGet nodes R = some node)
    (hDex : ∀ d ∈ D, (nodeGet nodes d).isSome)
    (hsrcR : ∀ s, isSource nodes inc R s → s ∈ B)
    (hsrcD : ∀ d ∈ D, ∀ s, isSource nodes inc d s →
      s = R ∨ (s ∈ D ∧ listBefore D s d) ∨ s ∈ B)
    (hndD : D.Nodup) (delay : Int) :
    ∀ (k g : Nat) (st : RunState),
      (∀ x ∈ B, x ∈ domOf st) → traceOK nodes inc st.trace →
      ∀ g' out, runRepeatIters env nodes R D delay k g st = (g', out) →
        traceOK nodes inc (loopOutState out).trace ∧
        (∀ st', out = .continued st' →
          (∀ x ∈ domOf st, x ∈ domOf st') ∧ (∀ x ∈ B, x ∈ domOf st') ∧
          (1 ≤ k → R ∈ domOf st' ∧ (∀ x ∈ D, x ∈ domOf st'))) := by
  intro k
  induction k with
  | zero =>
    intro g st hB htr g' out hrun
    rw [runRepeatIters] at hrun
    injection hrun with h1 h2
    subst h2
    refine ⟨htr, ?_⟩
    intro st' heq
    injection heq with heq
    subst heq
    exact ⟨fun x hx => hx, hB, fun h => absurd h (by omega)⟩
  | succ k ih =>
    intro g st hB htr g' out hrun
    rw [runRepeatIters] at hrun
    cases hit : runRepeatIteration env nodes R D delay g st with
    | continued st2 =>
      rw [hit] at hrun
      have hstep := runRepeatIterationC8 env nodes inc hids R node D B hget hDex
        hsrcR hsrcD hndD delay g st hB htr (.continued st2) hit
      obtain ⟨hm2, hb2, hr2, hd2⟩ := hstep.2 st2 rfl
      have hrec := ih (g + 1) st2 hb2 hstep.1 g' out hrun
      refine ⟨hrec.1, ?_⟩
      intro st' heq
      obtain ⟨hm, hb, -⟩ := hrec.2 st' heq
      refine ⟨fun x hx => hm x (hm2 x hx), hb, fun _ => ⟨hm R hr2, fun x hx => hm x (hd2 x hx)⟩⟩
    | halted r2 st2 =>
      rw [hit] at hrun
      injection hrun with h1 h2
      subst h2
      have hstep := runRepeatIterationC8 env nodes inc hids R node D B hget hDex
        hsrcR hsrcD hndD delay g st hB htr (.halted r2 st2) hit
      refine ⟨hstep.1, ?_⟩
      intro st' heq
      exact LoopOut.noConfusion heq
    | thrown st2 =>
      rw [hit] at hrun
      injection hrun with h1 h2
      subst h2
      have hstep := runRepeatIterationC8 env nodes inc hids R node D B hget hDex
        hsrcR hsrcD hndD delay g st hB htr (.thrown st2) hit
      refine ⟨hstep.1, ?_⟩
      intro st' heq
      exact LoopOut.noConfusion heq

theorem runRepeatCyclesC8 (env : RunEnv) (nodes : NodeMap) (inc : List String)
    (hids : ∀ id node, nodeGet nodes id = some node → node.id = id)
    (R : String) (node : WorkflowNode) (D B : List String)
    (hget : nodeGet nodes R = some node)
    (hDex : ∀ d ∈ D, (nodeGet nodes d).isSome)
    (hsrcR : ∀ s, isSource nodes inc R s → s ∈ B)
    (hsrcD : ∀ d ∈ D, ∀ s, isSource nodes inc d s →
      s = R ∨ (s ∈ D ∧ listBefore D s d) ∨ s ∈ B)
    (hndD : D.Nodup) (delay : Int) (repeatCount : Nat) (hrc : 1 ≤ repeatCount) :
    ∀ (c g : Nat) (st : RunState),
      (∀ x ∈ B, x ∈ domOf st) → traceOK nodes inc st.trace →
      ∀ out, runRepeatCycles env nodes R D delay repeatCount c g st = out →
        traceOK nodes inc (loopOutState out).trace ∧
        (∀ st', out = .continued st' →
          (∀ x ∈ domOf st, x ∈ domOf st') ∧ (∀ x ∈ B, x ∈ domOf st') ∧
          (1 ≤ c → R ∈ domOf st' ∧ (∀ x ∈ D, x ∈ domOf st'))) := by
  intro c
  induction c with
  | zero =>
    intro g st hB htr out hrun
    rw [runRepeatCycles] at hrun
    subst hrun
    refine ⟨htr, ?_⟩
    intro st' heq
    injection heq with heq
    subst heq
    exact ⟨fun x hx => hx, hB, fun h => absurd h (by omega)⟩
  | succ c ih =>
    intro g st hB htr out hrun
    rw [runRepeatCycles] at hrun
    rcases hit : runRepeatIters env nodes R D delay repeatCount g st with ⟨g2, out2⟩
    rw [hit] at hrun
    have hstep := runRepeatItersC8 env nodes inc hids R node D B hget hDex
      hsrcR hsrcD hndD delay repeatCount g st hB htr g2 out2 hit
    cases out2 with
    | continued st2 =>
      dsimp only at hrun
      obtain ⟨hm2, hb2, hk2⟩ := hstep.2 st2 rfl
      obtain ⟨hr2, hd2⟩ := hk2 hrc
      have hrec := ih g2 st2 hb2 hstep.1 out hrun
      refine ⟨hrec.1, ?_⟩
      intro st' heq
      obtain ⟨hm, hb, -⟩ := hrec.2 st' heq
      exact ⟨fun x hx => hm x (hm2 x hx), hb,
        fun _ => ⟨hm R hr2, fun x hx => hm x (hd2 x hx)⟩⟩
    | halted r2 st2 =>
      dsimp only at hrun
      subst hrun
      refine ⟨hstep.1, ?_⟩
      intro st' heq
      exact LoopOut.noConfusion heq
    | thrown st2 =>
      dsimp only at hrun
      subst hrun
      refine ⟨hstep.1, ?_⟩
      intro st' heq
      exact LoopOut.noConfusion heq

theorem runRepeatBlockC8 (env : RunEnv) (nodes : NodeMap) (inc eo : List String)
    (hids : ∀ id node, nodeGet nodes id = some node → node.id = id)
    (R : String) (node : WorkflowNode) (B : List String)
    (hget : nodeGet nodes R = some node)
    (hDex : ∀ d ∈ getReferencedDownstreamNodeIds eo nodes R inc,
      (nodeGet nodes d).isSome)
    (hsrcR : ∀ s, isSource nodes inc R s → s ∈ B)
    (hsrcD : ∀ d ∈ getReferencedDownstreamNodeIds eo nodes R inc,
      ∀ s, isSource nodes inc d s →
        s = R ∨ (s ∈ getReferencedDownstreamNodeIds eo nodes R inc ∧
          listBefore (getReferencedDownstreamNodeIds eo nodes R inc) s d) ∨ s ∈ B)
    (hndD : (getReferencedDownstreamNodeIds eo nodes R inc).Nodup)
    (fuel : Nat) (st : RunState)
    (hB : ∀ x ∈ B, x ∈ domOf st) (htr : traceOK nodes inc st.trace) :
    ∀ out ds, runRepeatBlock env nodes eo inc R node fuel st = (out, ds) →
      traceOK nodes inc (runOutState out).trace ∧
      (∀ st', out = .done st' →
        (∀ x ∈ domOf st, x ∈ domOf st') ∧ (∀ x ∈ B, x ∈ domOf st') ∧
        R ∈ domOf st' ∧
        (∀ x ∈ getReferencedDownstreamNodeIds eo nodes R inc, x ∈ domOf st') ∧
        ds = getReferencedDownstreamNodeIds eo nodes R inc) := by
  intro out ds hrun
  rw [runRepeatBlock] at hrun
  try dsimp only at hrun
  have hrc : 1 ≤ (max 1 node.repeatCfg.count).toNat := by
    have h1 : (1 : Int) ≤ max 1 node.repeatCfg.count := le_max_left _ _
    omega
  by_cases hlc : (max 0 node.repeatCfg.loopCount).toNat = 0
  · rw [if_pos hlc] at hrun
    cases hcy : runRepeatCycles env nodes R
        (getReferencedDownstreamNodeIds eo nodes R inc)
        (repeatIntervalToMs (max 0 node.repeatCfg.interval) node.repeatCfg.unit)
        (max 1 node.repeatCfg.count).toNat fuel 0 st with
    | continued st2 =>
      rw [hcy] at hrun
      injection hrun with h1 h2
      subst h1
      have hstep := runRepeatCyclesC8 env nodes inc hids R node
        (getReferencedDownstreamNodeIds eo nodes R inc) B hget hDex hsrcR hsrcD
        hndD _ _ hrc fuel 0 st hB htr (.continued st2) hcy
      refine ⟨hstep.1, ?_⟩
      intro st' heq
      exact RunOut.noConfusion heq
    | halted r2 st2 =>
      rw [hcy] at hrun
      injection hrun with h1 h2
      subst h1
      have hstep := runRepeatCyclesC8 env nodes inc hids R node
        (getReferencedDownstreamNodeIds eo nodes R inc) B hget hDex hsrcR hsrcD
        hndD _ _ hrc fuel 0 st hB htr (.halted r2 st2) hcy
      refine ⟨hstep.1, ?_⟩
      intro st' heq
      exact RunOut.noConfusion heq
    | thrown st2 =>
      rw [hcy] at hrun
      injection hrun with h1 h2
      subst h1
      have hstep := runRepeatCyclesC8 env nodes inc hids R node
        (getReferencedDownstreamNodeIds eo nodes R inc) B hget hDex hsrcR hsrcD
        hndD _ _ hrc fuel 0 st hB htr (.thrown st2) hcy
      refine ⟨hstep.1, ?_⟩
      intro st' heq
      exact RunOut.noConfusion heq
  · rw [if_neg hlc] at hrun
    cases hcy : runRepeatCycles env nodes R
        (getReferencedDownstreamNodeIds eo nodes R inc)
        (repeatIntervalToMs (max 0 node.repeatCfg.interval) node.repeatCfg.unit)
        (max 1 node.repeatCfg.count).toNat (max 0 node.repeatCfg.loopCount).toNat
        0 st with
    | continued st2 =>
      rw [hcy] at hrun
      injection hrun with h1 h2
      subst h1
      have hstep := runRepeatCyclesC8 env nodes inc hids R node
        (getReferencedDownstreamNodeIds eo nodes R inc) B hget hDex hsrcR hsrcD
        hndD _ _ hrc _ 0 st hB htr (.continued st2) hcy
      refine ⟨hstep.1, ?_⟩
      intro st' heq
      injection heq with heq
      subst heq
      obtain ⟨hm, hb, hk⟩ := hstep.2 st2 rfl
      obtain ⟨hr, hd⟩ := hk (by omega)
      exact ⟨hm, hb, hr, hd, h2.symm⟩
    | halted r2 st2 =>
      rw [hcy] at hrun
      injection hrun with h1 h2
      subst h1
      have hstep := runRepeatCyclesC8 env nodes inc hids R node
        (getReferencedDownstreamNodeIds eo nodes R inc) B hget hDex hsrcR hsrcD
        hndD _ _ hrc _ 0 st hB htr (.halted r2 st2) hcy
      refine ⟨hstep.1, ?_⟩
      intro st' heq
      exact RunOut.noConfusion heq
    | thrown st2 =>
      rw [hcy] at hrun
      injection hrun with h1 h2
      subst h1
      have hstep := runRepeatCyclesC8 env nodes inc hids R node
        (getReferencedDownstreamNodeIds eo nodes R inc) B hget hDex hsrcR hsrcD
        hndD _ _ hrc _ 0 st hB htr (.thrown st2) hcy
      refine ⟨hstep.1, ?_⟩
      intro st' heq
      exact RunOut.noConfusion heq

theorem runMainLoopC8 (env : RunEnv) (nodes : NodeMap) (inc eo : List String)
    (fuel : Nat)
    (hids : ∀ id node, nodeGet nodes id = some node → node.id = id)
    (hex : ∀ x ∈ eo, (nodeGet nodes x).isSome)
    (hnd : eo.Nodup)
    (hsrcEO : ∀ t ∈ eo, ∀ s, isSource nodes inc t s → s ∈ eo ∧ listBefore eo s t)
    (hclos : ∀ R ∈ eo, ∀ node, nodeGet nodes R = some node →
      node.repeatCfg.enabled = true →
      ∀ d ∈ getReferencedDownstreamNodeIds eo nodes R inc,
      ∀ s, isSource nodes inc d s →
        s = R ∨ s ∈ getReferencedDownstreamNodeIds eo nodes R inc ∨
          listBefore eo s R) :
    ∀ (l skipped done : List String) (st : RunState),
      eo = done ++ l →
      (∀ x ∈ done, x ∈ domOf st) → (∀ x ∈ skipped, x ∈ domOf st) →
      traceOK nodes inc st.trace →
      ∀ out, runMainLoop env nodes inc eo fuel l skipped st = out →
        traceOK nodes inc (runOutState out).trace := by
  intro l
  induction l with
  | nil =>
    intro skipped done st hsplit hdone hskip htr out hrun
    rw [runMainLoop] at hrun
    subst hrun
    exact htr
  | cons t rest ih =>
    intro skipped done st hsplit hdone hskip htr out hrun
    have htEO : t ∈ eo := by
      rw [hsplit]
      exact List.mem_append.mpr (Or.inr (List.mem_cons_self t rest))
    rw [runMainLoop] at hrun
    by_cases hsig : env.signal st.tick
    · rw [if_pos hsig] at hrun
      subst hrun
      exact htr
    · rw [if_neg hsig] at hrun
      dsimp only at hrun
      by_cases hskipt : t ∈ skipped
      · rw [if_pos hskipt] at hrun
        refine ih skipped (done ++ [t]) { st with tick := st.tick + 1 }
          (by rw [hsplit, List.append_assoc]; rfl)
          ?_ hskip htr out hrun
        intro x hx
        rcases List.mem_append.mp hx with hx | hx
        · exact hdone x hx
        · have : x = t := by simpa using hx
          rw [this]
          exact hskip t hskipt
      · rw [if_neg hskipt] at hrun
        cases hget : nodeGet nodes t with
        | none =>
          exfalso
          have := hex t htEO
          rw [hget] at this
          exact Bool.noConfusion this
        | some node =>
          rw [hget] at hrun
          dsimp only at hrun
          have hid : node.id = t := hids t node hget
          have hndsplit : (done ++ t :: rest).Nodup := hsplit ▸ hnd
          have hreadybase : ∀ s, isSource nodes inc t s → s ∈ done := by
            intro s hsrc
            obtain ⟨-, hbef⟩ := hsrcEO t htEO s hsrc
            exact nodup_split_mem_left done rest s t hndsplit (hsplit ▸ hbef)
          by_cases hrep : node.repeatCfg.enabled = false
          · rw [if_pos hrep] at hrun
            have hready : sourcesReady nodes inc t { st with tick := st.tick + 1 } := by
              intro s hsrc
              exact hdone s (hreadybase s hsrc)
            have hstep := execStepC8 env nodes inc t node
              { st with tick := st.tick + 1 } hget hid hready htr
            cases hs : execStep env nodes t { st with tick := st.tick + 1 } with
            | continued st2 =>
              rw [hs] at hrun
              obtain ⟨htr2, hmono2, ht2⟩ := hstep.1 st2 hs
              refine ih skipped (done ++ [t]) st2
                (by rw [hsplit, List.append_assoc]; rfl) ?_
                (fun x hx => hmono2 x (hskip x hx)) htr2 out hrun
              intro x hx
              rcases List.mem_append.mp hx with hx | hx
              · exact hmono2 x (hdone x hx)
              · have : x = t := by simpa using hx
                rw [this]
                exact ht2
            | halted r2 st2 =>
              rw [hs] at hrun
              subst hrun
              exact (hstep.2 r2 st2 hs).1
            | thrown st2 =>
              rw [hs] at hrun
              subst hrun
              exfalso
              rw [execStep] at hs
              rcases hexec2 : executeSingleNode env nodes t
                  { st with tick := st.tick + 1 } with ⟨r0, st0⟩
              rw [hexec2] at hs
              dsimp only at hs
              by_cases hrs : r0.success
              · rw [if_pos hrs] at hs
                exact LoopOut.noConfusion hs
              · rw [if_neg hrs] at hs
                exact LoopOut.noConfusion hs
          · rw [if_neg hrep] at hrun
            have hrept : node.repeatCfg.enabled = true := by
              cases h : node.repeatCfg.enabled with
              | false => exact absurd h hrep
              | true => rfl
            have hDsub : (getReferencedDownstreamNodeIds eo nodes t inc).Sublist eo :=
              (closure_sublist eo nodes t inc).1
            have hDex : ∀ d ∈ getReferencedDownstreamNodeIds eo nodes t inc,
                (nodeGet nodes d).isSome :=
              fun d hd => hex d (hDsub.subset hd)
            have hndD : (getReferencedDownstreamNodeIds eo nodes t inc).Nodup :=
              hDsub.nodup hnd
            have hsrcD : ∀ d ∈ getReferencedDownstreamNodeIds eo nodes t inc,
                ∀ s, isSource nodes inc d s →
                  s = t ∨ (s ∈ getReferencedDownstreamNodeIds eo nodes t inc ∧
                    listBefore (getReferencedDownstreamNodeIds eo nodes t inc) s d) ∨
                  s ∈ done := by
              intro d hd s hsrc
              rcases hclos t htEO node hget hrept d hd s hsrc with h | h | h
              · exact Or.inl h
              · refine Or.inr (Or.inl ⟨h, ?_⟩)
                obtain ⟨-, hbef⟩ := hsrcEO d (hDsub.subset hd) s hsrc
                exact sublist_listBefore _ eo hDsub hnd s d h hd hbef
              · exact Or.inr (Or.inr
                  (nodup_split_mem_left done rest s t hndsplit (hsplit ▸ h)))
            rcases hblk : runRepeatBlock env nodes eo inc t node fuel
                { st with tick := st.tick + 1 } with ⟨out2, ds0⟩
            rw [hblk] at hrun
            have hblock := runRepeatBlockC8 env nodes inc eo hids t node done hget
              hDex hreadybase hsrcD hndD fuel { st with tick := st.tick + 1 }
              (fun x hx => hdone x hx) htr out2 ds0 hblk
            cases out2 with
            | done st2 =>
              dsimp only at hrun
              obtain ⟨hm2, hb2, ht2, hd2, hds⟩ := hblock.2 st2 rfl
              refine ih (ds0.foldl setAdd skipped) (done ++ [t]) st2
                (by rw [hsplit, List.append_assoc]; rfl) ?_ ?_ hblock.1 out hrun
              · intro x hx
                rcases List.mem_append.mp hx with hx | hx
                · exact hm2 x (hdone x hx)
                · have : x = t := by simpa using hx
                  rw [this]
                  exact ht2
              · intro x hx
                rcases (mem_foldl_setAdd ds0 skipped x).mp hx with hx | hx
                · exact hm2 x (hskip x hx)
                · rw [hds] at hx
                  exact hd2 x hx
            | halted r2 st2 =>
              dsimp only at hrun
              subst hrun
              exact hblock.1
            | thrown st2 =>
              dsimp only at hrun
              subst hrun
              exact hblock.1
            | diverged st2 =>
              dsimp only at hrun
              subst hrun
              exact hblock.1

/-- Claim C8 (corrected): within one run, a node is never invoked before
all of its in-subset upstream reference sources have an output in the
outputs map (recorded earlier in the run or carried over from seeding),
provided the display order is duplicate-free, every listed id resolves to
a node carrying that id, and every in-subset source of every downstream
dependent re-executed inside a repeating node's loop is the repeating node
itself, another member of that downstream closure, or a node placed before
the repeating node in the planned order.  Without the last proviso the
property fails (see the counterexample). -/
theorem claimC8_no_premature_invocation (env : RunEnv) (nodes : NodeMap)
    (order : List String) (startIndex endIndexExclusive : Int) (fuel : Nat)
    (horder : order.Nodup)
    (hids : ∀ id node, nodeGet nodes id = some node → node.id = id)
    (hexist : ∀ x ∈ order, (nodeGet nodes x).isSome)
    (hclos : ∀ R ∈ runExecOrder order nodes startIndex endIndexExclusive,
      ∀ node, nodeGet nodes R = some node → node.repeatCfg.enabled = true →
      ∀ d ∈ getReferencedDownstreamNodeIds
          (runExecOrder order nodes startIndex endIndexExclusive) nodes R
          (runIncluded order startIndex endIndexExclusive),
      ∀ s, isSource nodes (runIncluded order startIndex endIndexExclusive) d s →
        s = R ∨
        s ∈ getReferencedDownstreamNodeIds
          (runExecOrder order nodes startIndex endIndexExclusive) nodes R
          (runIncluded order startIndex endIndexExclusive) ∨
        listBefore (runExecOrder order nodes startIndex endIndexExclusive) s R) :
    traceOK nodes (runIncluded order startIndex endIndexExclusive)
      (runRange env nodes order startIndex endIndexExclusive fuel).state.trace := by
  rw [runRange]
  by_cases hstart : startIndex < 0 ∨ startIndex > min endIndexExclusive (order.length : Int)
  · rw [if_pos hstart]
    exact fun t ks hmem => absurd hmem (List.not_mem_nil _)
  · rw [if_neg hstart]
    by_cases hcyc : (buildDependencyExecutionOrder order nodes).hasCycle
    · rw [if_pos hcyc]
      exact fun t ks hmem => absurd hmem (List.not_mem_nil _)
    · rw [if_neg hcyc]
      dsimp only
      have hlen : (plannerResult order nodes).length
          = (plannerIds order nodes).length := by
        by_contra hne
        exact hcyc (by rw [buildOrder_eq]; exact decide_eq_true hne)
      have hPOrd : (buildDependencyExecutionOrder order nodes).orderedNodeIds
          = plannerResult order nodes := by
        rw [buildOrder_eq]
        exact if_pos hlen
      have heoP : runExecOrder order nodes startIndex endIndexExclusive
          = (plannerResult order nodes).filter
              (fun nodeId => nodeId ∈ runIncluded order startIndex endIndexExclusive) := by
        rw [runExecOrder, hPOrd]
      have hcore := planner_core order nodes [] horder hids (by simp)
      have hincsub : ∀ x ∈ runIncluded order startIndex endIndexExclusive,
          x ∈ order := by
        intro x hx
        rw [runIncluded] at hx
        exact (List.drop_sublist _ _).subset ((List.take_sublist _ _).subset hx)
      have hmemIds : ∀ x ∈ runIncluded order startIndex endIndexExclusive,
          x ∈ plannerIds order nodes := by
        intro x hx
        rw [plannerIds, List.mem_filter]
        exact ⟨hincsub x hx, hexist x (hincsub x hx)⟩
      have hndeo : (runExecOrder order nodes startIndex endIndexExclusive).Nodup := by
        rw [heoP]
        exact hcore.1.filter _
      have hexeo : ∀ x ∈ runExecOrder order nodes startIndex endIndexExclusive,
          (nodeGet nodes x).isSome := by
        intro x hx
        rw [heoP, List.mem_filter] at hx
        exact hexist x (hincsub x (by simpa using hx.2))
      have hsrcEO : ∀ t ∈ runExecOrder order nodes startIndex endIndexExclusive,
          ∀ s, isSource nodes (runIncluded order startIndex endIndexExclusive) t s →
            s ∈ runExecOrder order nodes startIndex endIndexExclusive ∧
            listBefore (runExecOrder order nodes startIndex endIndexExclusive) s t := by
        intro t ht s hsrc
        obtain ⟨node, hget, ⟨pb, hpb, path, href⟩, hsinc⟩ := hsrc
        rw [heoP, List.mem_filter] at ht
        have hedge : adjEdge (buildReferenceAdjacency (plannerIds order nodes) nodes)
            s t := by
          rw [buildReferenceAdjacency_edge]
          exact ⟨t, hcore.2.1 t ht.1, node, hget, ⟨pb, hpb, path, href⟩,
            hmemIds s hsinc, (hids t node hget).symm⟩
        have hbefP := hcore.2.2.1 t ht.1 s hedge
        have hsP : s ∈ plannerResult order nodes := by
          obtain ⟨l1, l2, hPeq, hmem⟩ := hbefP
          rw [hPeq]
          exact List.mem_append.mpr (Or.inl hmem)
        constructor
        · rw [heoP, List.mem_filter]
          exact ⟨hsP, by simpa using hsinc⟩
        · rw [heoP]
          exact listBefore_filter _ _ _ _ hbefP (by simpa using hsinc) ht.2
      split
      · rename_i st' heq
        dsimp only
        exact runMainLoopC8 env nodes
          (runIncluded order startIndex endIndexExclusive)
          (runExecOrder order nodes startIndex endIndexExclusive) fuel
          hids hexeo hndeo hsrcEO hclos
          (runExecOrder order nodes startIndex endIndexExclusive) [] [] _ rfl
          (fun x hx => absurd hx (List.not_mem_nil x))
          (fun x hx => absurd hx (List.not_mem_nil x))
          (fun t ks hmem => absurd hmem (List.not_mem_nil _)) _ heq
      · rename_i r2 st' heq
        dsimp only
        exact runMainLoopC8 env nodes
          (runIncluded order startIndex endIndexExclusive)
          (runExecOrder order nodes startIndex endIndexExclusive) fuel
          hids hexeo hndeo hsrcEO hclos
          (runExecOrder order nodes startIndex endIndexExclusive) [] [] _ rfl
          (fun x hx => absurd hx (List.not_mem_nil x))
          (fun x hx => absurd hx (List.not_mem_nil x))
          (fun t ks hmem => absurd hmem (List.not_mem_nil _)) _ heq
      · rename_i st' heq
        dsimp only
        exact runMainLoopC8 env nodes
          (runIncluded order startIndex endIndexExclusive)
          (runExecOrder order nodes startIndex endIndexExclusive) fuel
          hids hexeo hndeo hsrcEO hclos
          (runExecOrder order nodes startIndex endIndexExclusive) [] [] _ rfl
          (fun x hx => absurd hx (List.not_mem_nil x))
          (fun x hx => absurd hx (List.not_mem_nil x))
          (fun t ks hmem => absurd hmem (List.not_mem_nil _)) _ heq
      · rename_i st' heq
        dsimp only
        exact runMainLoopC8 env nodes
          (runIncluded order startIndex endIndexExclusive)
          (runExecOrder order nodes startIndex endIndexExclusive) fuel
          hids hexeo hndeo hsrcEO hclos
          (runExecOrder order nodes startIndex endIndexExclusive) [] [] _ rfl
          (fun x hx => absurd hx (List.not_mem_nil x))
          (fun x hx => absurd hx (List.not_mem_nil x))
          (fun t ks hmem => absurd hmem (List.not_mem_nil _)) _ heq

/-- Claim C8 counterexample (original, unqualified reading): in the
three-node diamond `R` (repeating) / `X` / `D` (referencing both), `D` is
re-executed inside `R`'s repeat loop and invoked while its in-subset
source `X` has no output yet, so the run's trace violates the property. -/
theorem claimC8_counterexample :
    (runRange envD nmRXD ["R", "X", "D"] 0 3 10).state.trace
      = [.invoke "R" [], .invoke "D" ["R"]] ∧
    isSource nmRXD (runIncluded ["R", "X", "D"] 0 3) "D" "X" ∧
    "X" ∉ (["R"] : List String) ∧
    ¬ traceOK nmRXD (runIncluded ["R", "X", "D"] 0 3)
        (runRange envD nmRXD ["R", "X", "D"] 0 3 10).state.trace := by
  have hsrc : isSource nmRXD (runIncluded ["R", "X", "D"] 0 3) "D" "X" := by
    refine ⟨nodeD, rfl, ⟨⟨"x", .ref "X" "result"⟩, ?_, "result", rfl⟩, by decide⟩
    simp [nodeD]
  refine ⟨rfl, hsrc, by decide, ?_⟩
  intro htr
  have hmem : TraceEvent.invoke "D" ["R"]
      ∈ (runRange envD nmRXD ["R", "X", "D"] 0 3 10).state.trace := by
    show TraceEvent.invoke "D" ["R"]
      ∈ [TraceEvent.invoke "R" [], TraceEvent.invoke "D" ["R"]]
    exact List.mem_cons_of_mem _ (List.mem_cons_self _ _)
  have := htr "D" ["R"] hmem "X" hsrc
  simp at this

theorem hids_nmRS : ∀ id node, nodeGet nmRS id = some node → node.id = id := by
  intro id node h
  simp only [nodeGet, nmRS, mapGet] at h
  by_cases h1 : "R" = id
  · rw [if_pos h1] at h
    cases h
    exact h1
  · rw [if_neg h1] at h
    by_cases h2 : "S" = id
    · rw [if_pos h2] at h
      cases h
      exact h2
    · rw [if_neg h2] at h
      exact Option.noConfusion h

theorem hclos_nmRS : ∀ R ∈ runExecOrder ["R", "S"] nmRS 0 2,
    ∀ node, nodeGet nmRS R = some node → node.repeatCfg.enabled = true →
    ∀ d ∈ getReferencedDownstreamNodeIds (runExecOrder ["R", "S"] nmRS 0 2)
        nmRS R (runIncluded ["R", "S"] 0 2),
    ∀ s, isSource nmRS (runIncluded ["R", "S"] 0 2) d s →
      s = R ∨
      s ∈ getReferencedDownstreamNodeIds (runExecOrder ["R", "S"] nmRS 0 2)
        nmRS R (runIncluded ["R", "S"] 0 2) ∨
      listBefore (runExecOrder ["R", "S"] nmRS 0 2) s R := by
  intro R hR node hget hrep d hd s hsrc
  have heo : runExecOrder ["R", "S"] nmRS 0 2 = ["R", "S"] := rfl
  rw [heo] at hR
  have hR2 : R = "R" ∨ R = "S" := by simpa using hR
  rcases hR2 with h | h
  · subst h
    have hds : getReferencedDownstreamNodeIds (runExecOrder ["R", "S"] nmRS 0 2)
        nmRS "R" (runIncluded ["R", "S"] 0 2) = ["S"] := rfl
    rw [hds] at hd
    have hd2 : d = "S" := by simpa using hd
    subst hd2
    obtain ⟨node2, hget2, ⟨pb, hpb, path, href⟩, hsinc⟩ := hsrc
    have hgS : nodeGet nmRS "S" = some nodeS := rfl
    rw [hgS] at hget2
    injection hget2 with h2
    rw [← h2] at hpb
    have hpb2 : pb = ⟨"x", ParamValue.ref "R" "result"⟩ := by
      simpa [nodeS] using hpb
    rw [hpb2] at href
    have href2 : ParamValue.ref "R" "result" = ParamValue.ref s path := href
    injection href2 with h3 h4
    exact Or.inl h3.symm
  · subst h
    have hgS : nodeGet nmRS "S" = some nodeS := rfl
    rw [hgS] at hget
    injection hget with h2
    rw [← h2] at hrep
    exact Bool.noConfusion hrep

/-- Witness for C8 on the interleaving scenario `R` (repeating) feeding
`S`: the hypotheses hold concretely and the trace property follows. -/
theorem claimC8_no_premature_invocation_witness :
    (["R", "S"] : List String).Nodup ∧
    (∀ x ∈ (["R", "S"] : List String), (nodeGet nmRS x).isSome) ∧
    traceOK nmRS (runIncluded ["R", "S"] 0 2)
      (runRange envOk nmRS ["R", "S"] 0 2 50).state.trace :=
  ⟨by decide, by decide,
   claimC8_no_premature_invocation envOk nmRS ["R", "S"] 0 2 50 (by decide)
     hids_nmRS (by decide) hclos_nmRS⟩
